import Mathlib

/-!
# Intrusive lists and session manager of `ma_asio_samples`

A shallow embedding of `ma::detail::intrusive_list`, `ma::detail::intrusive_forward_list`
(`intrusive_list.hpp`), `ma::sp_intrusive_list` (`sp_intrusive_list.hpp`) and of the state
machine of `ma::echo::server::session_manager` (`session_manager.hpp`).

* A value is identified by its address, a natural number.  A pointer is an `Option Nat`,
  `none` being the null pointer.
* The hooks embedded in the values form a store `Nat → base_hook`; an assignment through
  `get_hook(x)` is a point update of that store.
* Every list operation is a function from the store and the list header(s) to the new store
  and header(s), following the statements of the C++ body one by one.  Reads of a hook that
  come after a write re-read the current store, so aliasing between `value`, `front_`,
  `back_` and the neighbours behaves as in the source.
* `BOOST_ASSERT_MSG` is a debug check; the operations below are the code without it.
-/

namespace ma

/-! ## Hook store -/

/-- Hook of `intrusive_list` and of `sp_intrusive_list` (`base_hook`): the members `prev_`
and `next_`.  For `sp_intrusive_list` the member `prev_` is a `weak_ptr` and `next_` a
`shared_ptr`; values are not destroyed in this model, so `prev_.lock()` is the stored
pointer. -/
@[ext]
structure base_hook where
  prev_ : Option Nat
  next_ : Option Nat
deriving DecidableEq, Repr

/-- The hooks of all values, by address. -/
abbrev Hooks := Nat → base_hook

/-- Assignment `get_hook(*a).prev_ = p`. -/
def setPrev (m : Hooks) (a : Nat) (p : Option Nat) : Hooks :=
  fun b => if b = a then { m b with prev_ := p } else m b

/-- Assignment `get_hook(*a).next_ = n`. -/
def setNext (m : Hooks) (a : Nat) (n : Option Nat) : Hooks :=
  fun b => if b = a then { m b with next_ := n } else m b

/-- A hook is unlinked: `!hook.prev_ && !hook.next_`. -/
def unlinked (k : base_hook) : Prop := k.prev_ = none ∧ k.next_ = none

instance (k : base_hook) : Decidable (unlinked k) := by
  unfold unlinked; infer_instance

/-! ## Doubly linked `intrusive_list` -/

/-- Data members of `intrusive_list<Value>`. -/
structure intrusive_list where
  front_ : Option Nat
  back_ : Option Nat
deriving DecidableEq, Repr

namespace intrusive_list

/-- Embedding of `intrusive_list::push_front(reference value)`. -/
def push_front (m : Hooks) (l : intrusive_list) (value : Nat) : Hooks × intrusive_list :=
  -- value_hook.next_ = front_;
  let m1 := setNext m value l.front_
  -- if (value_hook.next_) get_hook(*value_hook.next_).prev_ = value_ptr;
  let m2 := match (m1 value).next_ with
    | some n => setPrev m1 n (some value)
    | none => m1
  -- front_ = value_ptr;
  let l1 : intrusive_list := { l with front_ := some value }
  -- if (!back_) back_ = front_;
  let l2 : intrusive_list := match l1.back_ with
    | none => { l1 with back_ := l1.front_ }
    | some _ => l1
  (m2, l2)

/-- Embedding of `intrusive_list::push_back(reference value)`. -/
def push_back (m : Hooks) (l : intrusive_list) (value : Nat) : Hooks × intrusive_list :=
  -- value_hook.prev_ = back_;
  let m1 := setPrev m value l.back_
  -- if (value_hook.prev_) get_hook(*value_hook.prev_).next_ = value_ptr;
  let m2 := match (m1 value).prev_ with
    | some p => setNext m1 p (some value)
    | none => m1
  -- back_ = value_ptr;
  let l1 : intrusive_list := { l with back_ := some value }
  -- if (!front_) front_ = back_;
  let l2 : intrusive_list := match l1.front_ with
    | none => { l1 with front_ := l1.back_ }
    | some _ => l1
  (m2, l2)

/-- Embedding of `intrusive_list::erase(reference value)`. -/
def erase (m : Hooks) (l : intrusive_list) (value : Nat) : Hooks × intrusive_list :=
  -- if (value_ptr == front_) front_ = value_hook.next_;
  let l1 : intrusive_list :=
    if l.front_ = some value then { l with front_ := (m value).next_ } else l
  -- if (value_ptr == back_) back_ = value_hook.prev_;
  let l2 : intrusive_list :=
    if l1.back_ = some value then { l1 with back_ := (m value).prev_ } else l1
  -- if (value_hook.prev_) get_hook(*value_hook.prev_).next_ = value_hook.next_;
  let m1 := match (m value).prev_ with
    | some p => setNext m p (m value).next_
    | none => m
  -- if (value_hook.next_) get_hook(*value_hook.next_).prev_ = value_hook.prev_;
  let m2 := match (m1 value).next_ with
    | some n => setPrev m1 n (m1 value).prev_
    | none => m1
  -- value_hook.prev_ = value_hook.next_ = 0;
  let m3 := setPrev (setNext m2 value none) value none
  (m3, l2)

/-- Embedding of `intrusive_list::insert_back(this_type& other)`; the result is the store,
this list and the other list. -/
def insert_back (m : Hooks) (l other : intrusive_list) :
    Hooks × intrusive_list × intrusive_list :=
  match other.front_ with
  -- if (other.empty()) return;
  | none => (m, l, other)
  | some of =>
    match l.front_ with
    -- if (empty()) { front_ = other.front_; back_ = other.back_;
    --                other.front_ = other.back_ = 0; return; }
    | none => (m, { front_ := other.front_, back_ := other.back_ },
        { front_ := none, back_ := none })
    | some _ =>
      match l.back_ with
      -- `*back_` with a null `back_`: undefined in the source, never the case for a
      -- well-formed list; the state is left as it is
      | none => (m, l, other)
      | some b =>
        -- get_hook(*back_).next_ = other.front_;
        let m1 := setNext m b (some of)
        -- get_hook(*other.front_).prev_ = back_;
        let m2 := setPrev m1 of (some b)
        -- back_ = other.back_;  other.front_ = other.back_ = 0;
        (m2, { l with back_ := other.back_ }, { front_ := none, back_ := none })

end intrusive_list

/-! ## Chains -/

/-- First element of `s`, or `e` when `s` is empty. -/
def headOr (s : List Nat) (e : Option Nat) : Option Nat :=
  match s with
  | [] => e
  | a :: _ => some a

/-- Last element of `s`, or `p` when `s` is empty. -/
def lastOr (p : Option Nat) (s : List Nat) : Option Nat :=
  match s.getLast? with
  | none => p
  | some a => some a

/-- The values `s` form a doubly linked segment in the store `m`: the first has `prev_ = p`,
each `next_` is the following value, the last has `next_ = e`, and each `prev_` is the
preceding value. -/
def Seg (m : Hooks) : Option Nat → List Nat → Option Nat → Prop
  | _, [], _ => True
  | p, a :: rest, e => (m a).prev_ = p ∧ (m a).next_ = headOr rest e ∧ Seg m (some a) rest e

instance Seg.decidable (m : Hooks) : (p : Option Nat) → (s : List Nat) → (e : Option Nat) →
    Decidable (Seg m p s e)
  | _, [], _ => isTrue trivial
  | p, a :: rest, e =>
    have := Seg.decidable m (some a) rest e
    show Decidable ((m a).prev_ = p ∧ (m a).next_ = headOr rest e ∧ Seg m (some a) rest e) from
      inferInstance

/-- Well-formed doubly linked list with front-to-back traversal `s`: `front_` and `back_`
are the first and the last value of `s` (both null when `s` is empty), the front has no
predecessor, the back no successor, and `prev_` mirrors `next_` along the chain. -/
def WF (m : Hooks) (l : intrusive_list) (s : List Nat) : Prop :=
  l.front_ = s.head? ∧ l.back_ = s.getLast? ∧ Seg m none s none

instance (m : Hooks) (l : intrusive_list) (s : List Nat) : Decidable (WF m l s) := by
  unfold WF; infer_instance

/-- Traversal with `next`, as a client walks the list: at most `fuel` values starting at `p`. -/
def traverse (m : Hooks) : Nat → Option Nat → List Nat
  | 0, _ => []
  | _, none => []
  | fuel + 1, some a => a :: traverse m fuel (m a).next_

/-- Store in which every hook is unlinked. -/
def freshHooks : Hooks := fun _ => { prev_ := none, next_ := none }

/-! ## Singly linked `intrusive_forward_list` -/

/-- Data members of `intrusive_forward_list<Value>`. -/
structure intrusive_forward_list where
  front_ : Option Nat
  back_ : Option Nat
deriving DecidableEq, Repr

namespace intrusive_forward_list

/-- Hook of `intrusive_forward_list` (`intrusive_forward_list::base_hook`): the member
`next_`. -/
@[ext]
structure base_hook where
  next_ : Option Nat
deriving DecidableEq, Repr

/-- The forward hooks of all values, by address. -/
abbrev Hooks := Nat → base_hook

/-- Assignment `get_hook(*a).next_ = n`. -/
def setNext (m : Hooks) (a : Nat) (n : Option Nat) : Hooks :=
  fun b => if b = a then { next_ := n } else m b

/-- Embedding of `intrusive_forward_list::insert_front(this_type& other)`; the result is the
store, this list and the other list. -/
def insert_front (m : Hooks) (l other : intrusive_forward_list) :
    Hooks × intrusive_forward_list × intrusive_forward_list :=
  match other.front_ with
  -- if (other.empty()) return;
  | none => (m, l, other)
  | some _ =>
    match l.front_ with
    -- if (empty()) { front_ = other.front_; back_ = other.back_;
    --                other.front_ = other.back_ = 0; return; }
    | none => (m, { front_ := other.front_, back_ := other.back_ },
        { front_ := none, back_ := none })
    | some _ =>
      match other.back_ with
      -- `*other.back_` with a null `back_`: undefined in the source, never the case for a
      -- well-formed list; the state is left as it is
      | none => (m, l, other)
      | some ob =>
        -- get_hook(*other.back_).next_ = front_;
        let m1 := setNext m ob l.front_
        -- front_ = other.front_;  other.front_ = other.back_ = 0;
        (m1, { l with front_ := other.front_ }, { front_ := none, back_ := none })

/-- The values `s` form a singly linked segment in the store `m`: each `next_` is the
following value and the last has `next_ = e`. -/
def Seg (m : Hooks) : List Nat → Option Nat → Prop
  | [], _ => True
  | a :: rest, e => (m a).next_ = headOr rest e ∧ Seg m rest e

instance Seg.decidable (m : Hooks) : (s : List Nat) → (e : Option Nat) → Decidable (Seg m s e)
  | [], _ => isTrue trivial
  | a :: rest, e =>
    have := Seg.decidable m rest e
    show Decidable ((m a).next_ = headOr rest e ∧ Seg m rest e) from inferInstance

/-- Well-formed singly linked list with traversal `s`: `front_` and `back_` are the first and
the last value of `s` (both null when `s` is empty), `next_` leads from each value to the
following one, and the last value has a null `next_`. -/
def WF (m : Hooks) (l : intrusive_forward_list) (s : List Nat) : Prop :=
  l.front_ = s.head? ∧ l.back_ = s.getLast? ∧ Seg m s none

instance (m : Hooks) (l : intrusive_forward_list) (s : List Nat) : Decidable (WF m l s) := by
  unfold WF; infer_instance

/-- Traversal with `next`: at most `fuel` values starting at `p`. -/
def traverse (m : Hooks) : Nat → Option Nat → List Nat
  | 0, _ => []
  | _, none => []
  | fuel + 1, some a => a :: traverse m fuel (m a).next_

/-- Store holding the forward lists 1, 2, 3 and 5, 6; every other hook has a null `next_`. -/
def demoHooks : Hooks := fun a =>
  if a = 1 then { next_ := some 2 }
  else if a = 2 then { next_ := some 3 }
  else if a = 5 then { next_ := some 6 }
  else { next_ := none }

/-- Header of the forward list 1, 2, 3 of `demoHooks`. -/
def demoList : intrusive_forward_list := { front_ := some 1, back_ := some 3 }

/-- Header of the forward list 5, 6 of `demoHooks`. -/
def otherList : intrusive_forward_list := { front_ := some 5, back_ := some 6 }

end intrusive_forward_list

/-! ## `sp_intrusive_list` -/

/-- Data members of `sp_intrusive_list<Value>`: the counter `size_` (a `std::size_t`) and the
`shared_ptr` `front_`. -/
structure sp_intrusive_list where
  size_ : Nat
  front_ : Option Nat
deriving DecidableEq, Repr

namespace sp_intrusive_list

/-- Embedding of `sp_intrusive_list::push_front(const shared_pointer& value)` for a non-null
`value` (a null `value` is dereferenced by the source); `w` is the width of `std::size_t`. -/
def push_front (w : Nat) (m : Hooks) (l : sp_intrusive_list) (value : Nat) :
    Hooks × sp_intrusive_list :=
  -- value_hook.next_ = front_;
  let m1 := setNext m value l.front_
  -- if (front_) get_hook(*front_).prev_ = value;
  let m2 := match l.front_ with
    | some f => setPrev m1 f (some value)
    | none => m1
  -- front_ = value;  ++size_;
  (m2, { size_ := (l.size_ + 1) % 2 ^ w, front_ := some value })

/-- Embedding of `sp_intrusive_list::erase(const shared_pointer& value)` for a non-null
`value`; `w` is the width of `std::size_t`. -/
def erase (w : Nat) (m : Hooks) (l : sp_intrusive_list) (value : Nat) :
    Hooks × sp_intrusive_list :=
  -- if (value == front_) front_ = value_hook.next_;
  let l1 : sp_intrusive_list :=
    if l.front_ = some value then { l with front_ := (m value).next_ } else l
  -- const shared_pointer prev = value_hook.prev_.lock();
  let prev := (m value).prev_
  -- if (prev) get_hook(*prev).next_ = value_hook.next_;
  let m1 := match prev with
    | some p => setNext m p (m value).next_
    | none => m
  -- if (value_hook.next_) get_hook(*value_hook.next_).prev_ = value_hook.prev_;
  let m2 := match (m1 value).next_ with
    | some n => setPrev m1 n (m1 value).prev_
    | none => m1
  -- value_hook.prev_.reset();
  let m3 := setPrev m2 value none
  -- value_hook.next_.reset();
  let m4 := setNext m3 value none
  -- --size_;
  (m4, { l1 with size_ := (l1.size_ + (2 ^ w - 1)) % 2 ^ w })

/-- Body of the `while (front_)` loop of `clear()` when `front_` is the value `f`: the new
store and list. -/
def clear_body (m : Hooks) (l : sp_intrusive_list) (f : Nat) : Hooks × sp_intrusive_list :=
  -- shared_pointer tmp;  tmp.swap(front_hook.next_);
  let tmp := (m f).next_
  let m1 := setNext m f none
  -- front_hook.prev_.reset();
  let m2 := setPrev m1 f none
  -- front_.swap(tmp);   (tmp now holds the former front and releases it at the end of the
  -- block)
  (m2, { l with front_ := tmp })

/-- The `while (front_)` loop of `clear()`, run for at most `fuel` iterations; `none` when the
loop has not left after `fuel` iterations.  The third component lists, per iteration, the
value released by `tmp` at the end of the block together with its hook at that moment. -/
def clear_loop : Nat → Hooks → sp_intrusive_list →
    Option (Hooks × sp_intrusive_list × List (Nat × base_hook))
  | 0, m, l =>
    match l.front_ with
    | none => some (m, l, [])
    | some _ => none
  | fuel + 1, m, l =>
    match l.front_ with
    | none => some (m, l, [])
    | some f =>
      match clear_loop fuel (clear_body m l f).1 (clear_body m l f).2 with
      | none => none
      | some r => some (r.1, r.2.1, (f, (clear_body m l f).1 f) :: r.2.2)

/-- Embedding of `sp_intrusive_list::clear()`: the loop, then `size_ = 0`. -/
def clear (fuel : Nat) (m : Hooks) (l : sp_intrusive_list) : Option (Hooks × sp_intrusive_list) :=
  match clear_loop fuel m l with
  | none => none
  | some r => some (r.1, { r.2.1 with size_ := 0 })

/-- Embedding of `sp_intrusive_list::size()`. -/
def size (l : sp_intrusive_list) : Nat := l.size_

/-- Embedding of `sp_intrusive_list::empty()`: `0 == size_`. -/
def empty (l : sp_intrusive_list) : Bool := decide (0 = l.size_)

/-- Embedding of `sp_intrusive_list::front()`. -/
def front (l : sp_intrusive_list) : Option Nat := l.front_

end sp_intrusive_list

/-- Well-formed `sp_intrusive_list` with traversal `s`: `front_` is the first value of `s`
(null when `s` is empty), `next_` leads from each value to the following one and is null at
the last, `prev_` mirrors `next_` and is null at the first, and `size_` is the length of `s`,
a `std::size_t` of `w` bits. -/
def SpWF (w : Nat) (m : Hooks) (l : sp_intrusive_list) (s : List Nat) : Prop :=
  l.front_ = s.head? ∧ Seg m none s none ∧ l.size_ = s.length ∧ s.length < 2 ^ w

instance (w : Nat) (m : Hooks) (l : sp_intrusive_list) (s : List Nat) :
    Decidable (SpWF w m l s) := by
  unfold SpWF; infer_instance

/-- The value `v` is a member of the list: it is reached from `front()` by following
`next`. -/
def SpMember (m : Hooks) (l : sp_intrusive_list) (v : Nat) : Prop :=
  ∃ fuel, v ∈ traverse m fuel l.front_

/-- States reached from the empty list (in any hook store) by `push_front` of a value with an
unlinked hook, `erase` of a member and `clear`.  A value lives at a non-null address of `w`
bits, `std::size_t` being as wide as a pointer.  With `fresh = true` a pushed value must not
already be a member of the list. -/
inductive SpReach (w : Nat) (fresh : Bool) : Hooks → sp_intrusive_list → Prop
  | init (m : Hooks) : SpReach w fresh m { size_ := 0, front_ := none }
  | push_front (m : Hooks) (l : sp_intrusive_list) (v : Nat) :
      SpReach w fresh m l → 0 < v → v < 2 ^ w → unlinked (m v) →
      (fresh = true → ¬ SpMember m l v) →
      SpReach w fresh (sp_intrusive_list.push_front w m l v).1
        (sp_intrusive_list.push_front w m l v).2
  | erase (m : Hooks) (l : sp_intrusive_list) (v : Nat) :
      SpReach w fresh m l → SpMember m l v →
      SpReach w fresh (sp_intrusive_list.erase w m l v).1 (sp_intrusive_list.erase w m l v).2
  | clear (m : Hooks) (l : sp_intrusive_list) (fuel : Nat)
      (r : Hooks × sp_intrusive_list) :
      SpReach w fresh m l → sp_intrusive_list.clear fuel m l = some r →
      SpReach w fresh r.1 r.2

/-- The `next` chain from `p` is finite and consists of the values `s`: a walk allowed
`s.length + 1` values stops at null after exactly the values `s`. -/
def FiniteChain (m : Hooks) (p : Option Nat) (s : List Nat) : Prop :=
  traverse m (s.length + 1) p = s

instance (m : Hooks) (p : Option Nat) (s : List Nat) : Decidable (FiniteChain m p s) := by
  unfold FiniteChain; infer_instance

/-- The `next_` members of a hook store, as a store of forward hooks. -/
def nextOnly (m : Hooks) : intrusive_forward_list.Hooks :=
  fun a => { next_ := (m a).next_ }

/-- `size()` is the number of values reached from `front()` by following `next`, and that
chain is finite. -/
def SizeIsChainLength (m : Hooks) (l : sp_intrusive_list) : Prop :=
  ∃ s : List Nat, FiniteChain m l.front_ s ∧ sp_intrusive_list.size l = s.length

/-- Empty `sp_intrusive_list`, as left by the constructor. -/
def spEmpty : sp_intrusive_list := { size_ := 0, front_ := none }

/-- Header of the `sp_intrusive_list` 1, 2, 3 of `demoHooks`. -/
def spDemoList : sp_intrusive_list := { size_ := 3, front_ := some 1 }

/-- The state after `push_front` of the value 1 on the empty list, twice, with a 64-bit
`size_t`. -/
def spTwicePushed : Hooks × sp_intrusive_list :=
  sp_intrusive_list.push_front 64
    (sp_intrusive_list.push_front 64 freshHooks spEmpty 1).1
    (sp_intrusive_list.push_front 64 freshHooks spEmpty 1).2 1

/-! ## Example stores -/

/-- Store holding the list 1, 2, 3; every other hook is unlinked. -/
def demoHooks : Hooks := fun a =>
  if a = 1 then { prev_ := none, next_ := some 2 }
  else if a = 2 then { prev_ := some 1, next_ := some 3 }
  else if a = 3 then { prev_ := some 2, next_ := none }
  else { prev_ := none, next_ := none }

/-- Header of the list 1, 2, 3 of `demoHooks`. -/
def demoList : intrusive_list := { front_ := some 1, back_ := some 3 }

/-- Header of the list whose only value is 1 (in the store `freshHooks`). -/
def soleList : intrusive_list := { front_ := some 1, back_ := some 1 }

/-- Store holding the lists 1, 2, 3 and 5, 6; every other hook is unlinked. -/
def twoListHooks : Hooks := fun a =>
  if a = 5 then { prev_ := none, next_ := some 6 }
  else if a = 6 then { prev_ := some 5, next_ := none }
  else demoHooks a

/-- Header of the list 5, 6 of `twoListHooks`. -/
def otherList : intrusive_list := { front_ := some 5, back_ := some 6 }

/-! ## Further operations of the raw lists, and their assertions -/

namespace intrusive_list

/-- Embedding of the copy constructor `intrusive_list(const this_type& other)`; the result is
the store, the new list and `other`. -/
def copy_construct (m : Hooks) (other : intrusive_list) :
    Hooks × intrusive_list × intrusive_list :=
  -- : front_(other.front_), back_(other.back_)
  (m, { front_ := other.front_, back_ := other.back_ }, other)

/-- Embedding of `intrusive_list::operator=(const this_type& other)`; the result is the
store, this list and `other`. -/
def copy_assign (m : Hooks) (l other : intrusive_list) :
    Hooks × intrusive_list × intrusive_list :=
  -- front_ = other.front_;
  let l1 : intrusive_list := { l with front_ := other.front_ }
  -- back_ = other.back_;
  let l2 : intrusive_list := { l1 with back_ := other.back_ }
  (m, l2, other)

/-- Embedding of `intrusive_list::pop_front()`.  With a null `front_` the source dereferences
null; the state is then left as it is. -/
def pop_front (m : Hooks) (l : intrusive_list) : Hooks × intrusive_list :=
  match l.front_ with
  | none => (m, l)
  | some value =>
    -- front_ = value_hook.next_;
    let l1 : intrusive_list := { l with front_ := (m value).next_ }
    match l1.front_ with
    | some f =>
      -- if (front_) get_hook(*front_).prev_ = 0;
      let m1 := setPrev m f none
      -- value_hook.next_ = value_hook.prev_ = 0;
      (setNext (setPrev m1 value none) value none, l1)
    | none =>
      -- else back_ = 0;
      let l2 : intrusive_list := { l1 with back_ := none }
      -- value_hook.next_ = value_hook.prev_ = 0;
      (setNext (setPrev m value none) value none, l2)

/-- Embedding of `intrusive_list::pop_back()`.  With a null `back_` the source dereferences
null; the state is then left as it is. -/
def pop_back (m : Hooks) (l : intrusive_list) : Hooks × intrusive_list :=
  match l.back_ with
  | none => (m, l)
  | some value =>
    -- back_ = value_hook.prev_;
    let l1 : intrusive_list := { l with back_ := (m value).prev_ }
    match l1.back_ with
    | some b =>
      -- if (back_) get_hook(*back_).next_ = 0;
      let m1 := setNext m b none
      -- value_hook.next_ = value_hook.prev_ = 0;
      (setNext (setPrev m1 value none) value none, l1)
    | none =>
      -- else front_ = 0;
      let l2 : intrusive_list := { l1 with front_ := none }
      -- value_hook.next_ = value_hook.prev_ = 0;
      (setNext (setPrev m value none) value none, l2)

/-- Embedding of `intrusive_list::swap(this_type& other)`; the result is the store, this list
and `other`. -/
def swap (m : Hooks) (l other : intrusive_list) : Hooks × intrusive_list × intrusive_list :=
  -- std::swap(front_, other.front_);  std::swap(back_, other.back_);
  (m, { front_ := other.front_, back_ := other.back_ },
    { front_ := l.front_, back_ := l.back_ })

/-- Embedding of `intrusive_list::insert_front(this_type& other)`; the result is the store,
this list and the other list. -/
def insert_front (m : Hooks) (l other : intrusive_list) :
    Hooks × intrusive_list × intrusive_list :=
  match other.front_ with
  -- if (other.empty()) return;
  | none => (m, l, other)
  | some _ =>
    match l.front_ with
    -- if (empty()) { front_ = other.front_; back_ = other.back_;
    --                other.front_ = other.back_ = 0; return; }
    | none => (m, { front_ := other.front_, back_ := other.back_ },
        { front_ := none, back_ := none })
    | some f =>
      match other.back_ with
      -- `*other.back_` with a null `back_`: undefined in the source, never the case for a
      -- well-formed list; the state is left as it is
      | none => (m, l, other)
      | some ob =>
        -- get_hook(*other.back_).next_ = front_;
        let m1 := setNext m ob (some f)
        -- get_hook(*front_).prev_ = other.back_;
        let m2 := setPrev m1 f (some ob)
        -- front_ = other.front_;  other.front_ = other.back_ = 0;
        (m2, { l with front_ := other.front_ }, { front_ := none, back_ := none })

/-- The assertions of `push_front`: "The value to push has to be unlinked" on entry, "The
pushed value has to be linked" and "The list has to be not empty" on exit. -/
def push_front_asserts (m : Hooks) (l : intrusive_list) (value : Nat) : Prop :=
  -- !value_hook.prev_ && !value_hook.next_
  ((m value).prev_ = none ∧ (m value).next_ = none) ∧
  -- value_hook.prev_ || value_hook.next_ || (front_ == back_)
  (((push_front m l value).1 value).prev_ ≠ none ∨
    ((push_front m l value).1 value).next_ ≠ none ∨
    (push_front m l value).2.front_ = (push_front m l value).2.back_) ∧
  -- front_ && back_
  ((push_front m l value).2.front_ ≠ none ∧ (push_front m l value).2.back_ ≠ none)

/-- The assertions of `push_back`: "The value to push has to be unlinked" on entry, "The
pushed value has to be linked" and "The list has to be not empty" on exit. -/
def push_back_asserts (m : Hooks) (l : intrusive_list) (value : Nat) : Prop :=
  -- !value_hook.prev_ && !value_hook.next_
  ((m value).prev_ = none ∧ (m value).next_ = none) ∧
  -- value_hook.prev_ || value_hook.next_ || (front_ == back_)
  (((push_back m l value).1 value).prev_ ≠ none ∨
    ((push_back m l value).1 value).next_ ≠ none ∨
    (push_back m l value).2.front_ = (push_back m l value).2.back_) ∧
  -- front_ && back_
  ((push_back m l value).2.front_ ≠ none ∧ (push_back m l value).2.back_ ≠ none)

/-- The assertion of `erase`: "The erased value has to be unlinked" on exit. -/
def erase_asserts (m : Hooks) (l : intrusive_list) (value : Nat) : Prop :=
  -- !value_hook.prev_ && !value_hook.next_
  ((erase m l value).1 value).prev_ = none ∧ ((erase m l value).1 value).next_ = none

/-- The assertions of `pop_front`: "The container is empty" on entry (`front_` is not null)
and "The popped value has to be unlinked" on exit. -/
def pop_front_asserts (m : Hooks) (l : intrusive_list) : Prop :=
  match l.front_ with
  -- BOOST_ASSERT_MSG(front_, ...)
  | none => False
  -- !value_hook.prev_ && !value_hook.next_
  | some value =>
    ((pop_front m l).1 value).prev_ = none ∧ ((pop_front m l).1 value).next_ = none

/-- The assertions of `pop_back`: "The container is empty" on entry (`back_` is not null) and
"The popped value has to be unlinked" on exit. -/
def pop_back_asserts (m : Hooks) (l : intrusive_list) : Prop :=
  match l.back_ with
  -- BOOST_ASSERT_MSG(back_, ...)
  | none => False
  -- !value_hook.prev_ && !value_hook.next_
  | some value =>
    ((pop_back m l).1 value).prev_ = none ∧ ((pop_back m l).1 value).next_ = none

/-- The assertion of `insert_front`: "The moved list has to be empty", reached when neither
list is empty on entry. -/
def insert_front_asserts (m : Hooks) (l other : intrusive_list) : Prop :=
  other.front_ ≠ none → l.front_ ≠ none →
    -- other.empty()
    (insert_front m l other).2.2.front_ = none

/-- The assertion of `insert_back`: "The moved list has to be empty", reached when neither
list is empty on entry. -/
def insert_back_asserts (m : Hooks) (l other : intrusive_list) : Prop :=
  other.front_ ≠ none → l.front_ ≠ none →
    -- other.empty()
    (insert_back m l other).2.2.front_ = none

end intrusive_list

/-- Well-formed doubly linked list: `front_` and `back_` are both null, or the front has a
null `prev_`, the back a null `next_`, the back is reached from the front by finitely many
`next` steps, and `prev_` of each successor on that chain is its predecessor.  The chain is
the traversal `s` of `WF`. -/
def WellFormed (m : Hooks) (l : intrusive_list) : Prop :=
  ∃ s : List Nat, WF m l s

namespace intrusive_forward_list

/-- Embedding of the copy constructor `intrusive_forward_list(const this_type& other)`; the
result is the store, the new list and `other`. -/
def copy_construct (m : Hooks) (other : intrusive_forward_list) :
    Hooks × intrusive_forward_list × intrusive_forward_list :=
  -- : front_(other.front_), back_(other.back_)
  (m, { front_ := other.front_, back_ := other.back_ }, other)

/-- Embedding of `intrusive_forward_list::operator=(const this_type& other)`; the result is
the store, this list and `other`. -/
def copy_assign (m : Hooks) (l other : intrusive_forward_list) :
    Hooks × intrusive_forward_list × intrusive_forward_list :=
  -- front_ = other.front_;
  let l1 : intrusive_forward_list := { l with front_ := other.front_ }
  -- back_ = other.back_;
  let l2 : intrusive_forward_list := { l1 with back_ := other.back_ }
  (m, l2, other)

/-- Embedding of `intrusive_forward_list::push_back(reference value)`. -/
def push_back (m : Hooks) (l : intrusive_forward_list) (value : Nat) :
    Hooks × intrusive_forward_list :=
  -- if (back_) get_hook(*back_).next_ = value_ptr;
  let m1 := match l.back_ with
    | some b => setNext m b (some value)
    | none => m
  -- back_ = value_ptr;
  let l1 : intrusive_forward_list := { l with back_ := some value }
  -- if (!front_) front_ = back_;
  let l2 : intrusive_forward_list := match l1.front_ with
    | none => { l1 with front_ := l1.back_ }
    | some _ => l1
  (m1, l2)

/-- The assertion on entry of `push_back`: "The value to push has to be unlinked". -/
def push_back_assert_unlinked (m : Hooks) (value : Nat) : Prop :=
  -- !value_hook.next_
  (m value).next_ = none

/-- The first assertion on exit of `push_back`: "The pushed value has to be linked". -/
def push_back_assert_linked (m : Hooks) (l : intrusive_forward_list) (value : Nat) : Prop :=
  -- value_hook.next_ || (front_ == back_)
  ((push_back m l value).1 value).next_ ≠ none ∨
    (push_back m l value).2.front_ = (push_back m l value).2.back_

/-- The second assertion on exit of `push_back`: "The list has to be not empty". -/
def push_back_assert_not_empty (m : Hooks) (l : intrusive_forward_list) (value : Nat) :
    Prop :=
  -- front_ && back_
  (push_back m l value).2.front_ ≠ none ∧ (push_back m l value).2.back_ ≠ none

/-- All assertions of `push_back`. -/
def push_back_asserts (m : Hooks) (l : intrusive_forward_list) (value : Nat) : Prop :=
  push_back_assert_unlinked m value ∧ push_back_assert_linked m l value ∧
    push_back_assert_not_empty m l value

/-- Store of forward hooks in which every `next_` is null. -/
def freshHooks : Hooks := fun _ => { next_ := none }

/-- Header of the forward list whose only value is 1 (in the store `freshHooks`). -/
def soleList : intrusive_forward_list := { front_ := some 1, back_ := some 1 }

end intrusive_forward_list

/-- History of an `sp_intrusive_list`: the states reached from the empty list (in any hook
store) together with the members, the values pushed and not erased or cleared since.  A
pushed value has an unlinked hook, is not a member, and lives at a non-null address of `w`
bits; an erased value is a member. -/
inductive SpHistory (w : Nat) : Hooks → sp_intrusive_list → List Nat → Prop
  | init (m : Hooks) : SpHistory w m { size_ := 0, front_ := none } []
  | push_front (m : Hooks) (l : sp_intrusive_list) (s : List Nat) (v : Nat) :
      SpHistory w m l s → 0 < v → v < 2 ^ w → unlinked (m v) → v ∉ s →
      SpHistory w (sp_intrusive_list.push_front w m l v).1
        (sp_intrusive_list.push_front w m l v).2 (v :: s)
  | erase (m : Hooks) (l : sp_intrusive_list) (s : List Nat) (v : Nat) :
      SpHistory w m l s → v ∈ s →
      SpHistory w (sp_intrusive_list.erase w m l v).1 (sp_intrusive_list.erase w m l v).2
        (s.erase v)
  | clear (m : Hooks) (l : sp_intrusive_list) (s : List Nat) (fuel : Nat)
      (r : Hooks × sp_intrusive_list) :
      SpHistory w m l s → sp_intrusive_list.clear fuel m l = some r →
      SpHistory w r.1 r.2 []

namespace intrusive_list

instance (m : Hooks) (l : intrusive_list) (value : Nat) :
    Decidable (push_front_asserts m l value) := by
  unfold push_front_asserts; infer_instance

instance (m : Hooks) (l : intrusive_list) (value : Nat) :
    Decidable (push_back_asserts m l value) := by
  unfold push_back_asserts; infer_instance

instance (m : Hooks) (l : intrusive_list) (value : Nat) :
    Decidable (erase_asserts m l value) := by
  unfold erase_asserts; infer_instance

end intrusive_list

namespace intrusive_forward_list

instance (m : Hooks) (value : Nat) : Decidable (push_back_assert_unlinked m value) := by
  unfold push_back_assert_unlinked; infer_instance

instance (m : Hooks) (l : intrusive_forward_list) (value : Nat) :
    Decidable (push_back_assert_linked m l value) := by
  unfold push_back_assert_linked; infer_instance

instance (m : Hooks) (l : intrusive_forward_list) (value : Nat) :
    Decidable (push_back_assert_not_empty m l value) := by
  unfold push_back_assert_not_empty; infer_instance

instance (m : Hooks) (l : intrusive_forward_list) (value : Nat) :
    Decidable (push_back_asserts m l value) := by
  unfold push_back_asserts; infer_instance

end intrusive_forward_list

/-! ## Session manager

`session_manager.hpp` declares the state of the manager and defines `start_extern_start`,
`start_extern_stop` and `start_extern_wait`; these are embedded from the header.  The bodies of
the other member functions are not in the header; they are modelled from the specification of
the manager and marked as such.  An entry of the lane is an `event`; the operations handed to
the acceptor and to the session factory that have not completed yet are kept in `in_flight`. -/

/-- `session_manager::extern_state::value_t`. -/
inductive session_manager.extern_state
  | ready | work | stop | stopped
deriving DecidableEq, Repr

/-- `session_manager::intern_state::value_t`. -/
inductive session_manager.intern_state
  | work | stop | stopped
deriving DecidableEq, Repr

/-- `session_manager::accept_state::value_t`. -/
inductive session_manager.accept_state
  | ready | in_progress | stopped
deriving DecidableEq, Repr

/-- Modelled from the spec: the error kinds the core produces (`boost::system::error_code`
values): `ok`, `invalid_state`, `accept_fatal(e)`, `acceptor_open_failed(e)`,
`session_error(e)`. -/
inductive session_manager.error_code
  | ok | invalid_state | accept_fatal (e : Nat) | acceptor_open_failed (e : Nat)
  | session_error (e : Nat)
deriving DecidableEq, Repr

/-- Modelled from the spec: the outcome of an accept as the accept loop classifies it:
success, operation-cancelled, resource shortage (recoverable), any other error (fatal). -/
inductive session_manager.accept_result
  | success | operation_cancelled | resource_shortage (e : Nat) | other (e : Nat)
deriving DecidableEq, Repr

/-- Modelled from the spec: the start-state of a session handle. -/
inductive session_wrapper.start_state
  | not_started | started | stopped
deriving DecidableEq, Repr

/-- Modelled from the spec: the stop-state of a session handle. -/
inductive session_wrapper.stop_state
  | not_stopped | stop_in_progress | stopped
deriving DecidableEq, Repr

/-- Modelled from the spec: the wait-state of a session handle. -/
inductive session_wrapper.wait_state
  | not_started | in_progress | complete
deriving DecidableEq, Repr

/-- Modelled from the spec: the session handle `session_wrapper` (only declared in the
header): the session it wraps, named by a number, and its start-, stop- and wait-state. -/
structure session_wrapper where
  session : Nat
  start : session_wrapper.start_state
  stop : session_wrapper.stop_state
  wait : session_wrapper.wait_state
deriving DecidableEq, Repr

/-- Modelled from the spec: an operation handed to the acceptor or to the session factory
whose completion has not been handled yet: the accept targeting a session, or the start,
wait or stop of a session. -/
inductive session_manager.operation
  | accept (session : Nat)
  | session_start (session : Nat)
  | session_wait (session : Nat)
  | session_stop (session : Nat)
deriving DecidableEq, Repr

/-- Data members of `session_manager` that the state machine reads or writes, the queue of
`io_service_` (`posted`: completion handlers bound to their error, in posting order), the
operations in flight, and the number of the next session the factory creates.  A handler is
named by a number; `handler_storage` is a slot holding at most one handler. -/
structure session_manager where
  max_session_count_ : Nat
  recycled_session_count_ : Nat
  max_stopping_sessions_ : Nat
  extern_state_ : session_manager.extern_state
  intern_state_ : session_manager.intern_state
  accept_state_ : session_manager.accept_state
  pending_operations_ : Nat
  active_sessions_ : List session_wrapper
  recycled_sessions_ : List Nat
  accept_error_ : Option Nat
  extern_wait_handler_ : Option Nat
  extern_stop_handler_ : Option Nat
  posted : List (Nat × session_manager.error_code)
  in_flight : List session_manager.operation
  next_session : Nat

namespace session_manager

/-- Modelled from the spec: `session_manager::create` (body not in the header): a fresh
manager is `ready`, its intern state is `work`, its accept state `ready`, nothing is pending
and both lists are empty. -/
def create (max_session_count recycled_session_count max_stopping_sessions : Nat) :
    session_manager :=
  { max_session_count_ := max_session_count
    recycled_session_count_ := recycled_session_count
    max_stopping_sessions_ := max_stopping_sessions
    extern_state_ := extern_state.ready
    intern_state_ := intern_state.work
    accept_state_ := accept_state.ready
    pending_operations_ := 0
    active_sessions_ := []
    recycled_sessions_ := []
    accept_error_ := none
    extern_wait_handler_ := none
    extern_stop_handler_ := none
    posted := []
    in_flight := []
    next_session := 0 }

/-- The operation is an accept. -/
def operation.is_accept : operation → Bool
  | operation.accept _ => true
  | _ => false

/-- The operation is a session stop. -/
def operation.is_stop : operation → Bool
  | operation.session_stop _ => true
  | _ => false

/-- Number of accept operations that are outstanding. -/
def outstanding_accepts (st : session_manager) : Nat :=
  st.in_flight.countP operation.is_accept

/-- Number of session-stop operations issued and not yet completed. -/
def outstanding_stops (st : session_manager) : Nat :=
  st.in_flight.countP operation.is_stop

/-- Modelled from the spec: `recycle` (body not in the header): the recycled pool is bounded
by `recycled_session_count`; overflow handles are dropped. -/
def recycle (st : session_manager) (s : Nat) : session_manager :=
  if st.recycled_sessions_.length < st.recycled_session_count_ then
    { st with recycled_sessions_ := s :: st.recycled_sessions_ }
  else st

/-- Modelled from the spec: `start_accept_session` (body not in the header): the acceptor is
asked for a connection targeting the session; on submission AcceptState becomes
`in_progress`, and one more continuation is pending. -/
def start_accept_session (st : session_manager) (s : Nat) : session_manager :=
  { st with
    accept_state_ := accept_state.in_progress
    pending_operations_ := st.pending_operations_ + 1
    in_flight := operation.accept s :: st.in_flight }

/-- Modelled from the spec: `continue_work` (body not in the header), the accept loop: the
manager issues an accept iff InternState = work, AcceptState = ready,
`active_count < max_session_count` and no non-recoverable accept error is latched; the handle
is taken from the recycled pool, or created by the factory if the pool is empty. -/
def continue_work (st : session_manager) : session_manager :=
  if st.intern_state_ = intern_state.work ∧ st.accept_state_ = accept_state.ready ∧
      st.active_sessions_.length < st.max_session_count_ ∧ st.accept_error_ = none then
    match st.recycled_sessions_ with
    | s :: rest => start_accept_session { st with recycled_sessions_ := rest } s
    | [] => start_accept_session { st with next_session := st.next_session + 1 }
        st.next_session
  else st

/-- Modelled from the spec: `complete_extern_stop` (body not in the header): the pending
`async_stop` callback, if any, is fired: posted to the execution context with the error. -/
def complete_extern_stop (st : session_manager) (error : error_code) : session_manager :=
  match st.extern_stop_handler_ with
  | some h => { st with extern_stop_handler_ := none, posted := st.posted ++ [(h, error)] }
  | none => st

/-- Modelled from the spec: `complete_extern_wait` (body not in the header): the outstanding
`async_wait` callback, if any, is fired: posted to the execution context with the error. -/
def complete_extern_wait (st : session_manager) (error : error_code) : session_manager :=
  match st.extern_wait_handler_ with
  | some h => { st with extern_wait_handler_ := none, posted := st.posted ++ [(h, error)] }
  | none => st

/-- Modelled from the spec: the terminal error: the accept error if one is latched, else
`ok`. -/
def terminal_error (st : session_manager) : error_code :=
  match st.accept_error_ with
  | some e => error_code.accept_fatal e
  | none => error_code.ok

/-- Modelled from the spec: `continue_stop` (body not in the header), step 5 of the stop
drive: when the active list is empty and `pending_operations = 0`, InternState and
ExternState become `stopped`, the pending `async_stop` callback is fired with the terminal
error, and an outstanding `async_wait` is fired with the same value. -/
def continue_stop (st : session_manager) : session_manager :=
  if st.intern_state_ = intern_state.stop ∧ st.active_sessions_ = [] ∧
      st.pending_operations_ = 0 then
    let st1 : session_manager :=
      { st with intern_state_ := intern_state.stopped, extern_state_ := extern_state.stopped }
    complete_extern_wait (complete_extern_stop st1 (terminal_error st1)) (terminal_error st1)
  else st

/-- Modelled from the spec: a session handle is due for a stop when no stop was issued to it
yet and either the manager drains, or the start of the session failed, or the wait future of
the session has fired (the handle is `must-stop`). -/
def must_stop (draining : Bool) (h : session_wrapper) : Bool :=
  decide (h.stop = session_wrapper.stop_state.not_stopped) &&
    (draining || decide (h.start = session_wrapper.start_state.stopped) ||
      decide (h.wait = session_wrapper.wait_state.complete))

/-- Modelled from the spec: `start_active_session_stop(begin, max_count)` (body not in the
header): the stopping chain walks the active list front-to-back from `begin` and tells at
most `max_count` sessions that are due for it to stop (`start_session_stop`: the stop-state
becomes `stop_in_progress` and the stop operation is issued); the result is the list with
these sessions marked and the stop operations issued.  The marks are how the chain remembers
where it last reached: a session told to stop is skipped by the next walk.  `draining` says
that InternState is not `work`: then every session is to be stopped. -/
def start_active_session_stop (draining : Bool) :
    Nat → List session_wrapper → List session_wrapper × List operation
  | _, [] => ([], [])
  | 0, h :: rest => (h :: rest, [])
  | max_count + 1, h :: rest =>
    if must_stop draining h = true then
      ({ h with stop := session_wrapper.stop_state.stop_in_progress } ::
          (start_active_session_stop draining max_count rest).1,
        operation.session_stop h.session ::
          (start_active_session_stop draining max_count rest).2)
    else
      (h :: (start_active_session_stop draining (max_count + 1) rest).1,
        (start_active_session_stop draining (max_count + 1) rest).2)

/-- Modelled from the spec: `schedule_active_session_stop` (body not in the header), a wave
of the stopping chain: sessions of the active list that are due for it are told to stop
front-to-back as long as the number of in-flight stop operations stays within
`max_stopping_sessions`; the others wait for a later wave. -/
def schedule_active_session_stop (st : session_manager) : session_manager :=
  { st with
    active_sessions_ :=
      (start_active_session_stop (decide (st.intern_state_ ≠ intern_state.work))
        (st.max_stopping_sessions_ - outstanding_stops st) st.active_sessions_).1
    pending_operations_ := st.pending_operations_ +
      (start_active_session_stop (decide (st.intern_state_ ≠ intern_state.work))
        (st.max_stopping_sessions_ - outstanding_stops st) st.active_sessions_).2.length
    in_flight :=
      (start_active_session_stop (decide (st.intern_state_ ≠ intern_state.work))
        (st.max_stopping_sessions_ - outstanding_stops st) st.active_sessions_).2
        ++ st.in_flight }

/-- Modelled from the spec: `start_stop` (body not in the header), the stop drive: 1.
InternState ← stop, AcceptState ← stopped, an outstanding accept is cancelled (its completion
arrives later); 2. the listening socket is closed; 3. the active sessions are stopped in
waves; 5. the drain may be complete at once. -/
def start_stop (st : session_manager) : session_manager :=
  continue_stop (schedule_active_session_stop
    { st with intern_state_ := intern_state.stop, accept_state_ := accept_state.stopped })

/-- Modelled from the spec: `add_to_active` (body not in the header): the handle of a newly
accepted session joins the active list. -/
def add_to_active (st : session_manager) (s : Nat) : session_manager :=
  { st with active_sessions_ :=
      { session := s, start := session_wrapper.start_state.not_started,
        stop := session_wrapper.stop_state.not_stopped,
        wait := session_wrapper.wait_state.not_started } :: st.active_sessions_ }

/-- Modelled from the spec: `remove_from_active` (body not in the header): the handle of the
session leaves the active list. -/
def remove_from_active (st : session_manager) (s : Nat) : session_manager :=
  { st with active_sessions_ := st.active_sessions_.filter (fun h => h.session ≠ s) }

/-- Modelled from the spec: `start_session_start` (body not in the header): the factory is
asked to start the session; one more continuation is pending. -/
def start_session_start (st : session_manager) (s : Nat) : session_manager :=
  { st with
    pending_operations_ := st.pending_operations_ + 1
    in_flight := operation.session_start s :: st.in_flight }

/-- Modelled from the spec: `start_session_wait` (body not in the header): the wait future of
an active session is attached; its wait-state becomes `in_progress`. -/
def start_session_wait (st : session_manager) (s : Nat) : session_manager :=
  if st.active_sessions_.any (fun h => h.session = s) then
    { st with
      active_sessions_ := st.active_sessions_.map (fun h =>
        if h.session = s then { h with wait := session_wrapper.wait_state.in_progress } else h)
      pending_operations_ := st.pending_operations_ + 1
      in_flight := operation.session_wait s :: st.in_flight }
  else st

/-- Modelled from the spec: `handle_accept_at_stop` (body not in the header): when InternState
is not `work` the accepted session is discarded (the handle recycled) regardless of the
outcome; the listener is closed, AcceptState is `stopped`. -/
def handle_accept_at_stop (st : session_manager) (s : Nat) : session_manager :=
  continue_stop (recycle { st with accept_state_ := accept_state.stopped } s)

/-- Modelled from the spec: `handle_accept_at_work` (body not in the header): on success the
handle is added to the active list, the session is started and the next accept is issued if
the conditions still hold; operation-cancelled is treated as if the manager were stopping; a
resource shortage is recoverable: the handle is recycled and the accept re-issued; any other
error is fatal: it is latched as the accept error, the listening socket is closed (AcceptState
← stopped) and an internal stop is started (ExternState work → stop). -/
def handle_accept_at_work (st : session_manager) (s : Nat) (r : accept_result) :
    session_manager :=
  match r with
  | accept_result.success =>
    continue_work (start_session_start
      (add_to_active { st with accept_state_ := accept_state.ready } s) s)
  | accept_result.operation_cancelled => handle_accept_at_stop st s
  | accept_result.resource_shortage _ =>
    continue_work (recycle { st with accept_state_ := accept_state.ready } s)
  | accept_result.other e =>
    start_stop (recycle
      { st with
        accept_error_ := some e
        extern_state_ :=
          if st.extern_state_ = extern_state.work then extern_state.stop
          else st.extern_state_ } s)

/-- Modelled from the spec: `handle_accept` (body not in the header): the completion of an
accept, dispatched on InternState. -/
def handle_accept (st : session_manager) (s : Nat) (r : accept_result) : session_manager :=
  if st.intern_state_ = intern_state.work then handle_accept_at_work st s r
  else handle_accept_at_stop st s

/-- Modelled from the spec: `handle_session_start` (body not in the header): on success the
session is `started` and, while the manager works, its wait future is attached; on failure
it must be stopped.  A stop is issued as soon as the number of in-flight stop operations
permits: the stopping chain is scheduled.  While the manager drains the drain may be
complete. -/
def handle_session_start (st : session_manager) (s : Nat) (error : Option Nat) :
    session_manager :=
  let st1 : session_manager :=
    { st with active_sessions_ := st.active_sessions_.map (fun h =>
        if h.session = s then
          { h with start :=
              if error = none then session_wrapper.start_state.started
              else session_wrapper.start_state.stopped }
        else h) }
  if st.intern_state_ = intern_state.work then
    if error = none then start_session_wait st1 s else schedule_active_session_stop st1
  else continue_stop (schedule_active_session_stop st1)

/-- Modelled from the spec: `handle_session_wait` (body not in the header): the wait future
of the session has fired, so the session must be stopped; the stop is issued as soon as the
number of in-flight stop operations permits: the stopping chain is scheduled.  While the
manager drains the drain may be complete. -/
def handle_session_wait (st : session_manager) (s : Nat) : session_manager :=
  let st1 : session_manager :=
    { st with active_sessions_ := st.active_sessions_.map (fun h =>
        if h.session = s then { h with wait := session_wrapper.wait_state.complete } else h) }
  if st.intern_state_ = intern_state.work then schedule_active_session_stop st1
  else continue_stop (schedule_active_session_stop st1)

/-- Modelled from the spec: `handle_session_stop` (body not in the header): the session has
reached `stopped`: it is removed from the active list and pushed to the recycled pool if
there is room and it stopped without error; the stopping chain is advanced; while the
manager works the accept loop is woken; while it drains a latched accept error reaches the
`async_wait` callback, and the drain may be complete. -/
def handle_session_stop (st : session_manager) (s : Nat) (error : Option Nat) :
    session_manager :=
  let st1 := remove_from_active st s
  let st2 := if error = none then recycle st1 s else st1
  let st3 := schedule_active_session_stop st2
  if st.intern_state_ = intern_state.work then continue_work st3
  else
    let st4 := match st3.accept_error_ with
      | some e => complete_extern_wait st3 (error_code.accept_fatal e)
      | none => st3
    continue_stop st4

/-- Modelled from the spec: `do_start_extern_start` (body not in the header): `async_start`
completes with `invalid_state` if ExternState ≠ ready, with the error of the acceptor if
opening it failed, and else with `ok`: ExternState becomes `work` and the first accept is
issued.  `open_error` is what `open_acceptor()` returns. -/
def do_start_extern_start (open_error : Option Nat) (st : session_manager) :
    error_code × session_manager :=
  if st.extern_state_ = extern_state.ready then
    match open_error with
    | some e => (error_code.acceptor_open_failed e, st)
    | none => (error_code.ok, continue_work { st with extern_state_ := extern_state.work })
  else (error_code.invalid_state, st)

/-- Modelled from the spec: `do_start_extern_stop` (body not in the header): `async_stop`
completes with `invalid_state` if the manager is already stopped or an `async_stop` is
outstanding; otherwise ExternState becomes `stop` and the system is driven to `stopped`; the
result is the terminal error if the drain is complete at once, and nothing (the handler is
to be stored) if not. -/
def do_start_extern_stop (st : session_manager) : Option error_code × session_manager :=
  if st.extern_state_ = extern_state.stopped ∨ st.extern_stop_handler_ ≠ none then
    (some error_code.invalid_state, st)
  else
    let st1 : session_manager := { st with extern_state_ := extern_state.stop }
    let st2 := if st1.intern_state_ = intern_state.work then start_stop st1 else st1
    if st2.intern_state_ = intern_state.stopped then (some (terminal_error st2), st2)
    else (none, st2)

/-- Modelled from the spec: `do_start_extern_wait` (body not in the header): only one
`async_wait` may be outstanding: a second one while one is pending completes with
`invalid_state`; once the manager is stopped requests complete with `invalid_state`; a
latched fatal accept error is delivered to a later `async_wait`; otherwise the handler is to
be stored. -/
def do_start_extern_wait (st : session_manager) : Option error_code × session_manager :=
  if st.extern_wait_handler_ ≠ none then (some error_code.invalid_state, st)
  else if st.extern_state_ = extern_state.stopped then (some error_code.invalid_state, st)
  else
    match st.accept_error_ with
    | some e => (some (error_code.accept_fatal e), st)
    | none => (none, st)

/-- Embedding of `session_manager::start_extern_start(Handler& handler)`. -/
def start_extern_start (open_error : Option Nat) (st : session_manager) (handler : Nat) :
    session_manager :=
  -- boost::system::error_code error = do_start_extern_start();
  let r := do_start_extern_start open_error st
  -- io_service_.post(ma::bind_handler(detail::move(handler), error));
  { r.2 with posted := r.2.posted ++ [(handler, r.1)] }

/-- Embedding of `session_manager::start_extern_stop(Handler& handler)`. -/
def start_extern_stop (st : session_manager) (handler : Nat) : session_manager :=
  -- if (optional_error_code result = do_start_extern_stop())
  match do_start_extern_stop st with
  --   io_service_.post(ma::bind_handler(detail::move(handler), *result));
  | (some result, st1) => { st1 with posted := st1.posted ++ [(handler, result)] }
  -- else extern_stop_handler_.store(detail::move(handler));
  | (none, st1) => { st1 with extern_stop_handler_ := some handler }

/-- Embedding of `session_manager::start_extern_wait(Handler& handler)`. -/
def start_extern_wait (st : session_manager) (handler : Nat) : session_manager :=
  -- if (optional_error_code result = do_start_extern_wait())
  match do_start_extern_wait st with
  --   io_service_.post(ma::bind_handler(detail::move(handler), *result));
  | (some result, st1) => { st1 with posted := st1.posted ++ [(handler, result)] }
  -- else extern_wait_handler_.store(detail::move(handler));
  | (none, st1) => { st1 with extern_wait_handler_ := some handler }

/-- Modelled from the spec: `reset(free_recycled_sessions)` (body not in the header), invoked
after `stopped`: both lists are cleared (the recycled pool optionally retained) and the
manager is as freshly constructed: `ready`, `work`, accept state `ready`. -/
def reset (st : session_manager) (free_recycled_sessions : Bool) : session_manager :=
  { st with
    extern_state_ := extern_state.ready
    intern_state_ := intern_state.work
    accept_state_ := accept_state.ready
    pending_operations_ := 0
    active_sessions_ := []
    recycled_sessions_ := if free_recycled_sessions then [] else st.recycled_sessions_
    accept_error_ := none
    extern_wait_handler_ := none
    extern_stop_handler_ := none }

/-- Modelled from the spec: the continuation of an operation in flight enters the lane: it is
no longer pending (`pending_operations` counts the in-flight continuations); `none` if the
operation is not in flight. -/
def complete (st : session_manager) (op : operation) : Option session_manager :=
  if op ∈ st.in_flight then
    some { st with
      pending_operations_ := st.pending_operations_ - 1
      in_flight := st.in_flight.erase op }
  else none

/-- An entry of the lane: a posted request of a caller (`open_error` is what opening the
acceptor returns), the completion of an operation in flight, or `reset`. -/
inductive event
  | async_start (handler : Nat) (open_error : Option Nat)
  | async_stop (handler : Nat)
  | async_wait (handler : Nat)
  | accept_completed (session : Nat) (r : accept_result)
  | session_start_completed (session : Nat) (error : Option Nat)
  | session_wait_completed (session : Nat)
  | session_stop_completed (session : Nat) (error : Option Nat)
  | reset (free_recycled_sessions : Bool)

/-- Modelled from the spec: one entry of the lane runs to completion; `none` when the entry
cannot occur: the completion of an operation that is not in flight, or `reset` when the
manager is not stopped. -/
def step (st : session_manager) : event → Option session_manager
  | event.async_start handler open_error => some (start_extern_start open_error st handler)
  | event.async_stop handler => some (start_extern_stop st handler)
  | event.async_wait handler => some (start_extern_wait st handler)
  | event.accept_completed s r =>
    match complete st (operation.accept s) with
    | some st1 => some (handle_accept st1 s r)
    | none => none
  | event.session_start_completed s error =>
    match complete st (operation.session_start s) with
    | some st1 => some (handle_session_start st1 s error)
    | none => none
  | event.session_wait_completed s =>
    match complete st (operation.session_wait s) with
    | some st1 => some (handle_session_wait st1 s)
    | none => none
  | event.session_stop_completed s error =>
    match complete st (operation.session_stop s) with
    | some st1 => some (handle_session_stop st1 s error)
    | none => none
  | event.reset free_recycled_sessions =>
    if st.extern_state_ = extern_state.stopped then some (reset st free_recycled_sessions)
    else none

/-- The state after a sequence of lane entries, `none` if one of them cannot occur. -/
def run (st : session_manager) : List event → Option session_manager
  | [] => some st
  | e :: rest =>
    match step st e with
    | some st1 => run st1 rest
    | none => none

/-- The states of the manager's state machine: those reached from a fresh manager by lane
entries. -/
inductive Reachable (max_session_count recycled_session_count max_stopping_sessions : Nat) :
    session_manager → Prop
  | init : Reachable max_session_count recycled_session_count max_stopping_sessions
      (create max_session_count recycled_session_count max_stopping_sessions)
  | step (st st1 : session_manager) (e : event) :
      Reachable max_session_count recycled_session_count max_stopping_sessions st →
      step st e = some st1 →
      Reachable max_session_count recycled_session_count max_stopping_sessions st1

end session_manager

namespace session_manager

/-- Invariant of the manager's state machine: `pending_operations_` counts the operations in
flight; at most one accept is outstanding, exactly one while AcceptState is `in_progress`
(then the manager works and the active list is below the cap) and none otherwise while the
manager works; AcceptState is `stopped` once the manager does not work; the active list is
within the cap; a stopped manager has nothing in flight and no active session; and the
session stops in flight are within `max_stopping_sessions_`. -/
structure Inv (st : session_manager) : Prop where
  pending : st.pending_operations_ = st.in_flight.length
  accepts_le : outstanding_accepts st ≤ 1
  in_progress : st.accept_state_ = accept_state.in_progress →
    st.intern_state_ = intern_state.work ∧ outstanding_accepts st = 1 ∧
      st.active_sessions_.length < st.max_session_count_
  not_in_progress : st.accept_state_ ≠ accept_state.in_progress →
    st.intern_state_ = intern_state.work → outstanding_accepts st = 0
  not_work : st.intern_state_ ≠ intern_state.work → st.accept_state_ = accept_state.stopped
  active_le : st.active_sessions_.length ≤ st.max_session_count_
  stopped : st.intern_state_ = intern_state.stopped →
    st.in_flight = [] ∧ st.active_sessions_.length = 0 ∧
      st.extern_state_ = extern_state.stopped
  extern_stopped : st.extern_state_ = extern_state.stopped →
    st.intern_state_ = intern_state.stopped
  stops_le : outstanding_stops st ≤ st.max_stopping_sessions_

/-- Two states agree on what the invariant reads. -/
structure SameCore (st st1 : session_manager) : Prop where
  max_session_count : st1.max_session_count_ = st.max_session_count_
  max_stopping_sessions : st1.max_stopping_sessions_ = st.max_stopping_sessions_
  extern_state : st1.extern_state_ = st.extern_state_
  intern_state : st1.intern_state_ = st.intern_state_
  accept_state : st1.accept_state_ = st.accept_state_
  pending : st1.pending_operations_ = st.pending_operations_
  active : st1.active_sessions_.length = st.active_sessions_.length
  in_flight : st1.in_flight = st.in_flight

/-- Lane entries: `async_start` with the acceptor opened, then `async_stop`. -/
def startThenStop : List event :=
  [event.async_start 0 none, event.async_stop 1]

/-- A sample state: a manager with cap 1 that was started (an accept is outstanding) and then
asked to stop. -/
def stopRequestedWhileAccepting : Option session_manager :=
  run (create 1 0 1) startThenStop

/-- Lane entries: `async_start`, two sessions accepted and started, the waits of both fire,
then `async_stop`. -/
def twoWaitsThenStop : List event :=
  [event.async_start 0 none,
   event.accept_completed 0 accept_result.success,
   event.accept_completed 1 accept_result.success,
   event.session_start_completed 0 none,
   event.session_start_completed 1 none,
   event.session_wait_completed 0,
   event.session_wait_completed 1,
   event.async_stop 1]

/-- A sample state: a manager with `max_stopping_sessions = 1` in which two sessions were
accepted and started, both waits fired while the manager worked, and then a stop was
requested: the manager drains, one session is being stopped and the other waits its turn. -/
def drainAfterTwoWaits : Option session_manager :=
  run (create 2 0 1) twoWaitsThenStop

/-- Lane entries: those of `twoWaitsThenStop`, then the stop of session 0 completes, then the
stop of session 1. -/
def twoWaitsThenStopDrained : List event :=
  twoWaitsThenStop ++
    [event.session_stop_completed 0 none, event.session_stop_completed 1 none]

end session_manager

namespace session_manager

/-- The configured bounds of a manager: `max_session_count_`, `recycled_session_count_` and
`max_stopping_sessions_`. -/
def config (st : session_manager) : Nat × Nat × Nat :=
  (st.max_session_count_, st.recycled_session_count_, st.max_stopping_sessions_)

end session_manager

/-! ## Clearing a raw list, copies of hooks, and the uses of a completion handler -/

namespace intrusive_list

/-- Embedding of `intrusive_list::empty()`: `!front_`. -/
def empty (l : intrusive_list) : Bool := decide (l.front_ = none)

/-- Embedding of `intrusive_list::clear()`. -/
def clear (m : Hooks) (l : intrusive_list) : Hooks × intrusive_list :=
  -- front_ = back_ = 0;
  (m, { l with front_ := none, back_ := none })

/-- Embedding of the copy constructor `intrusive_list::base_hook::base_hook(const
this_type&)`: the new hook. -/
def base_hook.copy_construct (_other : ma.base_hook) : ma.base_hook :=
  -- : prev_(0), next_(0)
  { prev_ := none, next_ := none }

/-- Embedding of `intrusive_list::base_hook::operator=(const this_type&)`: the hook assigned
to, after the assignment. -/
def base_hook.copy_assign (target _other : ma.base_hook) : ma.base_hook :=
  -- return *this;
  target

end intrusive_list

namespace intrusive_forward_list

/-- Embedding of `intrusive_forward_list::empty()`: `!front_`. -/
def empty (l : intrusive_forward_list) : Bool := decide (l.front_ = none)

/-- Embedding of `intrusive_forward_list::clear()`. -/
def clear (m : Hooks) (l : intrusive_forward_list) : Hooks × intrusive_forward_list :=
  -- front_ = back_ = 0;
  (m, { l with front_ := none, back_ := none })

/-- Embedding of `intrusive_forward_list::push_front(reference value)`. -/
def push_front (m : Hooks) (l : intrusive_forward_list) (value : Nat) :
    Hooks × intrusive_forward_list :=
  -- value_hook.next_ = front_;
  let m1 := setNext m value l.front_
  -- front_ = detail::addressof(value);
  let l1 : intrusive_forward_list := { l with front_ := some value }
  -- if (!back_) back_ = front_;
  let l2 : intrusive_forward_list := match l1.back_ with
    | none => { l1 with back_ := l1.front_ }
    | some _ => l1
  (m1, l2)

/-- The assertion on entry of `push_front`: "The value to push has to be unlinked". -/
def push_front_assert_unlinked (m : Hooks) (value : Nat) : Prop :=
  -- !value_hook.next_
  (m value).next_ = none

instance (m : Hooks) (value : Nat) : Decidable (push_front_assert_unlinked m value) := by
  unfold push_front_assert_unlinked; infer_instance

/-- Embedding of the copy constructor `intrusive_forward_list::base_hook::base_hook(const
this_type&)`: the new hook. -/
def base_hook.copy_construct (_other : base_hook) : base_hook :=
  -- : next_(0)
  { next_ := none }

/-- Embedding of `intrusive_forward_list::base_hook::operator=(const this_type&)`: the hook
assigned to, after the assignment. -/
def base_hook.copy_assign (target _other : base_hook) : base_hook :=
  -- return *this;
  target

end intrusive_forward_list

namespace sp_intrusive_list

/-- Embedding of the copy constructor `sp_intrusive_list::base_hook::base_hook(const
this_type&)`: the members `prev_` and `next_` are default-constructed, an empty `weak_ptr`
and an empty `shared_ptr`. -/
def base_hook.copy_construct (_other : ma.base_hook) : ma.base_hook :=
  { prev_ := none, next_ := none }

/-- Embedding of `sp_intrusive_list::base_hook::operator=(const this_type&)`: the hook
assigned to, after the assignment. -/
def base_hook.copy_assign (target _other : ma.base_hook) : ma.base_hook :=
  -- return *this;
  target

end sp_intrusive_list

namespace session_manager

/-- What a member function does with a completion handler it was given: it posts the handler
to `io_service_` bound to an error (`io_service_.post(ma::bind_handler(...))`), it moves the
handler into `extern_stop_handler_` or into `extern_wait_handler_` (`store`), or it calls the
handler on the spot, inside the lane. -/
inductive handler_use
  | post (error : error_code)
  | store_stop
  | store_wait
  | invoke (error : error_code)
deriving DecidableEq, Repr

/-- The use is a post to `io_service_`. -/
def handler_use.is_post : handler_use → Bool
  | handler_use.post _ => true
  | _ => false

/-- The use is a store into a handler slot. -/
def handler_use.is_store : handler_use → Bool
  | handler_use.store_stop => true
  | handler_use.store_wait => true
  | _ => false

/-- The use is a call of the handler inside the lane. -/
def handler_use.is_invoke : handler_use → Bool
  | handler_use.invoke _ => true
  | _ => false

/-- What a use of `handler` does to the manager: a posted handler joins the queue of
`io_service_`, a stored one fills its slot, and a call on the spot writes no member. -/
def handler_use.apply (handler : Nat) (st : session_manager) : handler_use → session_manager
  | handler_use.post error => { st with posted := st.posted ++ [(handler, error)] }
  | handler_use.store_stop => { st with extern_stop_handler_ := some handler }
  | handler_use.store_wait => { st with extern_wait_handler_ := some handler }
  | handler_use.invoke _ => st

/-- Embedding of `session_manager::start_extern_start(Handler& handler)` as the uses it makes
of `handler`; `error` is what `do_start_extern_start()` returned. -/
def start_extern_start_uses (error : error_code) : List handler_use :=
  -- io_service_.post(ma::bind_handler(detail::move(handler), error));
  [handler_use.post error]

/-- Embedding of `session_manager::start_extern_stop(Handler& handler)` as the uses it makes
of `handler`; `result` is what `do_start_extern_stop()` returned. -/
def start_extern_stop_uses (result : Option error_code) : List handler_use :=
  -- if (optional_error_code result = do_start_extern_stop())
  match result with
  --   io_service_.post(ma::bind_handler(detail::move(handler), *result));
  | some r => [handler_use.post r]
  -- else extern_stop_handler_.store(detail::move(handler));
  | none => [handler_use.store_stop]

/-- Embedding of `session_manager::start_extern_wait(Handler& handler)` as the uses it makes
of `handler`; `result` is what `do_start_extern_wait()` returned. -/
def start_extern_wait_uses (result : Option error_code) : List handler_use :=
  -- if (optional_error_code result = do_start_extern_wait())
  match result with
  --   io_service_.post(ma::bind_handler(detail::move(handler), *result));
  | some r => [handler_use.post r]
  -- else extern_wait_handler_.store(detail::move(handler));
  | none => [handler_use.store_wait]

/-- A fresh manager with cap 1 after `async_start`: an accept is outstanding. -/
def started : session_manager :=
  start_extern_start none (create 1 0 1) 0

end session_manager

/-! ## Lemmas on the hook store and on segments -/

@[simp] theorem setPrev_prev (m : Hooks) (a b : Nat) (p : Option Nat) :
    (setPrev m a p b).prev_ = if b = a then p else (m b).prev_ := by
  unfold setPrev; split <;> rfl

@[simp] theorem setPrev_next (m : Hooks) (a b : Nat) (p : Option Nat) :
    (setPrev m a p b).next_ = (m b).next_ := by
  unfold setPrev; split <;> rfl

@[simp] theorem setNext_next (m : Hooks) (a b : Nat) (n : Option Nat) :
    (setNext m a n b).next_ = if b = a then n else (m b).next_ := by
  unfold setNext; split <;> rfl

@[simp] theorem setNext_prev (m : Hooks) (a b : Nat) (n : Option Nat) :
    (setNext m a n b).prev_ = (m b).prev_ := by
  unfold setNext; split <;> rfl

@[simp] theorem headOr_nil (e : Option Nat) : headOr [] e = e := rfl

@[simp] theorem headOr_cons (a : Nat) (s : List Nat) (e : Option Nat) :
    headOr (a :: s) e = some a := rfl

@[simp] theorem lastOr_nil (p : Option Nat) : lastOr p [] = p := rfl

theorem lastOr_cons (p : Option Nat) (a : Nat) (s : List Nat) :
    lastOr p (a :: s) = lastOr (some a) s := by
  cases s with
  | nil => simp [lastOr]
  | cons b t =>
    simp only [lastOr, List.getLast?_cons_cons]
    cases h : (b :: t).getLast? with
    | none => simp at h
    | some c => rfl

@[simp] theorem Seg_nil (m : Hooks) (p e : Option Nat) : Seg m p [] e = True := rfl

theorem Seg_cons (m : Hooks) (p e : Option Nat) (a : Nat) (s : List Nat) :
    Seg m p (a :: s) e ↔
      (m a).prev_ = p ∧ (m a).next_ = headOr s e ∧ Seg m (some a) s e := Iff.rfl

/-- A segment splits at any point. -/
theorem Seg_append (m : Hooks) (p e : Option Nat) (xs ys : List Nat) :
    Seg m p (xs ++ ys) e ↔ Seg m p xs (headOr ys e) ∧ Seg m (lastOr p xs) ys e := by
  induction xs generalizing p with
  | nil => simp
  | cons a t ih =>
    rw [List.cons_append, Seg_cons, Seg_cons, ih, lastOr_cons]
    have hh : headOr (t ++ ys) e = headOr t (headOr ys e) := by
      cases t <;> simp
    rw [hh]
    tauto

/-- Every `prev_` inside a segment is the entry pointer or a value of the segment. -/
theorem Seg_prev_mem (m : Hooks) (p e : Option Nat) (s : List Nat) (h : Seg m p s e)
    (x : Nat) (hx : x ∈ s) : (m x).prev_ = p ∨ ∃ y ∈ s, (m x).prev_ = some y := by
  induction s generalizing p with
  | nil => cases hx
  | cons a t ih =>
    obtain ⟨h1, _, h3⟩ := h
    rcases List.mem_cons.mp hx with rfl | hx
    · exact Or.inl h1
    · rcases ih (some a) h3 hx with h4 | ⟨y, hy, h4⟩
      · exact Or.inr ⟨a, List.mem_cons_self _ _, h4⟩
      · exact Or.inr ⟨y, List.mem_cons_of_mem _ hy, h4⟩

/-- A segment entered from a pointer outside of it has no repeated value. -/
theorem Seg_nodup_of (m : Hooks) (p e : Option Nat) (s : List Nat) (h : Seg m p s e)
    (hp : ∀ q, p = some q → q ∉ s) : s.Nodup := by
  induction s generalizing p with
  | nil => exact List.nodup_nil
  | cons a t ih =>
    obtain ⟨h1, _, h3⟩ := h
    have hat : a ∉ t := by
      intro hmem
      rcases Seg_prev_mem m (some a) e t h3 a hmem with h4 | ⟨y, hy, h4⟩
      · exact hp a (h1.symm.trans h4) (List.mem_cons_self _ _)
      · exact hp y (h1.symm.trans h4) (List.mem_cons_of_mem _ hy)
    refine List.nodup_cons.mpr ⟨hat, ih (some a) h3 ?_⟩
    intro q hq
    cases hq
    exact hat

theorem Seg_nodup (m : Hooks) (e : Option Nat) (s : List Nat) (h : Seg m none s e) :
    s.Nodup :=
  Seg_nodup_of m none e s h (fun _ hq => by cases hq)

theorem WF_nodup (m : Hooks) (l : intrusive_list) (s : List Nat) (h : WF m l s) : s.Nodup :=
  Seg_nodup m none s h.2.2

/-- Moving a segment to another store: the hooks of its values agree with the old ones,
except for the `prev_` of the first value and the `next_` of the last one. -/
theorem Seg_retarget (m m1 : Hooks) (p p1 e e1 : Option Nat) (s : List Nat)
    (h : Seg m p s e) (hnd : s.Nodup)
    (hprev : ∀ x ∈ s, (m1 x).prev_ = if s.head? = some x then p1 else (m x).prev_)
    (hnext : ∀ x ∈ s, (m1 x).next_ = if s.getLast? = some x then e1 else (m x).next_) :
    Seg m1 p1 s e1 := by
  induction s generalizing p p1 with
  | nil => trivial
  | cons a t ih =>
    obtain ⟨h1, h2, h3⟩ := h
    obtain ⟨hat, hnt⟩ := List.nodup_cons.mp hnd
    refine ⟨?_, ?_, ?_⟩
    · simpa using hprev a (List.mem_cons_self _ _)
    · have := hnext a (List.mem_cons_self _ _)
      cases t with
      | nil => simpa using this
      | cons b u =>
        rw [List.getLast?_cons_cons] at this
        have hne : ¬ (b :: u).getLast? = some a := by
          intro hl
          exact hat (List.mem_of_getLast?_eq_some hl)
        rw [if_neg hne] at this
        rw [this, h2]; rfl
    · apply ih (some a) (some a) h3 hnt
      · intro x hx
        have hxa : x ≠ a := fun hxa => hat (hxa ▸ hx)
        have := hprev x (List.mem_cons_of_mem _ hx)
        simp only [List.head?_cons, Option.some.injEq] at this
        rw [if_neg (fun h => hxa h.symm)] at this
        rw [this]
        split
        · rename_i hh
          cases t with
          | nil => cases hx
          | cons b u =>
            simp only [List.head?_cons, Option.some.injEq] at hh
            subst hh
            exact h3.1
        · rfl
      · intro x hx
        have := hnext x (List.mem_cons_of_mem _ hx)
        cases t with
        | nil => cases hx
        | cons b u =>
          rw [List.getLast?_cons_cons] at this
          exact this

/-- A segment only depends on the hooks of its values. -/
theorem Seg_frame (m m1 : Hooks) (p e : Option Nat) (s : List Nat)
    (h : Seg m p s e) (hsame : ∀ x ∈ s, m1 x = m x) : Seg m1 p s e := by
  induction s generalizing p with
  | nil => trivial
  | cons a t ih =>
    obtain ⟨h1, h2, h3⟩ := h
    refine ⟨?_, ?_, ih (some a) h3 (fun x hx => hsame x (List.mem_cons_of_mem _ hx))⟩
    · rw [hsame a (List.mem_cons_self _ _)]; exact h1
    · rw [hsame a (List.mem_cons_self _ _)]; exact h2

/-- Walking `next` from the first value of a null-terminated segment visits exactly the
segment. -/
theorem traverse_Seg (m : Hooks) (p : Option Nat) (s : List Nat) (h : Seg m p s none)
    (fuel : Nat) (hf : s.length ≤ fuel) : traverse m fuel (headOr s none) = s := by
  induction s generalizing p fuel with
  | nil => cases fuel <;> rfl
  | cons a t ih =>
    obtain ⟨_, h2, h3⟩ := h
    cases fuel with
    | zero => simp at hf
    | succ n =>
      simp only [headOr_cons, traverse, h2]
      rw [ih (some a) h3 n (by simpa using hf)]

theorem headOr_none (s : List Nat) : headOr s none = s.head? := by
  cases s <;> rfl

theorem lastOr_none (s : List Nat) : lastOr none s = s.getLast? := by
  unfold lastOr
  cases s.getLast? <;> rfl

theorem Seg_head_prev (m : Hooks) (p e : Option Nat) (s : List Nat) (h : Seg m p s e)
    (x : Nat) (hx : s.head? = some x) : (m x).prev_ = p := by
  cases s with
  | nil => cases hx
  | cons a t =>
    simp only [List.head?_cons, Option.some.injEq] at hx
    subst hx
    exact h.1

theorem Seg_last_next (m : Hooks) (p e : Option Nat) (s : List Nat) (h : Seg m p s e)
    (x : Nat) (hx : s.getLast? = some x) : (m x).next_ = e := by
  induction s generalizing p with
  | nil => cases hx
  | cons a t ih =>
    cases t with
    | nil =>
      simp only [List.getLast?_singleton, Option.some.injEq] at hx
      subst hx
      exact h.2.1
    | cons b u =>
      rw [List.getLast?_cons_cons] at hx
      exact ih (some a) h.2.2 hx

/-- In a segment entered from null only the first value has a null `prev_`. -/
theorem Seg_prev_none_head (m : Hooks) (e : Option Nat) (s : List Nat) (h : Seg m none s e)
    (x : Nat) (hx : x ∈ s) (hp : (m x).prev_ = none) : s.head? = some x := by
  cases s with
  | nil => cases hx
  | cons a t =>
    rcases List.mem_cons.mp hx with rfl | hx
    · rfl
    · rcases Seg_prev_mem m (some a) e t h.2.2 x hx with h4 | ⟨y, _, h4⟩
      · rw [hp] at h4; cases h4
      · rw [hp] at h4; cases h4

/-- Variant of `Seg_retarget` in which only the exit pointer changes. -/
theorem Seg_retarget_next (m m1 : Hooks) (p e e1 : Option Nat) (s : List Nat)
    (h : Seg m p s e) (hnd : s.Nodup)
    (hprev : ∀ x ∈ s, (m1 x).prev_ = (m x).prev_)
    (hnext : ∀ x ∈ s, (m1 x).next_ = if s.getLast? = some x then e1 else (m x).next_) :
    Seg m1 p s e1 := by
  refine Seg_retarget m m1 p p e e1 s h hnd (fun x hx => ?_) hnext
  rw [hprev x hx]
  split
  · rename_i hh; exact Seg_head_prev m p e s h x hh
  · rfl

/-- Variant of `Seg_retarget` in which only the entry pointer changes. -/
theorem Seg_retarget_prev (m m1 : Hooks) (p p1 e : Option Nat) (s : List Nat)
    (h : Seg m p s e) (hnd : s.Nodup)
    (hprev : ∀ x ∈ s, (m1 x).prev_ = if s.head? = some x then p1 else (m x).prev_)
    (hnext : ∀ x ∈ s, (m1 x).next_ = (m x).next_) :
    Seg m1 p1 s e := by
  refine Seg_retarget m m1 p p1 e e s h hnd hprev (fun x hx => ?_)
  rw [hnext x hx]
  split
  · rename_i hh; exact Seg_last_next m p e s h x hh
  · rfl

/-! ## Pointwise description of the doubly linked operations -/

namespace intrusive_list

theorem erase_next (m : Hooks) (l : intrusive_list) (v x : Nat) :
    ((erase m l v).1 x).next_ =
      if x = v then none else if (m v).prev_ = some x then (m v).next_ else (m x).next_ := by
  unfold erase
  by_cases hxv : x = v
  · simp [hxv]
  · cases hp : (m v).prev_ <;> cases hn : (m v).next_ <;> simp [hp, hn, hxv, eq_comm]

theorem erase_prev (m : Hooks) (l : intrusive_list) (v x : Nat) :
    ((erase m l v).1 x).prev_ =
      if x = v then none else if (m v).next_ = some x then (m v).prev_ else (m x).prev_ := by
  unfold erase
  by_cases hxv : x = v
  · simp [hxv]
  · cases hp : (m v).prev_ <;> cases hn : (m v).next_ <;> simp [hp, hn, hxv, eq_comm]

theorem erase_front (m : Hooks) (l : intrusive_list) (v : Nat) :
    (erase m l v).2.front_ = if l.front_ = some v then (m v).next_ else l.front_ := by
  unfold erase
  by_cases h1 : l.front_ = some v <;> by_cases h2 : l.back_ = some v <;> simp [h1, h2]

theorem erase_back (m : Hooks) (l : intrusive_list) (v : Nat) :
    (erase m l v).2.back_ = if l.back_ = some v then (m v).prev_ else l.back_ := by
  unfold erase
  by_cases h1 : l.front_ = some v <;> by_cases h2 : l.back_ = some v <;> simp [h1, h2]

theorem push_front_next (m : Hooks) (l : intrusive_list) (v x : Nat) :
    ((push_front m l v).1 x).next_ = if x = v then l.front_ else (m x).next_ := by
  unfold push_front
  cases hf : l.front_ <;> simp [hf]

theorem push_front_prev (m : Hooks) (l : intrusive_list) (v x : Nat) :
    ((push_front m l v).1 x).prev_ = if l.front_ = some x then some v else (m x).prev_ := by
  unfold push_front
  cases hf : l.front_ <;> simp [hf, eq_comm]

theorem push_front_front (m : Hooks) (l : intrusive_list) (v : Nat) :
    (push_front m l v).2.front_ = some v := by
  unfold push_front
  cases hb : l.back_ <;> simp [hb]

theorem push_front_back (m : Hooks) (l : intrusive_list) (v : Nat) :
    (push_front m l v).2.back_ = lastOr (some v) l.back_.toList := by
  unfold push_front
  cases hb : l.back_ <;> simp [hb, lastOr]

theorem push_back_prev (m : Hooks) (l : intrusive_list) (v x : Nat) :
    ((push_back m l v).1 x).prev_ = if x = v then l.back_ else (m x).prev_ := by
  unfold push_back
  cases hf : l.back_ <;> simp [hf]

theorem push_back_next (m : Hooks) (l : intrusive_list) (v x : Nat) :
    ((push_back m l v).1 x).next_ = if l.back_ = some x then some v else (m x).next_ := by
  unfold push_back
  cases hf : l.back_ <;> simp [hf, eq_comm]

theorem push_back_back (m : Hooks) (l : intrusive_list) (v : Nat) :
    (push_back m l v).2.back_ = some v := by
  unfold push_back
  cases hb : l.front_ <;> simp [hb]

theorem push_back_front (m : Hooks) (l : intrusive_list) (v : Nat) :
    (push_back m l v).2.front_ = headOr l.front_.toList (some v) := by
  unfold push_back
  cases hb : l.front_ <;> simp [hb]

end intrusive_list

theorem WF_traverse (m : Hooks) (l : intrusive_list) (s : List Nat) (h : WF m l s)
    (fuel : Nat) (hf : s.length ≤ fuel) : traverse m fuel l.front_ = s := by
  rw [h.1, ← headOr_none]
  exact traverse_Seg m none s h.2.2 fuel hf

/-! ## Doubly linked list: erase, push_front and push_back -/

theorem erase_WF (m : Hooks) (l : intrusive_list) (s : List Nat) (v : Nat)
    (hwf : WF m l s) (hv : v ∈ s) :
    WF (intrusive_list.erase m l v).1 (intrusive_list.erase m l v).2 (s.erase v) := by
  have hnd := WF_nodup m l s hwf
  obtain ⟨hfront, hback, hseg⟩ := hwf
  obtain ⟨pre, post, rfl⟩ := List.append_of_mem hv
  have hvpre : v ∉ pre := fun hm =>
    (List.disjoint_of_nodup_append hnd) hm (List.mem_cons_self _ _)
  have hvpost : v ∉ post := (List.nodup_cons.mp (List.Nodup.of_append_right hnd)).1
  have hdis : ∀ x, x ∈ pre → x ∈ post → False := fun x h1 h2 =>
    (List.disjoint_of_nodup_append hnd) h1 (List.mem_cons_of_mem _ h2)
  have hndpre : pre.Nodup := List.Nodup.of_append_left hnd
  have hndpost : post.Nodup := (List.nodup_cons.mp (List.Nodup.of_append_right hnd)).2
  rw [Seg_append, Seg_cons, lastOr_none, headOr_none, headOr_none, List.head?_cons] at hseg
  obtain ⟨hsegpre, hvprev, hvnext, hsegpost⟩ := hseg
  have herase : (pre ++ v :: post).erase v = pre ++ post := by
    rw [List.erase_append_right _ hvpre, List.erase_cons_head]
  rw [herase]
  refine ⟨?_, ?_, ?_⟩
  · rw [intrusive_list.erase_front, hfront, hvnext]
    cases pre with
    | nil => simp
    | cons a t =>
      have : a ≠ v := fun h => hvpre (h ▸ List.mem_cons_self _ _)
      simp [this]
  · rw [intrusive_list.erase_back, hback, hvprev]
    rcases List.eq_nil_or_concat post with rfl | ⟨t, b, rfl⟩
    · simp
    · have hbv : b ≠ v := fun h => hvpost (h ▸ by simp)
      have h1 : (pre ++ v :: t.concat b).getLast? = some b := by
        rw [List.concat_eq_append, ← List.cons_append, ← List.append_assoc]
        exact List.getLast?_concat _
      have h2 : (pre ++ t.concat b).getLast? = some b := by
        rw [List.concat_eq_append, ← List.append_assoc]
        exact List.getLast?_concat _
      rw [h1, h2]
      simp [hbv]
  · rw [Seg_append, lastOr_none, headOr_none]
    constructor
    · refine Seg_retarget_next m _ none (some v) _ pre hsegpre hndpre ?_ ?_
      · intro x hx
        have hxv : x ≠ v := fun h => hvpre (h ▸ hx)
        rw [intrusive_list.erase_prev, if_neg hxv, hvnext]
        have : ¬ post.head? = some x := fun h => hdis x hx (List.mem_of_mem_head? h)
        rw [if_neg this]
      · intro x hx
        have hxv : x ≠ v := fun h => hvpre (h ▸ hx)
        rw [intrusive_list.erase_next, if_neg hxv, hvprev, hvnext]
    · refine Seg_retarget_prev m _ (some v) _ none post hsegpost hndpost ?_ ?_
      · intro x hx
        have hxv : x ≠ v := fun h => hvpost (h ▸ hx)
        rw [intrusive_list.erase_prev, if_neg hxv, hvprev, hvnext]
      · intro x hx
        have hxv : x ≠ v := fun h => hvpost (h ▸ hx)
        rw [intrusive_list.erase_next, if_neg hxv, hvprev]
        have : ¬ pre.getLast? = some x :=
          fun h => hdis x (List.mem_of_getLast?_eq_some h) hx
        rw [if_neg this]

theorem erase_unlinked (m : Hooks) (l : intrusive_list) (v : Nat) :
    unlinked ((intrusive_list.erase m l v).1 v) :=
  ⟨by rw [intrusive_list.erase_prev, if_pos rfl], by rw [intrusive_list.erase_next, if_pos rfl]⟩

/-- C3: erasing a member `v` of a well-formed list with traversal `s` gives a well-formed
list whose traversal (also when walked with `next` from `front()`) is `s` without `v`, in
the same order; the hook of `v` has `prev_ = next_ = null`, and no hook outside `s` is
written. -/
theorem intrusive_list_erase_member (m : Hooks) (l : intrusive_list) (s : List Nat) (v : Nat)
    (hwf : WF m l s) (hv : v ∈ s) :
    WF (intrusive_list.erase m l v).1 (intrusive_list.erase m l v).2 (s.erase v) ∧
    v ∉ s.erase v ∧
    traverse (intrusive_list.erase m l v).1 s.length (intrusive_list.erase m l v).2.front_
      = s.erase v ∧
    unlinked ((intrusive_list.erase m l v).1 v) ∧
    (∀ x, x ∉ s → (intrusive_list.erase m l v).1 x = m x) := by
  have h1 := erase_WF m l s v hwf hv
  refine ⟨h1, List.Nodup.not_mem_erase (WF_nodup m l s hwf),
    WF_traverse _ _ _ h1 _ (List.length_erase_le _ _), erase_unlinked m l v, ?_⟩
  intro x hx
  have hxv : x ≠ v := fun h => hx (h ▸ hv)
  have hnd := WF_nodup m l s hwf
  obtain ⟨pre, post, rfl⟩ := List.append_of_mem hv
  have hseg := hwf.2.2
  rw [Seg_append, Seg_cons, lastOr_none, headOr_none, headOr_none] at hseg
  obtain ⟨_, hvprev, hvnext, _⟩ := hseg
  have h2 : ¬ pre.getLast? = some x := fun h =>
    hx (List.mem_append_left _ (List.mem_of_getLast?_eq_some h))
  have h3 : ¬ post.head? = some x := fun h =>
    hx (List.mem_append_right _ (List.mem_cons_of_mem _ (List.mem_of_mem_head? h)))
  apply base_hook.ext
  · rw [intrusive_list.erase_prev, if_neg hxv, hvnext, if_neg h3]
  · rw [intrusive_list.erase_next, if_neg hxv, hvprev, if_neg h2]

/-- Witness of C3: erasing 2 from the list 1, 2, 3. -/
theorem intrusive_list_erase_member_witness :
    WF demoHooks demoList [1, 2, 3] ∧ 2 ∈ [1, 2, 3] ∧
    WF (intrusive_list.erase demoHooks demoList 2).1
      (intrusive_list.erase demoHooks demoList 2).2 [1, 3] :=
  ⟨by decide, by decide,
    (intrusive_list_erase_member demoHooks demoList [1, 2, 3] 2 (by decide) (by decide)).1⟩

/-- Hooks after `push_front(v)` then `erase(v)`: every hook other than the one of `v` is as
before.  The hooks written by the two operations depend on `front_` only. -/
theorem push_front_erase_hooks (m : Hooks) (l l1 : intrusive_list) (s : List Nat) (v : Nat)
    (hfront : l.front_ = s.head?) (hseg : Seg m none s none) (hvp : (m v).prev_ = none)
    (x : Nat) (hxv : x ≠ v) :
    (intrusive_list.erase (intrusive_list.push_front m l v).1 l1 v).1 x = m x := by
  apply base_hook.ext
  · rw [intrusive_list.erase_prev, if_neg hxv, intrusive_list.push_front_next, if_pos rfl,
      intrusive_list.push_front_prev, intrusive_list.push_front_prev, hvp]
    by_cases hfx : l.front_ = some x
    · have hfv : ¬ l.front_ = some v := by
        rw [hfx]; intro h; exact hxv (Option.some.inj h)
      rw [if_pos hfx, if_neg hfv]
      exact (Seg_head_prev m none none s hseg x (hfront.symm.trans hfx)).symm
    · rw [if_neg hfx, if_neg hfx]
  · rw [intrusive_list.erase_next, if_neg hxv, intrusive_list.push_front_prev, hvp]
    have : ¬ (if l.front_ = some v then some v else none) = some x := by
      split
      · intro h; exact hxv (Option.some.inj h).symm
      · intro h; cases h
    rw [if_neg this, intrusive_list.push_front_next, if_neg hxv]

/-- C1: on a well-formed list, `push_front(v)` of a value with an unlinked hook followed
by `erase(v)` gives back the former `front()` and `back()`, leaves the hook of every other
value as it was, and leaves the hook of `v` unlinked. -/
theorem intrusive_list_push_front_erase (m : Hooks) (l : intrusive_list) (s : List Nat)
    (v : Nat) (hwf : WF m l s) (hv : unlinked (m v)) :
    (intrusive_list.erase (intrusive_list.push_front m l v).1
      (intrusive_list.push_front m l v).2 v).2.front_ = l.front_ ∧
    (intrusive_list.erase (intrusive_list.push_front m l v).1
      (intrusive_list.push_front m l v).2 v).2.back_ = l.back_ ∧
    (∀ x, x ≠ v → (intrusive_list.erase (intrusive_list.push_front m l v).1
      (intrusive_list.push_front m l v).2 v).1 x = m x) ∧
    unlinked ((intrusive_list.erase (intrusive_list.push_front m l v).1
      (intrusive_list.push_front m l v).2 v).1 v) := by
  obtain ⟨hfront, hback, hseg⟩ := hwf
  obtain ⟨hvp, hvn⟩ := hv
  refine ⟨?_, ?_, push_front_erase_hooks m l _ s v hfront hseg hvp, erase_unlinked _ _ v⟩
  · rw [intrusive_list.erase_front, intrusive_list.push_front_front, if_pos rfl,
      intrusive_list.push_front_next, if_pos rfl]
  · rw [intrusive_list.erase_back, intrusive_list.push_front_back,
      intrusive_list.push_front_prev, hvp]
    cases hb : l.back_ with
    | none =>
      have hs : s = [] := by
        rw [hb] at hback
        exact List.getLast?_eq_none_iff.mp hback.symm
      subst hs
      simp [lastOr, hfront]
    | some b =>
      by_cases hbv : b = v
      · subst hbv
        have hmem : b ∈ s := List.mem_of_getLast?_eq_some (hback.symm.trans hb)
        have := Seg_prev_none_head m none s hseg b hmem hvp
        simp [lastOr, hfront, this]
      · simp [lastOr, hbv]

/-- Witness of C1: pushing the unlinked value 7 in front of the list 1, 2, 3 and erasing
it again. -/
theorem intrusive_list_push_front_erase_witness :
    WF demoHooks demoList [1, 2, 3] ∧ unlinked (demoHooks 7) ∧
    (intrusive_list.erase (intrusive_list.push_front demoHooks demoList 7).1
      (intrusive_list.push_front demoHooks demoList 7).2 7).2.front_ = demoList.front_ :=
  ⟨by decide, by decide,
    (intrusive_list_push_front_erase demoHooks demoList [1, 2, 3] 7 (by decide) (by decide)).1⟩

/-- C4 fails as stated: the only value of a one-element list has an unlinked hook, and
`push_back` of that value makes its hook point to itself; the result is not the list 1, 1. -/
theorem intrusive_list_push_back_member_counterexample :
    WF freshHooks soleList [1] ∧ unlinked (freshHooks 1) ∧
    ((intrusive_list.push_back freshHooks soleList 1).1 1).next_ = some 1 ∧
    ((intrusive_list.push_back freshHooks soleList 1).1 1).prev_ = some 1 ∧
    ¬ WF (intrusive_list.push_back freshHooks soleList 1).1
      (intrusive_list.push_back freshHooks soleList 1).2 ([1] ++ [1]) := by
  decide

/-- C4, amended: for a well-formed list with traversal `s` and a value `v` with an unlinked
hook that is not in `s`, `push_back(v)` gives a well-formed list with traversal `s` followed
by `v`; `back()` is `v`, and `front()` is unchanged when `s` is non-empty and `v` when `s`
is empty. -/
theorem intrusive_list_push_back_fresh (m : Hooks) (l : intrusive_list) (s : List Nat)
    (v : Nat) (hwf : WF m l s) (hv : unlinked (m v)) (hmem : v ∉ s) :
    WF (intrusive_list.push_back m l v).1 (intrusive_list.push_back m l v).2 (s ++ [v]) ∧
    traverse (intrusive_list.push_back m l v).1 (s.length + 1)
      (intrusive_list.push_back m l v).2.front_ = s ++ [v] ∧
    (intrusive_list.push_back m l v).2.back_ = some v ∧
    (s ≠ [] → (intrusive_list.push_back m l v).2.front_ = l.front_) ∧
    (s = [] → (intrusive_list.push_back m l v).2.front_ = some v) := by
  have hnd := WF_nodup m l s hwf
  obtain ⟨hfront, hback, hseg⟩ := hwf
  obtain ⟨hvp, hvn⟩ := hv
  have hwf1 : WF (intrusive_list.push_back m l v).1 (intrusive_list.push_back m l v).2
      (s ++ [v]) := by
    refine ⟨?_, ?_, ?_⟩
    · rw [intrusive_list.push_back_front, hfront]
      cases s <;> simp
    · rw [intrusive_list.push_back_back]
      exact (List.getLast?_concat _).symm
    · rw [Seg_append, lastOr_none]
      constructor
      · refine Seg_retarget_next m _ none none _ s hseg hnd ?_ ?_
        · intro x hx
          have hxv : x ≠ v := fun h => hmem (h ▸ hx)
          rw [intrusive_list.push_back_prev, if_neg hxv]
        · intro x hx
          rw [intrusive_list.push_back_next, hback]
          rfl
      · refine ⟨?_, ?_, trivial⟩
        · rw [intrusive_list.push_back_prev, if_pos rfl, hback]
        · rw [intrusive_list.push_back_next, hback]
          have : ¬ s.getLast? = some v := fun h => hmem (List.mem_of_getLast?_eq_some h)
          rw [if_neg this, hvn]
          rfl
  refine ⟨hwf1, WF_traverse _ _ _ hwf1 _ (by simp), intrusive_list.push_back_back m l v, ?_, ?_⟩
  · intro hs
    rw [intrusive_list.push_back_front]
    cases s with
    | nil => exact absurd rfl hs
    | cons a t => rw [hfront]; rfl
  · intro hs
    subst hs
    rw [intrusive_list.push_back_front, hfront]
    rfl

/-- Witness of C4 (amended): pushing the unlinked value 7 at the back of the list 1, 2, 3. -/
theorem intrusive_list_push_back_fresh_witness :
    WF demoHooks demoList [1, 2, 3] ∧ unlinked (demoHooks 7) ∧ 7 ∉ [1, 2, 3] ∧
    WF (intrusive_list.push_back demoHooks demoList 7).1
      (intrusive_list.push_back demoHooks demoList 7).2 ([1, 2, 3] ++ [7]) :=
  ⟨by decide, by decide, by decide,
    (intrusive_list_push_back_fresh demoHooks demoList [1, 2, 3] 7 (by decide) (by decide)
      (by decide)).1⟩

/-! ## Doubly linked list: splice at the back -/

/-- C5: for well-formed lists `l` (traversal `s`) and `other` (traversal `t`) without a
common value, `l.insert_back(other)` leaves `l` well-formed with traversal `s` followed by
`t` and leaves `other` empty; when `other` is empty neither `l` nor any hook changes. -/
theorem intrusive_list_insert_back_splice (m : Hooks) (l other : intrusive_list)
    (s t : List Nat) (hl : WF m l s) (ho : WF m other t) (hdis : ∀ x, x ∈ s → x ∉ t) :
    WF (intrusive_list.insert_back m l other).1 (intrusive_list.insert_back m l other).2.1
      (s ++ t) ∧
    traverse (intrusive_list.insert_back m l other).1 (s.length + t.length)
      (intrusive_list.insert_back m l other).2.1.front_ = s ++ t ∧
    (intrusive_list.insert_back m l other).2.2 = { front_ := none, back_ := none } ∧
    WF (intrusive_list.insert_back m l other).1 (intrusive_list.insert_back m l other).2.2 [] ∧
    (t = [] → (intrusive_list.insert_back m l other).1 = m ∧
      (intrusive_list.insert_back m l other).2.1 = l) := by
  have hnds := WF_nodup m l s hl
  have hndt := WF_nodup m other t ho
  obtain ⟨hlf, hlb, hls⟩ := hl
  obtain ⟨hof, hob, hos⟩ := ho
  have key : WF (intrusive_list.insert_back m l other).1
      (intrusive_list.insert_back m l other).2.1 (s ++ t) ∧
      (intrusive_list.insert_back m l other).2.2 = { front_ := none, back_ := none } ∧
      (t = [] → (intrusive_list.insert_back m l other).1 = m ∧
        (intrusive_list.insert_back m l other).2.1 = l) := by
    cases t with
    | nil =>
      have hof1 : other.front_ = none := hof
      have hob1 : other.back_ = none := hob
      have hoe : other = { front_ := none, back_ := none } := by
        cases other; simp_all
      simp only [intrusive_list.insert_back, hof1, List.append_nil]
      exact ⟨⟨hlf, hlb, hls⟩, hoe, fun _ => ⟨trivial, trivial⟩⟩
    | cons c t1 =>
      have hof1 : other.front_ = some c := hof
      cases s with
      | nil =>
        have hlf1 : l.front_ = none := hlf
        simp only [intrusive_list.insert_back, hof1, hlf1, List.nil_append]
        refine ⟨⟨rfl, hob, hos⟩, trivial, fun h => by cases h⟩
      | cons d s1 =>
        have hlf1 : l.front_ = some d := hlf
        obtain ⟨bk, hbk⟩ : ∃ bk, (d :: s1).getLast? = some bk := by
          cases h : (d :: s1).getLast? with
          | none => simp at h
          | some bk => exact ⟨bk, rfl⟩
        have hlb1 : l.back_ = some bk := hlb.trans hbk
        have hbkmem : bk ∈ d :: s1 := List.mem_of_getLast?_eq_some hbk
        simp only [intrusive_list.insert_back, hof1, hlf1, hlb1]
        refine ⟨⟨rfl, ?_, ?_⟩, trivial, fun h => by cases h⟩
        · show other.back_ = _
          rw [hob, List.getLast?_append]
          cases h : (c :: t1).getLast? with
          | none => simp at h
          | some z => rfl
        · rw [Seg_append, lastOr_none, hbk]
          constructor
          · refine Seg_retarget_next m _ none none _ (d :: s1) hls hnds ?_ ?_
            · intro x hx
              have hxc : x ≠ c := fun h => hdis x hx (h ▸ List.mem_cons_self _ _)
              simp [hxc]
            · intro x hx
              simp [hbk, eq_comm]
          · refine Seg_retarget_prev m _ none _ none (c :: t1) hos hndt ?_ ?_
            · intro x hx
              simp [eq_comm]
            · intro x hx
              have hxb : x ≠ bk := fun h => hdis bk hbkmem (h ▸ hx)
              simp [hxb]
  refine ⟨key.1, WF_traverse _ _ _ key.1 _ (by simp), key.2.1, ?_, key.2.2⟩
  rw [key.2.1]
  exact ⟨rfl, rfl, trivial⟩

/-- Witness of C5: splicing the list 5, 6 at the back of the list 1, 2, 3. -/
theorem intrusive_list_insert_back_splice_witness :
    WF twoListHooks demoList [1, 2, 3] ∧ WF twoListHooks otherList [5, 6] ∧
    WF (intrusive_list.insert_back twoListHooks demoList otherList).1
      (intrusive_list.insert_back twoListHooks demoList otherList).2.1 ([1, 2, 3] ++ [5, 6]) :=
  ⟨by decide, by decide,
    (intrusive_list_insert_back_splice twoListHooks demoList otherList [1, 2, 3] [5, 6]
      (by decide) (by decide) (by decide)).1⟩

/-! ## Singly linked list: splice at the front -/

namespace intrusive_forward_list

@[simp] theorem fwd_setNext_next (m : Hooks) (a b : Nat) (n : Option Nat) :
    (setNext m a n b).next_ = if b = a then n else (m b).next_ := by
  unfold setNext; split <;> rfl

theorem fwd_Seg_cons (m : Hooks) (e : Option Nat) (a : Nat) (s : List Nat) :
    Seg m (a :: s) e ↔ (m a).next_ = headOr s e ∧ Seg m s e := Iff.rfl

theorem fwd_Seg_append (m : Hooks) (e : Option Nat) (xs ys : List Nat) :
    Seg m (xs ++ ys) e ↔ Seg m xs (headOr ys e) ∧ Seg m ys e := by
  induction xs with
  | nil => simp [Seg]
  | cons a t ih =>
    rw [List.cons_append, fwd_Seg_cons, fwd_Seg_cons, ih]
    have hh : headOr (t ++ ys) e = headOr t (headOr ys e) := by
      cases t <;> simp
    rw [hh]
    tauto

/-- Every `next_` inside a segment is the exit pointer or a value of the segment. -/
theorem fwd_Seg_next_mem (m : Hooks) (e : Option Nat) (s : List Nat) (h : Seg m s e)
    (x : Nat) (hx : x ∈ s) : (m x).next_ = e ∨ ∃ y ∈ s, (m x).next_ = some y := by
  induction s with
  | nil => cases hx
  | cons a t ih =>
    obtain ⟨h1, h2⟩ := h
    rcases List.mem_cons.mp hx with rfl | hx
    · cases t with
      | nil => exact Or.inl h1
      | cons b u => exact Or.inr ⟨b, by simp, h1⟩
    · rcases ih h2 hx with h4 | ⟨y, hy, h4⟩
      · exact Or.inl h4
      · exact Or.inr ⟨y, List.mem_cons_of_mem _ hy, h4⟩

/-- A segment that leaves to a pointer outside of it has no repeated value. -/
theorem fwd_Seg_nodup_of (m : Hooks) (e : Option Nat) (s : List Nat) (h : Seg m s e)
    (he : ∀ q, e = some q → q ∉ s) : s.Nodup := by
  induction s using List.reverseRecOn generalizing e with
  | nil => exact List.nodup_nil
  | append_singleton t b ih =>
    rw [fwd_Seg_append] at h
    obtain ⟨h1, h2, _⟩ := h
    simp only [headOr_nil, headOr_cons] at h1 h2
    have hbt : b ∉ t := by
      intro hmem
      rcases fwd_Seg_next_mem m (some b) t h1 b hmem with h4 | ⟨y, hy, h4⟩
      · exact he b (h2.symm.trans h4) (by simp)
      · exact he y (h2.symm.trans h4) (by simp [hy])
    have hnt : t.Nodup := ih (some b) h1 (fun q hq => by cases hq; exact hbt)
    rw [List.nodup_append]
    refine ⟨hnt, List.nodup_singleton b, ?_⟩
    intro x hx hx2
    rw [List.mem_singleton] at hx2
    exact hbt (hx2 ▸ hx)

theorem fwd_WF_nodup (m : Hooks) (l : intrusive_forward_list) (s : List Nat) (h : WF m l s) :
    s.Nodup :=
  fwd_Seg_nodup_of m none s h.2.2 (fun _ hq => by cases hq)

/-- Moving a segment to another store: the hooks of its values agree with the old ones,
except for the `next_` of the last one. -/
theorem fwd_Seg_retarget (m m1 : Hooks) (e e1 : Option Nat) (s : List Nat)
    (h : Seg m s e) (hnd : s.Nodup)
    (hnext : ∀ x ∈ s, (m1 x).next_ = if s.getLast? = some x then e1 else (m x).next_) :
    Seg m1 s e1 := by
  induction s with
  | nil => trivial
  | cons a t ih =>
    obtain ⟨h2, h3⟩ := h
    obtain ⟨hat, hnt⟩ := List.nodup_cons.mp hnd
    constructor
    · have := hnext a (List.mem_cons_self _ _)
      cases t with
      | nil => simpa using this
      | cons b u =>
        rw [List.getLast?_cons_cons] at this
        have hne : ¬ (b :: u).getLast? = some a := by
          intro hl
          exact hat (List.mem_of_getLast?_eq_some hl)
        rw [if_neg hne] at this
        rw [this, h2]; rfl
    · apply ih h3 hnt
      intro x hx
      have := hnext x (List.mem_cons_of_mem _ hx)
      cases t with
      | nil => cases hx
      | cons b u =>
        rw [List.getLast?_cons_cons] at this
        exact this

theorem fwd_Seg_frame (m m1 : Hooks) (e : Option Nat) (s : List Nat)
    (h : Seg m s e) (hsame : ∀ x ∈ s, m1 x = m x) : Seg m1 s e := by
  induction s with
  | nil => trivial
  | cons a t ih =>
    obtain ⟨h2, h3⟩ := h
    refine ⟨?_, ih h3 (fun x hx => hsame x (List.mem_cons_of_mem _ hx))⟩
    rw [hsame a (List.mem_cons_self _ _)]; exact h2

theorem fwd_traverse_Seg (m : Hooks) (s : List Nat) (h : Seg m s none)
    (fuel : Nat) (hf : s.length ≤ fuel) : traverse m fuel (headOr s none) = s := by
  induction s generalizing fuel with
  | nil => cases fuel <;> rfl
  | cons a t ih =>
    obtain ⟨h2, h3⟩ := h
    cases fuel with
    | zero => simp at hf
    | succ n =>
      simp only [headOr_cons, traverse, h2]
      rw [ih h3 n (by simpa using hf)]

theorem fwd_WF_traverse (m : Hooks) (l : intrusive_forward_list) (s : List Nat) (h : WF m l s)
    (fuel : Nat) (hf : s.length ≤ fuel) : traverse m fuel l.front_ = s := by
  rw [h.1, ← headOr_none]
  exact fwd_traverse_Seg m s h.2.2 fuel hf

end intrusive_forward_list

/-- C10: for well-formed forward lists `l` (traversal `s`) and `other` (traversal `t`)
without a common value, `l.insert_front(other)` leaves `l` well-formed with traversal `t`
followed by `s`; when `t` is non-empty `front()` is the former `other.front()`, when `s` is
non-empty `back()` is the former `l.back()`; `other` is left empty, and when `other` is
empty neither `l` nor any hook changes. -/
theorem intrusive_forward_list_insert_front_splice (m : intrusive_forward_list.Hooks)
    (l other : intrusive_forward_list) (s t : List Nat)
    (hl : intrusive_forward_list.WF m l s) (ho : intrusive_forward_list.WF m other t)
    (hdis : ∀ x, x ∈ s → x ∉ t) :
    intrusive_forward_list.WF (intrusive_forward_list.insert_front m l other).1
      (intrusive_forward_list.insert_front m l other).2.1 (t ++ s) ∧
    intrusive_forward_list.traverse (intrusive_forward_list.insert_front m l other).1
      (t.length + s.length) (intrusive_forward_list.insert_front m l other).2.1.front_
      = t ++ s ∧
    (t ≠ [] → (intrusive_forward_list.insert_front m l other).2.1.front_ = other.front_) ∧
    (s ≠ [] → (intrusive_forward_list.insert_front m l other).2.1.back_ = l.back_) ∧
    (intrusive_forward_list.insert_front m l other).2.2 = { front_ := none, back_ := none } ∧
    (t = [] → (intrusive_forward_list.insert_front m l other).1 = m ∧
      (intrusive_forward_list.insert_front m l other).2.1 = l) := by
  have hnds := intrusive_forward_list.fwd_WF_nodup m l s hl
  have hndt := intrusive_forward_list.fwd_WF_nodup m other t ho
  obtain ⟨hlf, hlb, hls⟩ := hl
  obtain ⟨hof, hob, hos⟩ := ho
  have key : intrusive_forward_list.WF (intrusive_forward_list.insert_front m l other).1
      (intrusive_forward_list.insert_front m l other).2.1 (t ++ s) ∧
      (t ≠ [] → (intrusive_forward_list.insert_front m l other).2.1.front_ = other.front_) ∧
      (s ≠ [] → (intrusive_forward_list.insert_front m l other).2.1.back_ = l.back_) ∧
      (intrusive_forward_list.insert_front m l other).2.2
        = { front_ := none, back_ := none } ∧
      (t = [] → (intrusive_forward_list.insert_front m l other).1 = m ∧
        (intrusive_forward_list.insert_front m l other).2.1 = l) := by
    cases t with
    | nil =>
      have hof1 : other.front_ = none := hof
      have hob1 : other.back_ = none := hob
      have hoe : other = { front_ := none, back_ := none } := by
        cases other; simp_all
      simp only [intrusive_forward_list.insert_front, hof1, List.nil_append]
      exact ⟨⟨hlf, hlb, hls⟩, fun h => absurd rfl h, fun _ => trivial, hoe,
        fun _ => ⟨trivial, trivial⟩⟩
    | cons c t1 =>
      have hof1 : other.front_ = some c := hof
      cases s with
      | nil =>
        have hlf1 : l.front_ = none := hlf
        simp only [intrusive_forward_list.insert_front, hof1, hlf1, List.append_nil]
        exact ⟨⟨rfl, hob, hos⟩, fun _ => trivial, fun h => absurd rfl h, trivial,
          fun h => by cases h⟩
      | cons d s1 =>
        have hlf1 : l.front_ = some d := hlf
        obtain ⟨ob, hobk⟩ : ∃ ob, (c :: t1).getLast? = some ob := by
          cases h : (c :: t1).getLast? with
          | none => simp at h
          | some ob => exact ⟨ob, rfl⟩
        have hob1 : other.back_ = some ob := hob.trans hobk
        have hobmem : ob ∈ c :: t1 := List.mem_of_getLast?_eq_some hobk
        simp only [intrusive_forward_list.insert_front, hof1, hlf1, hob1]
        refine ⟨⟨rfl, ?_, ?_⟩, fun _ => trivial, fun _ => trivial, trivial,
          fun h => by cases h⟩
        · show l.back_ = _
          rw [hlb, List.getLast?_append]
          cases h : (d :: s1).getLast? with
          | none => simp at h
          | some z => rfl
        · rw [intrusive_forward_list.fwd_Seg_append]
          constructor
          · refine intrusive_forward_list.fwd_Seg_retarget m _ none _ (c :: t1) hos hndt ?_
            intro x hx
            simp [hobk, eq_comm]
          · refine intrusive_forward_list.fwd_Seg_frame m _ none (d :: s1) hls ?_
            intro x hx
            have hxb : x ≠ ob := fun h => hdis x hx (h ▸ hobmem)
            simp [intrusive_forward_list.setNext, hxb]
  exact ⟨key.1, intrusive_forward_list.fwd_WF_traverse _ _ _ key.1 _ (by simp), key.2⟩

/-- Witness of C10: splicing the forward list 5, 6 in front of the forward list 1, 2, 3. -/
theorem intrusive_forward_list_insert_front_splice_witness :
    intrusive_forward_list.WF intrusive_forward_list.demoHooks
      intrusive_forward_list.demoList [1, 2, 3] ∧
    intrusive_forward_list.WF intrusive_forward_list.demoHooks
      intrusive_forward_list.otherList [5, 6] ∧
    intrusive_forward_list.WF
      (intrusive_forward_list.insert_front intrusive_forward_list.demoHooks
        intrusive_forward_list.demoList intrusive_forward_list.otherList).1
      (intrusive_forward_list.insert_front intrusive_forward_list.demoHooks
        intrusive_forward_list.demoList intrusive_forward_list.otherList).2.1
      ([5, 6] ++ [1, 2, 3]) :=
  ⟨by decide, by decide,
    (intrusive_forward_list_insert_front_splice intrusive_forward_list.demoHooks
      intrusive_forward_list.demoList intrusive_forward_list.otherList [1, 2, 3] [5, 6]
      (by decide) (by decide) (by decide)).1⟩

/-! ## `sp_intrusive_list`: erase and push_front -/

/-- The hooks written by `sp_intrusive_list::erase` are those written by
`intrusive_list::erase`. -/
theorem sp_erase_hooks (w : Nat) (m : Hooks) (l : sp_intrusive_list) (l0 : intrusive_list)
    (v : Nat) : (sp_intrusive_list.erase w m l v).1 = (intrusive_list.erase m l0 v).1 := by
  funext x
  unfold sp_intrusive_list.erase intrusive_list.erase
  apply base_hook.ext <;> simp

/-- The hooks written by `sp_intrusive_list::push_front` are those written by
`intrusive_list::push_front` on a list with the same `front_`. -/
theorem sp_push_front_hooks (w : Nat) (m : Hooks) (l : sp_intrusive_list)
    (l0 : intrusive_list) (v : Nat) (h : l0.front_ = l.front_) :
    (sp_intrusive_list.push_front w m l v).1 = (intrusive_list.push_front m l0 v).1 := by
  funext x
  unfold sp_intrusive_list.push_front intrusive_list.push_front
  cases hf : l.front_ <;> simp [h, hf]

theorem sp_erase_front (w : Nat) (m : Hooks) (l : sp_intrusive_list) (v : Nat) :
    (sp_intrusive_list.erase w m l v).2.front_ =
      if l.front_ = some v then (m v).next_ else l.front_ := by
  unfold sp_intrusive_list.erase
  by_cases h1 : l.front_ = some v <;> simp [h1]

theorem sp_erase_size (w : Nat) (m : Hooks) (l : sp_intrusive_list) (v : Nat) :
    (sp_intrusive_list.erase w m l v).2.size_ = (l.size_ + (2 ^ w - 1)) % 2 ^ w := by
  unfold sp_intrusive_list.erase
  by_cases h1 : l.front_ = some v <;> simp [h1]

theorem sp_push_front_header (w : Nat) (m : Hooks) (l : sp_intrusive_list) (v : Nat) :
    (sp_intrusive_list.push_front w m l v).2 =
      { size_ := (l.size_ + 1) % 2 ^ w, front_ := some v } := rfl

/-- Decrement of a `std::size_t` between 1 and `2 ^ w - 1`. -/
theorem size_dec (w n : Nat) (h1 : 0 < n) (h2 : n < 2 ^ w) :
    (n + (2 ^ w - 1)) % 2 ^ w = n - 1 := by
  have h3 : n + (2 ^ w - 1) = (n - 1) + 2 ^ w := by omega
  rw [h3, Nat.add_mod_right, Nat.mod_eq_of_lt (by omega)]

/-- Increment then decrement of a `std::size_t`. -/
theorem size_inc_dec (w n : Nat) (h2 : n < 2 ^ w) :
    ((n + 1) % 2 ^ w + (2 ^ w - 1)) % 2 ^ w = n := by
  have hpos : 0 < 2 ^ w := Nat.two_pow_pos w
  rw [Nat.mod_add_mod]
  have h3 : n + 1 + (2 ^ w - 1) = n + 2 ^ w := by omega
  rw [h3, Nat.add_mod_right, Nat.mod_eq_of_lt h2]

/-- The doubly linked header with the same traversal as an `sp_intrusive_list`. -/
theorem SpWF_to_WF (w : Nat) (m : Hooks) (l : sp_intrusive_list) (s : List Nat)
    (h : SpWF w m l s) : WF m { front_ := l.front_, back_ := s.getLast? } s :=
  ⟨h.1, rfl, h.2.1⟩

theorem sp_erase_SpWF (w : Nat) (m : Hooks) (l : sp_intrusive_list) (s : List Nat) (v : Nat)
    (hwf : SpWF w m l s) (hv : v ∈ s) :
    SpWF w (sp_intrusive_list.erase w m l v).1 (sp_intrusive_list.erase w m l v).2
      (s.erase v) := by
  have h0 := erase_WF m _ s v (SpWF_to_WF w m l s hwf) hv
  obtain ⟨hf, hseg, hsz, hlt⟩ := hwf
  have hpos : 0 < s.length := List.length_pos_of_mem hv
  refine ⟨?_, ?_, ?_, ?_⟩
  · rw [sp_erase_front, ← h0.1, intrusive_list.erase_front]
  · rw [sp_erase_hooks w m l { front_ := l.front_, back_ := s.getLast? } v]
    exact h0.2.2
  · rw [sp_erase_size, hsz, size_dec w _ hpos hlt, List.length_erase_of_mem hv]
  · exact lt_of_le_of_lt (List.length_erase_le _ _) hlt

/-- C6: erasing a member `v` of a well-formed `sp_intrusive_list` with traversal `s` gives
a well-formed list whose traversal is `s` without `v`, in the same order; `size()` decreases
by exactly 1, the `prev_` of the successor of `v` is the former predecessor of `v`, and the
hook of `v` is unlinked. -/
theorem sp_intrusive_list_erase_member (w : Nat) (m : Hooks) (l : sp_intrusive_list)
    (s : List Nat) (v : Nat) (hwf : SpWF w m l s) (hv : v ∈ s) :
    SpWF w (sp_intrusive_list.erase w m l v).1 (sp_intrusive_list.erase w m l v).2
      (s.erase v) ∧
    v ∉ s.erase v ∧
    traverse (sp_intrusive_list.erase w m l v).1 s.length
      (sp_intrusive_list.front (sp_intrusive_list.erase w m l v).2) = s.erase v ∧
    sp_intrusive_list.size (sp_intrusive_list.erase w m l v).2 + 1
      = sp_intrusive_list.size l ∧
    (∀ n, (m v).next_ = some n →
      ((sp_intrusive_list.erase w m l v).1 n).prev_ = (m v).prev_) ∧
    unlinked ((sp_intrusive_list.erase w m l v).1 v) := by
  have h1 := sp_erase_SpWF w m l s v hwf hv
  have hpos : 0 < s.length := List.length_pos_of_mem hv
  refine ⟨h1, List.Nodup.not_mem_erase (Seg_nodup m none s hwf.2.1), ?_, ?_, ?_, ?_⟩
  · unfold sp_intrusive_list.front
    rw [h1.1, ← headOr_none]
    exact traverse_Seg _ none _ h1.2.1 _ (List.length_erase_le _ _)
  · unfold sp_intrusive_list.size
    rw [h1.2.2.1, hwf.2.2.1, List.length_erase_of_mem hv]
    omega
  · intro n hn
    have hnd := Seg_nodup m none s hwf.2.1
    obtain ⟨pre, post, rfl⟩ := List.append_of_mem hv
    have hseg := hwf.2.1
    rw [Seg_append, Seg_cons, headOr_none, headOr_none] at hseg
    have hvpost : v ∉ post := (List.nodup_cons.mp (List.Nodup.of_append_right hnd)).1
    have hnpost : n ∈ post := List.mem_of_mem_head? (hseg.2.2.1.symm.trans hn)
    have hnv : n ≠ v := fun h => hvpost (h ▸ hnpost)
    rw [sp_erase_hooks w m l { front_ := none, back_ := none } v,
      intrusive_list.erase_prev, if_neg hnv, if_pos hn]
  · rw [sp_erase_hooks w m l { front_ := none, back_ := none } v]
    exact erase_unlinked m _ v

/-- Witness of C6: erasing 2 from the `sp_intrusive_list` 1, 2, 3 with a 64-bit `size_t`. -/
theorem sp_intrusive_list_erase_member_witness :
    SpWF 64 demoHooks spDemoList [1, 2, 3] ∧ 2 ∈ [1, 2, 3] ∧
    SpWF 64 (sp_intrusive_list.erase 64 demoHooks spDemoList 2).1
      (sp_intrusive_list.erase 64 demoHooks spDemoList 2).2 [1, 3] :=
  ⟨by decide, by decide,
    (sp_intrusive_list_erase_member 64 demoHooks spDemoList [1, 2, 3] 2 (by decide)
      (by decide)).1⟩

/-- C8: on a well-formed `sp_intrusive_list`, `push_front(v)` of a value with an unlinked
hook followed by `erase(v)` gives back the former `front()` and `size()`, leaves the hook
(`next_` and `prev_`) of every other value as it was, and leaves the hook of `v`
unlinked. -/
theorem sp_intrusive_list_push_front_erase (w : Nat) (m : Hooks) (l : sp_intrusive_list)
    (s : List Nat) (v : Nat) (hwf : SpWF w m l s) (hv : unlinked (m v)) :
    sp_intrusive_list.front (sp_intrusive_list.erase w (sp_intrusive_list.push_front w m l v).1
      (sp_intrusive_list.push_front w m l v).2 v).2 = sp_intrusive_list.front l ∧
    sp_intrusive_list.size (sp_intrusive_list.erase w (sp_intrusive_list.push_front w m l v).1
      (sp_intrusive_list.push_front w m l v).2 v).2 = sp_intrusive_list.size l ∧
    (∀ x, x ≠ v → (sp_intrusive_list.erase w (sp_intrusive_list.push_front w m l v).1
      (sp_intrusive_list.push_front w m l v).2 v).1 x = m x) ∧
    unlinked ((sp_intrusive_list.erase w (sp_intrusive_list.push_front w m l v).1
      (sp_intrusive_list.push_front w m l v).2 v).1 v) := by
  obtain ⟨hf, hseg, hsz, hlt⟩ := hwf
  have hh : (sp_intrusive_list.push_front w m l v).1 =
      (intrusive_list.push_front m { front_ := l.front_, back_ := none } v).1 :=
    sp_push_front_hooks w m l _ v rfl
  refine ⟨?_, ?_, ?_, ?_⟩
  · unfold sp_intrusive_list.front
    rw [sp_erase_front, sp_push_front_header, if_pos rfl, hh,
      intrusive_list.push_front_next, if_pos rfl]
  · unfold sp_intrusive_list.size
    rw [sp_erase_size, sp_push_front_header]
    exact size_inc_dec w _ (hsz ▸ hlt)
  · intro x hxv
    rw [sp_erase_hooks w _ _ { front_ := none, back_ := none } v, hh]
    exact push_front_erase_hooks m _ _ s v hf hseg hv.1 x hxv
  · rw [sp_erase_hooks w _ _ { front_ := none, back_ := none } v]
    exact erase_unlinked _ _ v

/-- Witness of C8: pushing the unlinked value 7 in front of the `sp_intrusive_list` 1, 2, 3
and erasing it again. -/
theorem sp_intrusive_list_push_front_erase_witness :
    SpWF 64 demoHooks spDemoList [1, 2, 3] ∧ unlinked (demoHooks 7) ∧
    sp_intrusive_list.size (sp_intrusive_list.erase 64
      (sp_intrusive_list.push_front 64 demoHooks spDemoList 7).1
      (sp_intrusive_list.push_front 64 demoHooks spDemoList 7).2 7).2 = 3 :=
  ⟨by decide, by decide,
    (sp_intrusive_list_push_front_erase 64 demoHooks spDemoList [1, 2, 3] 7 (by decide)
      (by decide)).2.1⟩

/-! ## Finite `next` chains -/

theorem Seg_nextOnly (m : Hooks) (p e : Option Nat) (s : List Nat) (h : Seg m p s e) :
    intrusive_forward_list.Seg (nextOnly m) s e := by
  induction s generalizing p with
  | nil => trivial
  | cons a t ih => exact ⟨h.2.1, ih (some a) h.2.2⟩

/-- A finite chain is a null-terminated forward segment that starts at `p`. -/
theorem FiniteChain_seg (m : Hooks) (p : Option Nat) (s : List Nat) (h : FiniteChain m p s) :
    p = s.head? ∧ intrusive_forward_list.Seg (nextOnly m) s none := by
  unfold FiniteChain at h
  induction s generalizing p with
  | nil =>
    cases p with
    | none => exact ⟨rfl, trivial⟩
    | some a => simp [traverse] at h
  | cons a t ih =>
    cases p with
    | none => simp [traverse] at h
    | some b =>
      simp only [List.length_cons, traverse, List.cons.injEq] at h
      obtain ⟨hba, ht⟩ := h
      subst hba
      obtain ⟨h1, h2⟩ := ih (m b).next_ ht
      refine ⟨rfl, ?_, h2⟩
      show (m b).next_ = headOr t none
      rw [headOr_none]
      exact h1

theorem FiniteChain_nodup (m : Hooks) (p : Option Nat) (s : List Nat)
    (h : FiniteChain m p s) : s.Nodup :=
  intrusive_forward_list.fwd_Seg_nodup_of (nextOnly m) none s (FiniteChain_seg m p s h).2
    (fun _ hq => by cases hq)

theorem SpWF_FiniteChain (w : Nat) (m : Hooks) (l : sp_intrusive_list) (s : List Nat)
    (h : SpWF w m l s) : FiniteChain m l.front_ s := by
  unfold FiniteChain
  rw [h.1, ← headOr_none]
  exact traverse_Seg m none s h.2.1 _ (Nat.le_succ _)

/-! ## `sp_intrusive_list`: clear -/

/-- The loop of `clear()` on a finite `next` chain `s` starting at `front_`: with at least
`s.length` iterations allowed it leaves with a null `front_`, having released the values of
`s` in order, each with an unlinked hook; the hooks of `s` end unlinked and no other hook is
written. -/
theorem clear_loop_spec (m : Hooks) (l : sp_intrusive_list) (s : List Nat)
    (hseg : intrusive_forward_list.Seg (nextOnly m) s none) (hnd : s.Nodup)
    (hf : l.front_ = s.head?) (fuel : Nat) (hfuel : s.length ≤ fuel) :
    ∃ m1 : Hooks,
      sp_intrusive_list.clear_loop fuel m l
        = some (m1, { l with front_ := none },
            s.map (fun a => (a, { prev_ := none, next_ := none }))) ∧
      (∀ x ∈ s, m1 x = { prev_ := none, next_ := none }) ∧
      (∀ x, x ∉ s → m1 x = m x) := by
  induction s generalizing m l fuel with
  | nil =>
    have hf1 : l.front_ = none := hf
    have hl : ({ l with front_ := none } : sp_intrusive_list) = l := by
      cases l; simp_all
    refine ⟨m, ?_, fun x hx => absurd hx (List.not_mem_nil x), fun _ _ => rfl⟩
    rw [hl]
    cases fuel <;> simp [sp_intrusive_list.clear_loop, hf1]
  | cons a t ih =>
    obtain ⟨h2, h3⟩ := hseg
    obtain ⟨hat, hnt⟩ := List.nodup_cons.mp hnd
    have hf1 : l.front_ = some a := hf
    cases fuel with
    | zero => simp at hfuel
    | succ n =>
      have hbody1 : ∀ x, x ≠ a → (sp_intrusive_list.clear_body m l a).1 x = m x := by
        intro x hx
        apply base_hook.ext <;> simp [sp_intrusive_list.clear_body, hx]
      have hbodya : (sp_intrusive_list.clear_body m l a).1 a
          = { prev_ := none, next_ := none } := by
        apply base_hook.ext <;> simp [sp_intrusive_list.clear_body]
      have hseg1 : intrusive_forward_list.Seg
          (nextOnly (sp_intrusive_list.clear_body m l a).1) t none :=
        intrusive_forward_list.fwd_Seg_frame (nextOnly m) _ none t h3
          (fun x hx => by
            show nextOnly _ x = nextOnly m x
            unfold nextOnly
            rw [hbody1 x (fun h => hat (h ▸ hx))])
      have hfront1 : (sp_intrusive_list.clear_body m l a).2.front_ = t.head? := by
        show (m a).next_ = _
        rw [← headOr_none]
        exact h2
      obtain ⟨m1, hrun, hin, hout⟩ := ih _ _ hseg1 hnt hfront1 n (by simpa using hfuel)
      refine ⟨m1, ?_, ?_, ?_⟩
      · simp only [sp_intrusive_list.clear_loop, hf1, hrun, hbodya, List.map_cons]
        rfl
      · intro x hx
        rcases List.mem_cons.mp hx with rfl | hx
        · rw [hout x hat, hbodya]
        · exact hin x hx
      · intro x hx
        have hxa : x ≠ a := fun h => hx (h ▸ List.mem_cons_self _ _)
        have hxt : x ∉ t := fun h => hx (List.mem_cons_of_mem _ h)
        rw [hout x hxt, hbody1 x hxa]

/-- The loop of `clear()` has not left after fewer than `s.length` iterations. -/
theorem clear_loop_short (m : Hooks) (l : sp_intrusive_list) (s : List Nat)
    (hseg : intrusive_forward_list.Seg (nextOnly m) s none) (hnd : s.Nodup)
    (hf : l.front_ = s.head?) (fuel : Nat) (hfuel : fuel < s.length) :
    sp_intrusive_list.clear_loop fuel m l = none := by
  induction s generalizing m l fuel with
  | nil => simp at hfuel
  | cons a t ih =>
    obtain ⟨h2, h3⟩ := hseg
    obtain ⟨hat, hnt⟩ := List.nodup_cons.mp hnd
    have hf1 : l.front_ = some a := hf
    cases fuel with
    | zero => simp [sp_intrusive_list.clear_loop, hf1]
    | succ n =>
      have hbody1 : ∀ x, x ≠ a → (sp_intrusive_list.clear_body m l a).1 x = m x := by
        intro x hx
        apply base_hook.ext <;> simp [sp_intrusive_list.clear_body, hx]
      have hseg1 : intrusive_forward_list.Seg
          (nextOnly (sp_intrusive_list.clear_body m l a).1) t none :=
        intrusive_forward_list.fwd_Seg_frame (nextOnly m) _ none t h3
          (fun x hx => by
            show nextOnly _ x = nextOnly m x
            unfold nextOnly
            rw [hbody1 x (fun h => hat (h ▸ hx))])
      have hfront1 : (sp_intrusive_list.clear_body m l a).2.front_ = t.head? := by
        show (m a).next_ = _
        rw [← headOr_none]
        exact h2
      have := ih _ _ hseg1 hnt hfront1 n (by simpa using hfuel)
      simp [sp_intrusive_list.clear_loop, hf1, this]

/-- C7: for a well-formed `sp_intrusive_list` of `n` values, `clear()` returns (the loop
leaves within `n` iterations); afterwards `front()` is null, `size()` is 0, `empty()` is
true, and the hook of every former member is unlinked, which is what `push_front` asks of
a value. -/
theorem sp_intrusive_list_clear_post (w : Nat) (m : Hooks) (l : sp_intrusive_list)
    (s : List Nat) (fuel : Nat) (hwf : SpWF w m l s) (hfuel : s.length ≤ fuel) :
    ∃ r : Hooks × sp_intrusive_list,
      sp_intrusive_list.clear fuel m l = some r ∧
      sp_intrusive_list.front r.2 = none ∧
      sp_intrusive_list.size r.2 = 0 ∧
      sp_intrusive_list.empty r.2 = true ∧
      (∀ x ∈ s, unlinked (r.1 x)) ∧
      SpWF w r.1 r.2 [] := by
  obtain ⟨hf, hseg, _, _⟩ := hwf
  obtain ⟨m1, hrun, hin, _⟩ :=
    clear_loop_spec m l s (Seg_nextOnly m none none s hseg) (Seg_nodup m none s hseg) hf
      fuel hfuel
  refine ⟨(m1, { size_ := 0, front_ := none }), ?_, rfl, rfl, rfl, ?_, ?_⟩
  · simp [sp_intrusive_list.clear, hrun]
  · intro x hx
    show unlinked (m1 x)
    rw [hin x hx]
    exact ⟨rfl, rfl⟩
  · exact ⟨rfl, trivial, rfl, Nat.two_pow_pos w⟩

/-- Witness of C7: clearing the `sp_intrusive_list` 1, 2, 3. -/
theorem sp_intrusive_list_clear_post_witness :
    SpWF 64 demoHooks spDemoList [1, 2, 3] ∧
    ∃ r : Hooks × sp_intrusive_list,
      sp_intrusive_list.clear 3 demoHooks spDemoList = some r ∧
      sp_intrusive_list.front r.2 = none ∧
      sp_intrusive_list.size r.2 = 0 ∧
      sp_intrusive_list.empty r.2 = true ∧
      (∀ x ∈ [1, 2, 3], unlinked (r.1 x)) ∧
      SpWF 64 r.1 r.2 [] :=
  ⟨by decide,
    sp_intrusive_list_clear_post 64 demoHooks spDemoList [1, 2, 3] 3 (by decide) (by decide)⟩

/-- C9: for a list whose `next` chain from `front()` is finite with the `n` values `s`, the
loop of `clear()` leaves after exactly `n` iterations (it has left when `n` iterations are
allowed and has not when fewer are); iteration `i` detaches the `i`-th value, and at the
moment that value is released its `next_` (and `prev_`) is already null, so releasing it
releases no further value through `next_`. -/
theorem sp_intrusive_list_clear_iterations (m : Hooks) (l : sp_intrusive_list)
    (s : List Nat) (hchain : FiniteChain m l.front_ s) :
    (∃ r : Hooks × sp_intrusive_list × List (Nat × base_hook),
      sp_intrusive_list.clear_loop s.length m l = some r ∧
      r.2.2.length = s.length ∧
      r.2.2.map Prod.fst = s ∧
      (∀ e ∈ r.2.2, e.2.next_ = none ∧ e.2.prev_ = none) ∧
      r.2.1.front_ = none) ∧
    (∀ fuel, fuel < s.length → sp_intrusive_list.clear_loop fuel m l = none) := by
  obtain ⟨hf, hseg⟩ := FiniteChain_seg m l.front_ s hchain
  have hnd := FiniteChain_nodup m l.front_ s hchain
  constructor
  · obtain ⟨m1, hrun, _, _⟩ := clear_loop_spec m l s hseg hnd hf s.length le_rfl
    refine ⟨_, hrun, by simp, ?_, ?_, rfl⟩
    · simp [List.map_map, Function.comp_def]
    · intro e he
      obtain ⟨a, _, rfl⟩ := List.mem_map.mp he
      exact ⟨rfl, rfl⟩
  · intro fuel hfuel
    exact clear_loop_short m l s hseg hnd hf fuel hfuel

/-- Witness of C9: the loop of `clear()` on the `sp_intrusive_list` 1, 2, 3 has not left
after two iterations. -/
theorem sp_intrusive_list_clear_iterations_witness :
    FiniteChain demoHooks spDemoList.front_ [1, 2, 3] ∧
    sp_intrusive_list.clear_loop 2 demoHooks spDemoList = none :=
  ⟨by decide,
    (sp_intrusive_list_clear_iterations demoHooks spDemoList [1, 2, 3] (by decide)).2 2
      (by decide)⟩

/-! ## `sp_intrusive_list`: the size invariant -/

/-- Walking `next` along a null-terminated segment visits its first `fuel` values. -/
theorem traverse_Seg_take (m : Hooks) (p : Option Nat) (s : List Nat) (h : Seg m p s none)
    (fuel : Nat) : traverse m fuel (headOr s none) = s.take fuel := by
  induction s generalizing p fuel with
  | nil => cases fuel <;> rfl
  | cons a t ih =>
    obtain ⟨_, h2, h3⟩ := h
    cases fuel with
    | zero => rfl
    | succ n =>
      simp only [headOr_cons, traverse, h2, List.take_succ_cons]
      rw [ih (some a) h3 n]

/-- In a well-formed list the members are the values of the traversal. -/
theorem SpMember_iff (w : Nat) (m : Hooks) (l : sp_intrusive_list) (s : List Nat)
    (h : SpWF w m l s) (v : Nat) : SpMember m l v ↔ v ∈ s := by
  unfold SpMember
  rw [h.1, ← headOr_none]
  constructor
  · rintro ⟨fuel, hv⟩
    rw [traverse_Seg_take m none s h.2.1 fuel] at hv
    exact List.mem_of_mem_take hv
  · intro hv
    refine ⟨s.length, ?_⟩
    rw [traverse_Seg m none s h.2.1 s.length le_rfl]
    exact hv

/-- There are fewer than `n` distinct non-null addresses below `n`. -/
theorem length_lt_of_addresses (n : Nat) (hn : 0 < n) (s : List Nat) (hnd : s.Nodup)
    (hs : ∀ x ∈ s, 0 < x ∧ x < n) : s.length < n := by
  have hsub : s.toFinset ⊆ Finset.Ico 1 n := by
    intro x hx
    rw [List.mem_toFinset] at hx
    rw [Finset.mem_Ico]
    exact ⟨(hs x hx).1, (hs x hx).2⟩
  have hcard := Finset.card_le_card hsub
  rw [List.toFinset_card_of_nodup hnd, Nat.card_Ico] at hcard
  omega

theorem sp_push_front_SpWF (w : Nat) (m : Hooks) (l : sp_intrusive_list) (s : List Nat)
    (v : Nat) (hwf : SpWF w m l s) (hv : unlinked (m v)) (hmem : v ∉ s)
    (hlen : s.length + 1 < 2 ^ w) :
    SpWF w (sp_intrusive_list.push_front w m l v).1 (sp_intrusive_list.push_front w m l v).2
      (v :: s) := by
  obtain ⟨hf, hseg, hsz, _⟩ := hwf
  have hnd := Seg_nodup m none s hseg
  have hh : (sp_intrusive_list.push_front w m l v).1 =
      (intrusive_list.push_front m { front_ := l.front_, back_ := none } v).1 :=
    sp_push_front_hooks w m l _ v rfl
  have hfv : ¬ l.front_ = some v := by
    rw [hf]
    exact fun h => hmem (List.mem_of_mem_head? h)
  refine ⟨rfl, ⟨?_, ?_, ?_⟩, ?_, ?_⟩
  · rw [hh, intrusive_list.push_front_prev]
    show (if l.front_ = some v then some v else (m v).prev_) = none
    rw [if_neg hfv]
    exact hv.1
  · rw [hh, intrusive_list.push_front_next, if_pos rfl, headOr_none]
    exact hf
  · rw [hh]
    refine Seg_retarget_prev m _ none (some v) none s hseg hnd ?_ ?_
    · intro x hx
      rw [intrusive_list.push_front_prev]
      show (if l.front_ = some x then some v else (m x).prev_) = _
      rw [hf]
    · intro x hx
      have hxv : x ≠ v := fun h => hmem (h ▸ hx)
      rw [intrusive_list.push_front_next, if_neg hxv]
  · show (l.size_ + 1) % 2 ^ w = (v :: s).length
    rw [hsz, Nat.mod_eq_of_lt hlen]
    rfl
  · exact hlen

theorem SpWF_SizeIsChainLength (w : Nat) (m : Hooks) (l : sp_intrusive_list) (s : List Nat)
    (h : SpWF w m l s) : SizeIsChainLength m l :=
  ⟨s, SpWF_FiniteChain w m l s h, h.2.2.1⟩

/-- Invariant of the states reached with fresh pushes: the list is well-formed and its
values are non-null addresses of `w` bits. -/
theorem SpReach_inv (w : Nat) (m : Hooks) (l : sp_intrusive_list) (h : SpReach w true m l) :
    ∃ s, SpWF w m l s ∧ ∀ x ∈ s, 0 < x ∧ x < 2 ^ w := by
  induction h with
  | init m =>
    exact ⟨[], ⟨rfl, trivial, rfl, Nat.two_pow_pos w⟩, fun x hx => absurd hx (List.not_mem_nil x)⟩
  | push_front m l v _ hv0 hvw hun hfresh ih =>
    obtain ⟨s, hwf, haddr⟩ := ih
    have hmem : v ∉ s := fun hm => hfresh rfl ((SpMember_iff w m l s hwf v).mpr hm)
    have haddr1 : ∀ x ∈ v :: s, 0 < x ∧ x < 2 ^ w := by
      intro x hx
      rcases List.mem_cons.mp hx with rfl | hx
      · exact ⟨hv0, hvw⟩
      · exact haddr x hx
    have hnd1 : (v :: s).Nodup := List.nodup_cons.mpr ⟨hmem, Seg_nodup m none s hwf.2.1⟩
    have hlen : s.length + 1 < 2 ^ w := length_lt_of_addresses _ (Nat.two_pow_pos w) (v :: s) hnd1 haddr1
    exact ⟨v :: s, sp_push_front_SpWF w m l s v hwf hun hmem hlen, haddr1⟩
  | erase m l v _ hmem ih =>
    obtain ⟨s, hwf, haddr⟩ := ih
    have hv : v ∈ s := (SpMember_iff w m l s hwf v).mp hmem
    exact ⟨s.erase v, sp_erase_SpWF w m l s v hwf hv,
      fun x hx => haddr x (List.mem_of_mem_erase hx)⟩
  | clear m l fuel r _ hclear ih =>
    obtain ⟨s, hwf, _⟩ := ih
    refine ⟨[], ?_, fun x hx => absurd hx (List.not_mem_nil x)⟩
    have hnd := Seg_nodup m none s hwf.2.1
    by_cases hfuel : s.length ≤ fuel
    · obtain ⟨m1, hrun, _, _⟩ :=
        clear_loop_spec m l s (Seg_nextOnly m none none s hwf.2.1) hnd hwf.1 fuel hfuel
      simp only [sp_intrusive_list.clear, hrun, Option.some.injEq] at hclear
      subst hclear
      exact ⟨rfl, trivial, rfl, Nat.two_pow_pos w⟩
    · have hrun := clear_loop_short m l s (Seg_nextOnly m none none s hwf.2.1) hnd hwf.1
        fuel (by omega)
      simp [sp_intrusive_list.clear, hrun] at hclear

/-- Walking `next` from a value whose `next_` is the value itself never stops. -/
theorem traverse_self_loop (m : Hooks) (a : Nat) (h : (m a).next_ = some a) (fuel : Nat) :
    (traverse m fuel (some a)).length = fuel := by
  induction fuel with
  | zero => rfl
  | succ n ih => simp only [traverse, h, List.length_cons, ih]

/-- C2 fails as stated: the only member of a one-element list has an unlinked hook, so it
may be pushed again; then `size()` is 2 while `next` of the front is the front itself, and
no walk from `front()` reaches null. -/
theorem sp_intrusive_list_size_counterexample :
    SpReach 64 false spTwicePushed.1 spTwicePushed.2 ∧
    sp_intrusive_list.size spTwicePushed.2 = 2 ∧
    spTwicePushed.2.front_ = some 1 ∧
    (spTwicePushed.1 1).next_ = some 1 ∧
    ¬ SizeIsChainLength spTwicePushed.1 spTwicePushed.2 := by
  refine ⟨?_, by decide, by decide, by decide, ?_⟩
  · exact SpReach.push_front _ _ 1
      (SpReach.push_front freshHooks spEmpty 1 (SpReach.init freshHooks)
        (by decide) (by decide) (by decide) (fun h => by cases h))
      (by decide) (by decide) (by decide) (fun h => by cases h)
  · rintro ⟨s, hs, _⟩
    have hfront : spTwicePushed.2.front_ = some 1 := by decide
    unfold FiniteChain at hs
    have hlen := congrArg List.length hs
    rw [hfront, traverse_self_loop _ 1 (by decide)] at hlen
    omega

/-- C2, amended: in every state reached from the empty list by `push_front` of a value with
an unlinked hook that is not already a member, `erase` of a member and `clear`, `size()` is
the number of values reached from `front()` by following `next`, and that chain is finite. -/
theorem sp_intrusive_list_size_invariant (w : Nat) (m : Hooks) (l : sp_intrusive_list)
    (h : SpReach w true m l) : SizeIsChainLength m l := by
  obtain ⟨s, hwf, _⟩ := SpReach_inv w m l h
  exact SpWF_SizeIsChainLength w m l s hwf

/-- Witness of C2 (amended): the state after one `push_front` on the empty list. -/
theorem sp_intrusive_list_size_invariant_witness :
    SizeIsChainLength (sp_intrusive_list.push_front 64 freshHooks spEmpty 1).1
      (sp_intrusive_list.push_front 64 freshHooks spEmpty 1).2 :=
  sp_intrusive_list_size_invariant 64 _ _
    (SpReach.push_front freshHooks spEmpty 1 (SpReach.init freshHooks)
      (by decide) (by decide) (by decide)
      (fun _ hm => by
        obtain ⟨fuel, hv⟩ := hm
        cases fuel <;> simp [traverse, spEmpty] at hv))

/-! ## Doubly linked list: well-formedness is preserved -/

theorem push_front_WF (m : Hooks) (l : intrusive_list) (s : List Nat) (v : Nat)
    (hwf : WF m l s) (hv : unlinked (m v)) (hmem : v ∉ s) :
    WF (intrusive_list.push_front m l v).1 (intrusive_list.push_front m l v).2 (v :: s) := by
  have hnd := WF_nodup m l s hwf
  obtain ⟨hf, hb, hseg⟩ := hwf
  have hfv : ¬ l.front_ = some v := by
    rw [hf]
    exact fun h => hmem (List.mem_of_mem_head? h)
  refine ⟨intrusive_list.push_front_front m l v, ?_, ?_, ?_, ?_⟩
  · rw [intrusive_list.push_front_back, hb]
    cases s with
    | nil => rfl
    | cons a t =>
      rw [List.getLast?_cons_cons]
      cases h : (a :: t).getLast? with
      | none => simp at h
      | some z => simp [lastOr]
  · rw [intrusive_list.push_front_prev, if_neg hfv]
    exact hv.1
  · rw [intrusive_list.push_front_next, if_pos rfl, headOr_none]
    exact hf
  · refine Seg_retarget_prev m _ none (some v) none s hseg hnd ?_ ?_
    · intro x hx
      rw [intrusive_list.push_front_prev, hf]
    · intro x hx
      have hxv : x ≠ v := fun h => hmem (h ▸ hx)
      rw [intrusive_list.push_front_next, if_neg hxv]

theorem push_back_WF (m : Hooks) (l : intrusive_list) (s : List Nat) (v : Nat)
    (hwf : WF m l s) (hv : unlinked (m v)) (hmem : v ∉ s) :
    WF (intrusive_list.push_back m l v).1 (intrusive_list.push_back m l v).2 (s ++ [v]) := by
  have hnd := WF_nodup m l s hwf
  obtain ⟨hfront, hback, hseg⟩ := hwf
  refine ⟨?_, ?_, ?_⟩
  · rw [intrusive_list.push_back_front, hfront]
    cases s <;> simp
  · rw [intrusive_list.push_back_back]
    exact (List.getLast?_concat _).symm
  · rw [Seg_append, lastOr_none]
    constructor
    · refine Seg_retarget_next m _ none none _ s hseg hnd ?_ ?_
      · intro x hx
        have hxv : x ≠ v := fun h => hmem (h ▸ hx)
        rw [intrusive_list.push_back_prev, if_neg hxv]
      · intro x hx
        rw [intrusive_list.push_back_next, hback]
        rfl
    · refine ⟨?_, ?_, trivial⟩
      · rw [intrusive_list.push_back_prev, if_pos rfl, hback]
      · rw [intrusive_list.push_back_next, hback]
        have : ¬ s.getLast? = some v := fun h => hmem (List.mem_of_getLast?_eq_some h)
        rw [if_neg this, hv.2]
        rfl

/-- On a well-formed non-empty list `pop_front()` is `erase` of the front value. -/
theorem pop_front_eq_erase (m : Hooks) (l : intrusive_list) (a : Nat) (t : List Nat)
    (hwf : WF m l (a :: t)) :
    intrusive_list.pop_front m l = intrusive_list.erase m l a := by
  have hnd := WF_nodup m l _ hwf
  obtain ⟨hf, hb, hp, hn, _⟩ := hwf
  have hf1 : l.front_ = some a := hf
  cases t with
  | nil =>
    have hn1 : (m a).next_ = none := hn
    have hb1 : l.back_ = some a := hb
    simp only [intrusive_list.pop_front, intrusive_list.erase, hf1, hn1, hp, hb1, if_true]
    refine Prod.ext ?_ rfl
    funext x
    apply base_hook.ext <;> simp
  | cons b u =>
    have hn1 : (m a).next_ = some b := hn
    have hab : a ∉ b :: u := (List.nodup_cons.mp hnd).1
    have hb1 : ¬ l.back_ = some a := by
      rw [hb, List.getLast?_cons_cons]
      exact fun h => hab (List.mem_of_getLast?_eq_some h)
    simp only [intrusive_list.pop_front, intrusive_list.erase, hf1, hn1, hp, hb1, if_true,
      if_false]
    refine Prod.ext ?_ rfl
    funext x
    apply base_hook.ext <;> simp

/-- On a well-formed non-empty list `pop_back()` is `erase` of the back value. -/
theorem pop_back_eq_erase (m : Hooks) (l : intrusive_list) (init : List Nat) (b : Nat)
    (hwf : WF m l (init ++ [b])) :
    intrusive_list.pop_back m l = intrusive_list.erase m l b := by
  have hnd := WF_nodup m l _ hwf
  obtain ⟨hf, hb, hseg⟩ := hwf
  rw [Seg_append, lastOr_none] at hseg
  obtain ⟨_, hp, hn, _⟩ := hseg
  have hn1 : (m b).next_ = none := hn
  have hb1 : l.back_ = some b := by rw [hb]; exact List.getLast?_concat _
  have hbi : b ∉ init := fun h =>
    (List.disjoint_of_nodup_append hnd) h (List.mem_singleton_self b)
  rcases List.eq_nil_or_concat init with rfl | ⟨u, p, rfl⟩
  · have hp1 : (m b).prev_ = none := hp
    have hf1 : l.front_ = some b := hf
    simp only [intrusive_list.pop_back, intrusive_list.erase, hf1, hn1, hp1, hb1, if_true]
    refine Prod.ext ?_ rfl
    funext x
    apply base_hook.ext <;> simp [hn1]
  · have hp1 : (m b).prev_ = some p := by
      rw [hp, List.concat_eq_append]; exact List.getLast?_concat _
    have hf1 : ¬ l.front_ = some b := by
      rw [hf]
      intro h
      exact hbi (List.mem_of_mem_head? (by
        cases u with
        | nil => simpa using h
        | cons c d => simpa using h))
    simp only [intrusive_list.pop_back, intrusive_list.erase, hf1, hn1, hp1, hb1, if_true,
      if_false]
    refine Prod.ext ?_ rfl
    funext x
    apply base_hook.ext <;> simp [hn1]

/-- Linking the back of one segment to the front of another, disjoint one. -/
theorem Seg_join (m : Hooks) (s t : List Nat) (b c : Nat)
    (hs : Seg m none s none) (ht : Seg m none t none)
    (hb : s.getLast? = some b) (hc : t.head? = some c) (hdis : ∀ x, x ∈ s → x ∉ t) :
    Seg (setPrev (setNext m b (some c)) c (some b)) none (s ++ t) none := by
  have hnds := Seg_nodup m none s hs
  have hndt := Seg_nodup m none t ht
  have hbmem : b ∈ s := List.mem_of_getLast?_eq_some hb
  have hcmem : c ∈ t := List.mem_of_mem_head? hc
  rw [Seg_append, lastOr_none, hb, headOr_none, hc]
  constructor
  · refine Seg_retarget_next m _ none none _ s hs hnds ?_ ?_
    · intro x hx
      have hxc : x ≠ c := fun h => hdis x hx (h ▸ hcmem)
      simp [hxc]
    · intro x hx
      simp [hb, eq_comm]
  · refine Seg_retarget_prev m _ none _ none t ht hndt ?_ ?_
    · intro x hx
      simp [hc, eq_comm]
    · intro x hx
      have hxb : x ≠ b := fun h => hdis b hbmem (h ▸ hx)
      simp [hxb]

theorem getLast?_append_of_ne_nil (s t : List Nat) (ht : t ≠ []) :
    (s ++ t).getLast? = t.getLast? := by
  rw [List.getLast?_append]
  cases h : t.getLast? with
  | none => exact absurd (List.getLast?_eq_none_iff.mp h) ht
  | some z => rfl

theorem head?_append_of_ne_nil (s t : List Nat) (hs : s ≠ []) :
    (s ++ t).head? = s.head? := by
  cases s with
  | nil => exact absurd rfl hs
  | cons a u => rfl

theorem insert_back_WF (m : Hooks) (l other : intrusive_list) (s t : List Nat)
    (hl : WF m l s) (ho : WF m other t) (hdis : ∀ x, x ∈ s → x ∉ t) :
    WF (intrusive_list.insert_back m l other).1 (intrusive_list.insert_back m l other).2.1
      (s ++ t) ∧
    (intrusive_list.insert_back m l other).2.2 = { front_ := none, back_ := none } := by
  obtain ⟨hlf, hlb, hls⟩ := hl
  obtain ⟨hof, hob, hos⟩ := ho
  cases t with
  | nil =>
    have hof1 : other.front_ = none := hof
    have hob1 : other.back_ = none := hob
    have hoe : other = { front_ := none, back_ := none } := by
      cases other; simp_all
    simp only [intrusive_list.insert_back, hof1, List.append_nil]
    exact ⟨⟨hlf, hlb, hls⟩, hoe⟩
  | cons c t1 =>
    have hof1 : other.front_ = some c := hof
    cases s with
    | nil =>
      have hlf1 : l.front_ = none := hlf
      simp only [intrusive_list.insert_back, hof1, hlf1, List.nil_append]
      exact ⟨⟨rfl, hob, hos⟩, trivial⟩
    | cons d s1 =>
      have hlf1 : l.front_ = some d := hlf
      obtain ⟨bk, hbk⟩ : ∃ bk, (d :: s1).getLast? = some bk := by
        cases h : (d :: s1).getLast? with
        | none => simp at h
        | some bk => exact ⟨bk, rfl⟩
      have hlb1 : l.back_ = some bk := hlb.trans hbk
      simp only [intrusive_list.insert_back, hof1, hlf1, hlb1]
      refine ⟨⟨rfl, ?_, Seg_join m _ _ bk c hls hos hbk rfl hdis⟩, trivial⟩
      show other.back_ = _
      rw [hob, getLast?_append_of_ne_nil _ _ (List.cons_ne_nil c t1)]

theorem insert_front_WF (m : Hooks) (l other : intrusive_list) (s t : List Nat)
    (hl : WF m l s) (ho : WF m other t) (hdis : ∀ x, x ∈ s → x ∉ t) :
    WF (intrusive_list.insert_front m l other).1 (intrusive_list.insert_front m l other).2.1
      (t ++ s) ∧
    (intrusive_list.insert_front m l other).2.2 = { front_ := none, back_ := none } := by
  obtain ⟨hlf, hlb, hls⟩ := hl
  obtain ⟨hof, hob, hos⟩ := ho
  cases t with
  | nil =>
    have hof1 : other.front_ = none := hof
    have hob1 : other.back_ = none := hob
    have hoe : other = { front_ := none, back_ := none } := by
      cases other; simp_all
    simp only [intrusive_list.insert_front, hof1, List.nil_append]
    exact ⟨⟨hlf, hlb, hls⟩, hoe⟩
  | cons c t1 =>
    have hof1 : other.front_ = some c := hof
    cases s with
    | nil =>
      have hlf1 : l.front_ = none := hlf
      simp only [intrusive_list.insert_front, hof1, hlf1, List.append_nil]
      exact ⟨⟨rfl, hob, hos⟩, trivial⟩
    | cons d s1 =>
      have hlf1 : l.front_ = some d := hlf
      obtain ⟨ob, hobk⟩ : ∃ ob, (c :: t1).getLast? = some ob := by
        cases h : (c :: t1).getLast? with
        | none => simp at h
        | some ob => exact ⟨ob, rfl⟩
      have hob1 : other.back_ = some ob := hob.trans hobk
      simp only [intrusive_list.insert_front, hof1, hlf1, hob1]
      refine ⟨⟨rfl, ?_, Seg_join m _ _ ob d hos hls hobk rfl
        (fun x hx hx2 => hdis x hx2 hx)⟩, trivial⟩
      show l.back_ = _
      rw [hlb, getLast?_append_of_ne_nil _ _ (List.cons_ne_nil d s1)]


/-- C19: well-formedness of the doubly linked list is preserved: from a well-formed list
with chain `s`, `push_front` and `push_back` of an unlinked value outside `s`, `erase` of a
member, `pop_front` and `pop_back` on a non-empty list, `swap` with a well-formed list, and
`insert_front` and `insert_back` of a disjoint well-formed list all give a well-formed list;
the other list of `swap`, `insert_front` and `insert_back` is well-formed afterwards too. -/
theorem intrusive_list_well_formed_preserved (m : Hooks) (l : intrusive_list) (s : List Nat)
    (hwf : WF m l s) :
    (∀ v, unlinked (m v) → v ∉ s →
      WellFormed (intrusive_list.push_front m l v).1 (intrusive_list.push_front m l v).2 ∧
      WellFormed (intrusive_list.push_back m l v).1 (intrusive_list.push_back m l v).2) ∧
    (∀ v, v ∈ s →
      WellFormed (intrusive_list.erase m l v).1 (intrusive_list.erase m l v).2) ∧
    (s ≠ [] →
      WellFormed (intrusive_list.pop_front m l).1 (intrusive_list.pop_front m l).2 ∧
      WellFormed (intrusive_list.pop_back m l).1 (intrusive_list.pop_back m l).2) ∧
    (∀ other t, WF m other t →
      WellFormed (intrusive_list.swap m l other).1 (intrusive_list.swap m l other).2.1 ∧
      WellFormed (intrusive_list.swap m l other).1 (intrusive_list.swap m l other).2.2) ∧
    (∀ other t, WF m other t → (∀ x, x ∈ s → x ∉ t) →
      WellFormed (intrusive_list.insert_front m l other).1
        (intrusive_list.insert_front m l other).2.1 ∧
      WellFormed (intrusive_list.insert_front m l other).1
        (intrusive_list.insert_front m l other).2.2 ∧
      WellFormed (intrusive_list.insert_back m l other).1
        (intrusive_list.insert_back m l other).2.1 ∧
      WellFormed (intrusive_list.insert_back m l other).1
        (intrusive_list.insert_back m l other).2.2) := by
  refine ⟨?_, ?_, ?_, ?_, ?_⟩
  · intro v hv hmem
    exact ⟨⟨v :: s, push_front_WF m l s v hwf hv hmem⟩,
      ⟨s ++ [v], push_back_WF m l s v hwf hv hmem⟩⟩
  · intro v hv
    exact ⟨s.erase v, erase_WF m l s v hwf hv⟩
  · intro hs
    constructor
    · cases s with
      | nil => exact absurd rfl hs
      | cons a t =>
        rw [pop_front_eq_erase m l a t hwf]
        exact ⟨(a :: t).erase a, erase_WF m l _ a hwf (List.mem_cons_self _ _)⟩
    · rcases List.eq_nil_or_concat s with rfl | ⟨u, b, rfl⟩
      · exact absurd rfl hs
      · rw [List.concat_eq_append] at hwf
        rw [pop_back_eq_erase m l u b hwf]
        exact ⟨(u ++ [b]).erase b, erase_WF m l _ b hwf (by simp)⟩
  · intro other t ho
    exact ⟨⟨t, ho.1, ho.2.1, ho.2.2⟩, ⟨s, hwf.1, hwf.2.1, hwf.2.2⟩⟩
  · intro other t ho hdis
    have h1 := insert_front_WF m l other s t hwf ho hdis
    have h2 := insert_back_WF m l other s t hwf ho hdis
    refine ⟨⟨t ++ s, h1.1⟩, ⟨[], ?_⟩, ⟨s ++ t, h2.1⟩, ⟨[], ?_⟩⟩
    · rw [h1.2]; exact ⟨rfl, rfl, trivial⟩
    · rw [h2.2]; exact ⟨rfl, rfl, trivial⟩

/-- Witness of C19: erasing 2 from the list 1, 2, 3 leaves a well-formed list. -/
theorem intrusive_list_well_formed_preserved_witness :
    WF demoHooks demoList [1, 2, 3] ∧
    WellFormed (intrusive_list.erase demoHooks demoList 2).1
      (intrusive_list.erase demoHooks demoList 2).2 :=
  ⟨by decide,
    (intrusive_list_well_formed_preserved demoHooks demoList [1, 2, 3] (by decide)).2.1 2
      (by decide)⟩

/-! ## Doubly linked list: the assertions hold -/

theorem lastOr_some_ne_none (v : Nat) (s : List Nat) : lastOr (some v) s ≠ none := by
  unfold lastOr
  cases s.getLast? <;> simp

/-- C18: on a well-formed list with chain `s` every assertion of the doubly linked list
holds: those of `push_front` and `push_back` for an unlinked value outside `s`, of `erase`
for a member, of `pop_front` and `pop_back` when `s` is non-empty, and of `insert_front` and
`insert_back` for a disjoint well-formed other list. -/
theorem intrusive_list_asserts_hold (m : Hooks) (l : intrusive_list) (s : List Nat)
    (hwf : WF m l s) :
    (∀ v, unlinked (m v) → v ∉ s →
      intrusive_list.push_front_asserts m l v ∧ intrusive_list.push_back_asserts m l v) ∧
    (∀ v, v ∈ s → intrusive_list.erase_asserts m l v) ∧
    (s ≠ [] → intrusive_list.pop_front_asserts m l ∧ intrusive_list.pop_back_asserts m l) ∧
    (∀ other t, WF m other t → (∀ x, x ∈ s → x ∉ t) →
      intrusive_list.insert_front_asserts m l other ∧
      intrusive_list.insert_back_asserts m l other) := by
  refine ⟨?_, ?_, ?_, ?_⟩
  · intro v hv hmem
    constructor
    · refine ⟨hv, ?_, ?_⟩
      · rw [intrusive_list.push_front_next, if_pos rfl, intrusive_list.push_front_front,
          intrusive_list.push_front_back]
        cases s with
        | nil =>
          have hb : l.back_ = none := hwf.2.1
          right; right
          rw [hb]; rfl
        | cons a t =>
          have hf : l.front_ = some a := hwf.1
          right; left
          rw [hf]; simp
      · rw [intrusive_list.push_front_front, intrusive_list.push_front_back]
        exact ⟨by simp, lastOr_some_ne_none v _⟩
    · refine ⟨hv, ?_, ?_⟩
      · rw [intrusive_list.push_back_prev, if_pos rfl, intrusive_list.push_back_front,
          intrusive_list.push_back_back]
        cases s with
        | nil =>
          have hf : l.front_ = none := hwf.1
          right; right
          rw [hf]; rfl
        | cons a t =>
          left
          rw [hwf.2.1]
          intro h
          exact absurd (List.getLast?_eq_none_iff.mp h) (List.cons_ne_nil a t)
      · rw [intrusive_list.push_back_front, intrusive_list.push_back_back]
        refine ⟨?_, by simp⟩
        cases l.front_ <;> simp
  · intro v _
    exact ⟨(erase_unlinked m l v).1, (erase_unlinked m l v).2⟩
  · intro hs
    constructor
    · cases s with
      | nil => exact absurd rfl hs
      | cons a t =>
        have hf : l.front_ = some a := hwf.1
        unfold intrusive_list.pop_front_asserts
        rw [hf]
        show ((intrusive_list.pop_front m l).1 a).prev_ = none ∧ _
        rw [pop_front_eq_erase m l a t hwf]
        exact ⟨(erase_unlinked m l a).1, (erase_unlinked m l a).2⟩
    · rcases List.eq_nil_or_concat s with rfl | ⟨u, b, rfl⟩
      · exact absurd rfl hs
      · rw [List.concat_eq_append] at hwf
        have hb : l.back_ = some b := by rw [hwf.2.1]; exact List.getLast?_concat _
        unfold intrusive_list.pop_back_asserts
        rw [hb]
        show ((intrusive_list.pop_back m l).1 b).prev_ = none ∧ _
        rw [pop_back_eq_erase m l u b hwf]
        exact ⟨(erase_unlinked m l b).1, (erase_unlinked m l b).2⟩
  · intro other t ho hdis
    constructor
    · intro _ _
      rw [(insert_front_WF m l other s t hwf ho hdis).2]
    · intro _ _
      rw [(insert_back_WF m l other s t hwf ho hdis).2]

/-- Witness of C18: the assertions of `push_front` hold when the unlinked value 7 is pushed
in front of the list 1, 2, 3. -/
theorem intrusive_list_asserts_hold_witness :
    WF demoHooks demoList [1, 2, 3] ∧ unlinked (demoHooks 7) ∧ 7 ∉ [1, 2, 3] ∧
    intrusive_list.push_front_asserts demoHooks demoList 7 :=
  ⟨by decide, by decide, by decide,
    ((intrusive_list_asserts_hold demoHooks demoList [1, 2, 3] (by decide)).1 7 (by decide)
      (by decide)).1⟩

/-! ## Raw lists: copies are shallow -/

/-- C11: the copy constructor and the copy assignment of `intrusive_list` and of
`intrusive_forward_list` give a list with the `front_` and `back_` of the source, leave the
source and every hook as they were, and so the copy and the source walk the same values. -/
theorem raw_list_copy_shallow (m : Hooks) (l other : intrusive_list)
    (fm : intrusive_forward_list.Hooks) (fl fother : intrusive_forward_list) :
    ((intrusive_list.copy_construct m other).2.1.front_ = other.front_ ∧
      (intrusive_list.copy_construct m other).2.1.back_ = other.back_ ∧
      (intrusive_list.copy_construct m other).2.2 = other ∧
      (intrusive_list.copy_construct m other).1 = m ∧
      ∀ fuel, traverse (intrusive_list.copy_construct m other).1 fuel
          (intrusive_list.copy_construct m other).2.1.front_
        = traverse m fuel other.front_) ∧
    ((intrusive_list.copy_assign m l other).2.1.front_ = other.front_ ∧
      (intrusive_list.copy_assign m l other).2.1.back_ = other.back_ ∧
      (intrusive_list.copy_assign m l other).2.2 = other ∧
      (intrusive_list.copy_assign m l other).1 = m ∧
      ∀ fuel, traverse (intrusive_list.copy_assign m l other).1 fuel
          (intrusive_list.copy_assign m l other).2.1.front_
        = traverse m fuel other.front_) ∧
    ((intrusive_forward_list.copy_construct fm fother).2.1.front_ = fother.front_ ∧
      (intrusive_forward_list.copy_construct fm fother).2.1.back_ = fother.back_ ∧
      (intrusive_forward_list.copy_construct fm fother).2.2 = fother ∧
      (intrusive_forward_list.copy_construct fm fother).1 = fm ∧
      ∀ fuel, intrusive_forward_list.traverse
          (intrusive_forward_list.copy_construct fm fother).1 fuel
          (intrusive_forward_list.copy_construct fm fother).2.1.front_
        = intrusive_forward_list.traverse fm fuel fother.front_) ∧
    ((intrusive_forward_list.copy_assign fm fl fother).2.1.front_ = fother.front_ ∧
      (intrusive_forward_list.copy_assign fm fl fother).2.1.back_ = fother.back_ ∧
      (intrusive_forward_list.copy_assign fm fl fother).2.2 = fother ∧
      (intrusive_forward_list.copy_assign fm fl fother).1 = fm ∧
      ∀ fuel, intrusive_forward_list.traverse
          (intrusive_forward_list.copy_assign fm fl fother).1 fuel
          (intrusive_forward_list.copy_assign fm fl fother).2.1.front_
        = intrusive_forward_list.traverse fm fuel fother.front_) :=
  ⟨⟨rfl, rfl, rfl, rfl, fun _ => rfl⟩, ⟨rfl, rfl, rfl, rfl, fun _ => rfl⟩,
    ⟨rfl, rfl, rfl, rfl, fun _ => rfl⟩, ⟨rfl, rfl, rfl, rfl, fun _ => rfl⟩⟩

/-! ## Singly linked list: the assertions of push_back -/

/-- After `push_back` of a value outside a well-formed forward list, with a null `next_`,
the assertion "The pushed value has to be linked" holds exactly when the list was empty. -/
theorem fwd_push_back_assert_linked_iff (m : intrusive_forward_list.Hooks)
    (l : intrusive_forward_list) (s : List Nat) (v : Nat)
    (hwf : intrusive_forward_list.WF m l s) (hv : (m v).next_ = none) (hmem : v ∉ s) :
    intrusive_forward_list.push_back_assert_linked m l v ↔ s = [] := by
  obtain ⟨hf, hb, _⟩ := hwf
  unfold intrusive_forward_list.push_back_assert_linked intrusive_forward_list.push_back
  cases s with
  | nil =>
    have hf1 : l.front_ = none := hf
    have hb1 : l.back_ = none := hb
    simp [hf1, hb1]
  | cons a t =>
    have hf1 : l.front_ = some a := hf
    obtain ⟨b, hbk⟩ : ∃ b, (a :: t).getLast? = some b := by
      cases h : (a :: t).getLast? with
      | none => simp at h
      | some b => exact ⟨b, rfl⟩
    have hb1 : l.back_ = some b := hb.trans hbk
    have hvb : v ≠ b := fun h => hmem (h ▸ List.mem_of_getLast?_eq_some hbk)
    have hav : a ≠ v := fun h => hmem (h ▸ List.mem_cons_self _ _)
    simp [hf1, hb1, hvb, hv, hav]

/-- C17, at the failing input: the forward list with the only value 1 is well-formed and the
value 2 is unlinked and not in it, yet after `push_back` of 2 its `next_` is null and
`front_` (1) differs from `back_` (2): the assertion "The pushed value has to be linked"
fails. -/
theorem intrusive_forward_list_push_back_assert_fails :
    intrusive_forward_list.WF intrusive_forward_list.freshHooks
      intrusive_forward_list.soleList [1] ∧
    intrusive_forward_list.push_back_assert_unlinked intrusive_forward_list.freshHooks 2 ∧
    2 ∉ [1] ∧
    ((intrusive_forward_list.push_back intrusive_forward_list.freshHooks
      intrusive_forward_list.soleList 2).1 2).next_ = none ∧
    (intrusive_forward_list.push_back intrusive_forward_list.freshHooks
      intrusive_forward_list.soleList 2).2 = { front_ := some 1, back_ := some 2 } ∧
    ¬ intrusive_forward_list.push_back_assert_linked intrusive_forward_list.freshHooks
      intrusive_forward_list.soleList 2 ∧
    ¬ intrusive_forward_list.push_back_asserts intrusive_forward_list.freshHooks
      intrusive_forward_list.soleList 2 := by
  decide

/-! ## `sp_intrusive_list`: link consistency -/

/-- In a null-terminated segment the `prev_` of the successor of a value is that value. -/
theorem Seg_next_prev (m : Hooks) (p : Option Nat) (s : List Nat) (h : Seg m p s none)
    (a b : Nat) (ha : a ∈ s) (hn : (m a).next_ = some b) : (m b).prev_ = some a := by
  induction s generalizing p with
  | nil => cases ha
  | cons x t ih =>
    obtain ⟨_, h2, h3⟩ := h
    by_cases hax : a = x
    · subst hax
      cases t with
      | nil => rw [hn] at h2; cases h2
      | cons c u =>
        rw [hn] at h2
        have hbc : b = c := Option.some.inj h2
        subst hbc
        exact h3.1
    · rcases List.mem_cons.mp ha with h | h
      · exact absurd h hax
      · exact ih (some x) h3 h

/-- The members of a history are the traversal of a well-formed list, and they are non-null
addresses of `w` bits. -/
theorem SpHistory_inv (w : Nat) (m : Hooks) (l : sp_intrusive_list) (s : List Nat)
    (h : SpHistory w m l s) : SpWF w m l s ∧ ∀ x ∈ s, 0 < x ∧ x < 2 ^ w := by
  induction h with
  | init m =>
    exact ⟨⟨rfl, trivial, rfl, Nat.two_pow_pos w⟩, fun x hx => absurd hx (List.not_mem_nil x)⟩
  | push_front m l s v _ hv0 hvw hun hmem ih =>
    obtain ⟨hwf, haddr⟩ := ih
    have haddr1 : ∀ x ∈ v :: s, 0 < x ∧ x < 2 ^ w := by
      intro x hx
      rcases List.mem_cons.mp hx with rfl | hx
      · exact ⟨hv0, hvw⟩
      · exact haddr x hx
    have hnd1 : (v :: s).Nodup := List.nodup_cons.mpr ⟨hmem, Seg_nodup m none s hwf.2.1⟩
    have hlen : s.length + 1 < 2 ^ w :=
      length_lt_of_addresses _ (Nat.two_pow_pos w) (v :: s) hnd1 haddr1
    exact ⟨sp_push_front_SpWF w m l s v hwf hun hmem hlen, haddr1⟩
  | erase m l s v _ hv ih =>
    obtain ⟨hwf, haddr⟩ := ih
    exact ⟨sp_erase_SpWF w m l s v hwf hv, fun x hx => haddr x (List.mem_of_mem_erase hx)⟩
  | clear m l s fuel r _ hclear ih =>
    obtain ⟨hwf, _⟩ := ih
    refine ⟨?_, fun x hx => absurd hx (List.not_mem_nil x)⟩
    have hnd := Seg_nodup m none s hwf.2.1
    by_cases hfuel : s.length ≤ fuel
    · obtain ⟨m1, hrun, _, _⟩ :=
        clear_loop_spec m l s (Seg_nextOnly m none none s hwf.2.1) hnd hwf.1 fuel hfuel
      simp only [sp_intrusive_list.clear, hrun, Option.some.injEq] at hclear
      subst hclear
      exact ⟨rfl, trivial, rfl, Nat.two_pow_pos w⟩
    · have hrun := clear_loop_short m l s (Seg_nextOnly m none none s hwf.2.1) hnd hwf.1
        fuel (by omega)
      simp [sp_intrusive_list.clear, hrun] at hclear

/-- C20: in every state reached from the empty list by `push_front` of a non-member with an
unlinked hook, `erase` of a member and `clear`, with `s` the members: `prev` of `front()` is
null, every member is reached from `front()` through `next`, and for every member `a` whose
`next` is a value `b`, `prev` of `b` is `a`. -/
theorem sp_intrusive_list_links_consistent (w : Nat) (m : Hooks) (l : sp_intrusive_list)
    (s : List Nat) (h : SpHistory w m l s) :
    (∀ f, sp_intrusive_list.front l = some f → (m f).prev_ = none) ∧
    (∀ a, a ∈ s → SpMember m l a) ∧
    (∀ a, a ∈ s → ∀ b, (m a).next_ = some b → (m b).prev_ = some a) := by
  obtain ⟨hwf, _⟩ := SpHistory_inv w m l s h
  refine ⟨?_, ?_, ?_⟩
  · intro f hf
    exact Seg_head_prev m none none s hwf.2.1 f (hwf.1.symm.trans hf)
  · intro a ha
    exact (SpMember_iff w m l s hwf a).mpr ha
  · intro a ha b hn
    exact Seg_next_prev m none s hwf.2.1 a b ha hn

/-- Witness of C20: the state after `push_front` of 1 on the empty list. -/
theorem sp_intrusive_list_links_consistent_witness :
    SpMember (sp_intrusive_list.push_front 64 freshHooks spEmpty 1).1
      (sp_intrusive_list.push_front 64 freshHooks spEmpty 1).2 1 :=
  (sp_intrusive_list_links_consistent 64 _ _ [1]
    (SpHistory.push_front freshHooks spEmpty [] 1 (SpHistory.init freshHooks)
      (by decide) (by decide) (by decide) (by decide))).2.1 1 (by decide)


/-! ## Session manager: the invariant -/

namespace session_manager

theorem countP_erase_of_mem (p : operation → Bool) (l : List operation) (a : operation)
    (h : a ∈ l) : List.countP p (l.erase a) + (if p a then 1 else 0) = List.countP p l := by
  rw [(List.perm_cons_erase h).countP_eq p, List.countP_cons]

theorem Inv.of_same (st st1 : session_manager) (h : Inv st) (hs : SameCore st st1) :
    Inv st1 := by
  obtain ⟨h1, h2, h3, h4, h5, h6, h7, h8⟩ := hs
  have hA : outstanding_accepts st1 = outstanding_accepts st := by
    unfold outstanding_accepts; rw [h8]
  have hW : outstanding_stops st1 = outstanding_stops st := by
    unfold outstanding_stops; rw [h8]
  constructor
  · rw [h6, h8]; exact h.pending
  · rw [hA]; exact h.accepts_le
  · rw [h5, h4, hA, h7, h1]; exact h.in_progress
  · rw [h5, h4, hA]; exact h.not_in_progress
  · rw [h5, h4]; exact h.not_work
  · rw [h7, h1]; exact h.active_le
  · rw [h4, h8, h7, h3]; exact h.stopped
  · rw [h3, h4]; exact h.extern_stopped
  · rw [hW, h2]; exact h.stops_le

theorem SameCore_recycle (st : session_manager) (s : Nat) : SameCore st (recycle st s) := by
  unfold recycle
  split <;> constructor <;> rfl

theorem SameCore_recycle_enter_stop (st : session_manager) (s : Nat) :
    SameCore
      { st with intern_state_ := intern_state.stop, accept_state_ := accept_state.stopped }
      { recycle st s with
        intern_state_ := intern_state.stop, accept_state_ := accept_state.stopped } := by
  unfold recycle
  split <;> constructor <;> rfl

theorem SameCore_complete_extern_stop (st : session_manager) (e : error_code) :
    SameCore st (complete_extern_stop st e) := by
  unfold complete_extern_stop
  split <;> constructor <;> rfl

theorem SameCore_complete_extern_wait (st : session_manager) (e : error_code) :
    SameCore st (complete_extern_wait st e) := by
  unfold complete_extern_wait
  split <;> constructor <;> rfl

theorem SameCore.trans (a b c : session_manager) (h1 : SameCore a b) (h2 : SameCore b c) :
    SameCore a c :=
  ⟨h2.1.trans h1.1, h2.2.trans h1.2, h2.3.trans h1.3, h2.4.trans h1.4, h2.5.trans h1.5,
    h2.6.trans h1.6, h2.7.trans h1.7, h2.8.trans h1.8⟩

theorem Inv_create (a b c : Nat) : Inv (create a b c) := by
  constructor <;> simp [create, outstanding_accepts, outstanding_stops]

theorem Inv_continue_work (st : session_manager) (h : Inv st) : Inv (continue_work st) := by
  unfold continue_work
  split
  · rename_i hg
    obtain ⟨hi, ha, hl, _⟩ := hg
    have hA : outstanding_accepts st = 0 := h.not_in_progress (by rw [ha]; decide) hi
    have hext : st.extern_state_ ≠ extern_state.stopped := by
      intro he
      have := h.extern_stopped he
      rw [hi] at this
      cases this
    unfold outstanding_accepts at hA
    have hw := h.stops_le
    have hp := h.pending
    have hle := h.active_le
    unfold outstanding_stops at hw
    split <;> constructor <;>
      simp [start_accept_session, outstanding_accepts, outstanding_stops,
        operation.is_accept, operation.is_stop, List.countP_cons, hi, hA, hext] <;>
      omega
  · exact h

theorem start_active_session_stop_spec (d : Bool) (n : Nat) (l : List session_wrapper) :
    (start_active_session_stop d n l).1.length = l.length ∧
    (start_active_session_stop d n l).2.length ≤ n ∧
    List.countP operation.is_accept (start_active_session_stop d n l).2 = 0 ∧
    List.countP operation.is_stop (start_active_session_stop d n l).2
      = (start_active_session_stop d n l).2.length := by
  induction l generalizing n with
  | nil => simp [start_active_session_stop]
  | cons h rest ih =>
    cases n with
    | zero => simp [start_active_session_stop]
    | succ k =>
      unfold start_active_session_stop
      split
      · obtain ⟨h1, h2, h3, h4⟩ := ih k
        refine ⟨by simp [h1], by simp; omega, ?_, ?_⟩
        · simp [List.countP_cons, operation.is_accept, h3]
        · simp [List.countP_cons, operation.is_stop, h4]
      · obtain ⟨h1, h2, h3, h4⟩ := ih (k + 1)
        exact ⟨by simp [h1], h2, h3, h4⟩

theorem Inv_schedule_active_session_stop (st : session_manager) (h : Inv st) :
    Inv (schedule_active_session_stop st) := by
  obtain ⟨h1, h2, h3, h4⟩ := start_active_session_stop_spec
    (decide (st.intern_state_ ≠ intern_state.work))
    (st.max_stopping_sessions_ - outstanding_stops st) st.active_sessions_
  have hA : outstanding_accepts (schedule_active_session_stop st) = outstanding_accepts st := by
    show List.countP _ (_ ++ st.in_flight) = _
    rw [List.countP_append, h3, Nat.zero_add]
    rfl
  have hW : outstanding_stops (schedule_active_session_stop st)
      = (start_active_session_stop (decide (st.intern_state_ ≠ intern_state.work))
          (st.max_stopping_sessions_ - outstanding_stops st)
          st.active_sessions_).2.length + outstanding_stops st := by
    show List.countP _ (_ ++ st.in_flight) = _
    rw [List.countP_append, h4]
    rfl
  have hlen : (schedule_active_session_stop st).active_sessions_.length
      = st.active_sessions_.length := h1
  constructor
  · show st.pending_operations_ + _ = (_ ++ st.in_flight).length
    rw [List.length_append, h.pending]; omega
  · rw [hA]; exact h.accepts_le
  · rw [hA, hlen]; exact h.in_progress
  · rw [hA]; exact h.not_in_progress
  · exact h.not_work
  · rw [hlen]; exact h.active_le
  · intro hs
    obtain ⟨e1, e2, e3⟩ := h.stopped hs
    have hnil : st.active_sessions_ = [] := List.length_eq_zero.mp e2
    refine ⟨?_, by rw [hlen]; exact e2, e3⟩
    show _ ++ st.in_flight = []
    rw [e1, hnil]
    simp [start_active_session_stop]
  · exact h.extern_stopped
  · rw [hW]
    have := h.stops_le
    show _ ≤ st.max_stopping_sessions_
    omega

theorem Inv_continue_stop (st : session_manager) (h : Inv st) : Inv (continue_stop st) := by
  unfold continue_stop
  split
  · rename_i hg
    obtain ⟨hi, ha, hp⟩ := hg
    have hfl : st.in_flight = [] := by
      have := h.pending
      rw [hp] at this
      exact List.length_eq_zero.mp this.symm
    have hacc : st.accept_state_ = accept_state.stopped := h.not_work (by rw [hi]; decide)
    refine Inv.of_same _ _ ?_ (SameCore.trans _ _ _ (SameCore_complete_extern_stop _ _)
      (SameCore_complete_extern_wait _ _))
    constructor <;>
      simp [outstanding_accepts, outstanding_stops, hfl, ha, hp, hacc]
  · exact h

/-- The first step of the stop drive keeps the invariant if the manager is not stopped. -/
theorem Inv_enter_stop (st : session_manager) (h : Inv st)
    (hi : st.intern_state_ ≠ intern_state.stopped) :
    Inv { st with intern_state_ := intern_state.stop, accept_state_ := accept_state.stopped } := by
  have hext : st.extern_state_ ≠ extern_state.stopped := fun he => hi (h.extern_stopped he)
  constructor
  · exact h.pending
  · exact h.accepts_le
  · intro hc; cases hc
  · intro _ hc; cases hc
  · intro _; rfl
  · exact h.active_le
  · intro hc; cases hc
  · intro hc; exact absurd hc hext
  · exact h.stops_le

theorem Inv_start_stop (st : session_manager) (h : Inv st)
    (hi : st.intern_state_ ≠ intern_state.stopped) : Inv (start_stop st) :=
  Inv_continue_stop _ (Inv_schedule_active_session_stop _ (Inv_enter_stop st h hi))

/-- Issuing an operation that is neither an accept nor a session stop keeps the invariant
while the manager works. -/
theorem Inv.push (st st1 : session_manager) (op : operation) (h : Inv st)
    (hi : st.intern_state_ = intern_state.work)
    (hop : operation.is_accept op = false) (hwv : operation.is_stop op = false)
    (h1 : st1.max_session_count_ = st.max_session_count_)
    (h2 : st1.max_stopping_sessions_ = st.max_stopping_sessions_)
    (h3 : st1.extern_state_ = st.extern_state_)
    (h4 : st1.intern_state_ = st.intern_state_)
    (h5 : st1.accept_state_ = st.accept_state_)
    (h6 : st1.pending_operations_ = st.pending_operations_ + 1)
    (h7 : st1.active_sessions_.length = st.active_sessions_.length)
    (h8 : st1.in_flight = op :: st.in_flight) : Inv st1 := by
  have hA : outstanding_accepts st1 = outstanding_accepts st := by
    unfold outstanding_accepts; rw [h8, List.countP_cons, hop]; rfl
  have hW : outstanding_stops st1 = outstanding_stops st := by
    unfold outstanding_stops; rw [h8, List.countP_cons, hwv]; rfl
  constructor
  · rw [h6, h8, h.pending]; rfl
  · rw [hA]; exact h.accepts_le
  · rw [h5, h4, hA, h7, h1]; exact h.in_progress
  · rw [h5, h4, hA]; exact h.not_in_progress
  · rw [h5, h4]; exact h.not_work
  · rw [h7, h1]; exact h.active_le
  · rw [h4, hi]; intro hc; cases hc
  · rw [h3, h4]; exact h.extern_stopped
  · rw [hW, h2]; exact h.stops_le

theorem Inv_start_session_start (st : session_manager) (s : Nat) (h : Inv st)
    (hi : st.intern_state_ = intern_state.work) : Inv (start_session_start st s) :=
  Inv.push st _ (operation.session_start s) h hi rfl rfl rfl rfl rfl rfl rfl rfl rfl rfl

theorem Inv_start_session_wait (st : session_manager) (s : Nat) (h : Inv st)
    (hi : st.intern_state_ = intern_state.work) : Inv (start_session_wait st s) := by
  unfold start_session_wait
  split
  · exact Inv.push st _ (operation.session_wait s) h hi rfl rfl rfl rfl rfl rfl rfl rfl
      (by simp) rfl
  · exact h

/-- The invariant reads the active list through its length only, and survives a shorter
list. -/
theorem Inv.shrink (st st1 : session_manager) (h : Inv st)
    (h1 : st1.max_session_count_ = st.max_session_count_)
    (h2 : st1.max_stopping_sessions_ = st.max_stopping_sessions_)
    (h3 : st1.extern_state_ = st.extern_state_)
    (h4 : st1.intern_state_ = st.intern_state_)
    (h5 : st1.accept_state_ = st.accept_state_)
    (h6 : st1.pending_operations_ = st.pending_operations_)
    (h7 : st1.active_sessions_.length ≤ st.active_sessions_.length)
    (h8 : st1.in_flight = st.in_flight) : Inv st1 := by
  have hA : outstanding_accepts st1 = outstanding_accepts st := by
    unfold outstanding_accepts; rw [h8]
  have hW : outstanding_stops st1 = outstanding_stops st := by
    unfold outstanding_stops; rw [h8]
  constructor
  · rw [h6, h8]; exact h.pending
  · rw [hA]; exact h.accepts_le
  · rw [h5, h4, hA, h1]
    intro hc
    obtain ⟨a, b, c⟩ := h.in_progress hc
    exact ⟨a, b, by omega⟩
  · rw [h5, h4, hA]; exact h.not_in_progress
  · rw [h5, h4]; exact h.not_work
  · rw [h1]; have := h.active_le; omega
  · rw [h4, h8, h3]
    intro hc
    obtain ⟨a, b, c⟩ := h.stopped hc
    exact ⟨a, by omega, c⟩
  · rw [h3, h4]; exact h.extern_stopped
  · rw [hW, h2]; exact h.stops_le

theorem Inv_remove_from_active (st : session_manager) (s : Nat) (h : Inv st) :
    Inv (remove_from_active st s) :=
  Inv.shrink st _ h rfl rfl rfl rfl rfl rfl (List.length_filter_le _ _) rfl

/-- Handling the completion of an operation other than an accept keeps the invariant. -/
theorem Inv_complete (st st1 : session_manager) (op : operation) (h : Inv st)
    (hop : operation.is_accept op = false) (hc : complete st op = some st1) : Inv st1 := by
  unfold complete at hc
  split at hc
  · rename_i hmem
    simp only [Option.some.injEq] at hc
    subst hc
    have hA := countP_erase_of_mem operation.is_accept st.in_flight op hmem
    have hW := countP_erase_of_mem operation.is_stop st.in_flight op hmem
    rw [hop] at hA
    simp only [Bool.false_eq_true, if_false, Nat.add_zero] at hA
    have hpos : 0 < st.in_flight.length := List.length_pos_of_mem hmem
    have hns : st.intern_state_ ≠ intern_state.stopped := by
      intro hs
      rw [(h.stopped hs).1] at hmem
      cases hmem
    constructor
    · show st.pending_operations_ - 1 = (st.in_flight.erase op).length
      rw [List.length_erase_of_mem hmem, h.pending]
    · show List.countP _ (st.in_flight.erase op) ≤ 1
      rw [hA]; exact h.accepts_le
    · show st.accept_state_ = _ → st.intern_state_ = _ ∧
        List.countP _ (st.in_flight.erase op) = 1 ∧ _
      rw [hA]; exact h.in_progress
    · show st.accept_state_ ≠ _ → st.intern_state_ = _ →
        List.countP _ (st.in_flight.erase op) = 0
      rw [hA]; exact h.not_in_progress
    · exact h.not_work
    · exact h.active_le
    · intro hs; exact absurd hs hns
    · exact h.extern_stopped
    · show List.countP _ (st.in_flight.erase op) ≤ st.max_stopping_sessions_
      have := h.stops_le
      unfold outstanding_stops at this
      omega
  · cases hc

/-- The state after the completion of the outstanding accept was taken off the pending
operations, with AcceptState set to `acc` (`ready` only while the manager works). -/
theorem Inv_after_accept (st st1 : session_manager) (s : Nat) (acc : accept_state) (h : Inv st)
    (hc : complete st (operation.accept s) = some st1)
    (hacc : acc ≠ accept_state.in_progress)
    (hready : acc = accept_state.ready → st.intern_state_ = intern_state.work) :
    Inv { st1 with accept_state_ := acc } := by
  unfold complete at hc
  split at hc
  · rename_i hmem
    simp only [Option.some.injEq] at hc
    subst hc
    have hA := countP_erase_of_mem operation.is_accept st.in_flight _ hmem
    have hW := countP_erase_of_mem operation.is_stop st.in_flight _ hmem
    simp only [operation.is_accept, operation.is_stop, if_true, Bool.false_eq_true,
      if_false, Nat.add_zero] at hA hW
    have hle := h.accepts_le
    unfold outstanding_accepts at hle
    have hA0 : List.countP operation.is_accept (st.in_flight.erase (operation.accept s)) = 0 := by
      omega
    have hns : st.intern_state_ ≠ intern_state.stopped := by
      intro hs
      rw [(h.stopped hs).1] at hmem
      cases hmem
    constructor
    · show st.pending_operations_ - 1 = (st.in_flight.erase _).length
      rw [List.length_erase_of_mem hmem, h.pending]
    · show List.countP _ (st.in_flight.erase _) ≤ 1
      rw [hA0]; exact Nat.zero_le 1
    · intro hc; exact absurd hc hacc
    · intro _ _; exact hA0
    · intro hi
      show acc = accept_state.stopped
      cases acc with
      | ready => exact absurd (hready rfl) hi
      | in_progress => exact absurd rfl hacc
      | stopped => rfl
    · exact h.active_le
    · intro hs; exact absurd hs hns
    · exact h.extern_stopped
    · show List.countP _ (st.in_flight.erase _) ≤ st.max_stopping_sessions_
      rw [hW]; exact h.stops_le
  · cases hc

theorem complete_frame (st st1 : session_manager) (op : operation)
    (hc : complete st op = some st1) :
    op ∈ st.in_flight ∧ st1.intern_state_ = st.intern_state_ ∧
      st1.extern_state_ = st.extern_state_ ∧ st1.accept_state_ = st.accept_state_ ∧
      st1.active_sessions_ = st.active_sessions_ ∧
      st1.max_session_count_ = st.max_session_count_ ∧
      st1.max_stopping_sessions_ = st.max_stopping_sessions_ := by
  unfold complete at hc
  split at hc
  · rename_i hmem
    simp only [Option.some.injEq] at hc
    subst hc
    exact ⟨hmem, rfl, rfl, rfl, rfl, rfl, rfl⟩
  · cases hc

theorem Inv_add_to_active (st : session_manager) (s : Nat) (h : Inv st)
    (hacc : st.accept_state_ ≠ accept_state.in_progress)
    (hi : st.intern_state_ = intern_state.work)
    (hlen : st.active_sessions_.length < st.max_session_count_) :
    Inv (add_to_active st s) := by
  constructor
  · exact h.pending
  · exact h.accepts_le
  · intro hc; exact absurd hc hacc
  · exact h.not_in_progress
  · exact h.not_work
  · show (_ :: st.active_sessions_).length ≤ st.max_session_count_
    rw [List.length_cons]; omega
  · intro hs
    have : st.intern_state_ = intern_state.stopped := hs
    rw [hi] at this; cases this
  · exact h.extern_stopped
  · exact h.stops_le

/-- With an accept outstanding while the manager works, AcceptState is `in_progress` and the
active list is below the cap. -/
theorem Inv.accepting (st : session_manager) (s : Nat) (h : Inv st)
    (hmem : operation.accept s ∈ st.in_flight) (hi : st.intern_state_ = intern_state.work) :
    st.accept_state_ = accept_state.in_progress ∧
      st.active_sessions_.length < st.max_session_count_ := by
  have hpos : 0 < outstanding_accepts st := by
    unfold outstanding_accepts
    rw [List.countP_pos_iff]
    exact ⟨_, hmem, rfl⟩
  have hacc : st.accept_state_ = accept_state.in_progress := by
    by_contra hc
    have := h.not_in_progress hc hi
    omega
  exact ⟨hacc, (h.in_progress hacc).2.2⟩

theorem Inv_handle_accept (st st1 : session_manager) (s : Nat) (r : accept_result)
    (h : Inv st) (hc : complete st (operation.accept s) = some st1) :
    Inv (handle_accept st1 s r) := by
  obtain ⟨hmem, hi1, he1, _, hact1, hmax1, _⟩ := complete_frame st st1 _ hc
  have hstop : Inv (handle_accept_at_stop st1 s) := by
    unfold handle_accept_at_stop
    refine Inv_continue_stop _ (Inv.of_same _ _ ?_ (SameCore_recycle _ s))
    exact Inv_after_accept st st1 s accept_state.stopped h hc (by decide)
      (fun hc => by cases hc)
  unfold handle_accept
  split
  · rename_i hi
    have hiw : st.intern_state_ = intern_state.work := hi1 ▸ hi
    obtain ⟨hacc, hlen⟩ := Inv.accepting st s h hmem hiw
    have hready := Inv_after_accept st st1 s accept_state.ready h hc (by decide)
      (fun _ => hiw)
    unfold handle_accept_at_work
    cases r with
    | success =>
      refine Inv_continue_work _ (Inv_start_session_start _ s ?_ hi)
      refine Inv_add_to_active _ s hready
        (by decide : accept_state.ready ≠ accept_state.in_progress) hi ?_
      show st1.active_sessions_.length < st1.max_session_count_
      rw [hact1, hmax1]; exact hlen
    | operation_cancelled => exact hstop
    | resource_shortage e =>
      exact Inv_continue_work _ (Inv.of_same _ _ hready (SameCore_recycle _ s))
    | other e =>
      unfold start_stop
      refine Inv_continue_stop _ (Inv_schedule_active_session_stop _ ?_)
      have hext : st1.extern_state_ ≠ extern_state.stopped := by
        rw [he1]
        intro he
        have := h.extern_stopped he
        rw [hiw] at this; cases this
      have hbase := Inv_after_accept st st1 s accept_state.stopped h hc (by decide)
        (fun hc => by cases hc)
      have hcore : Inv
          { ({ st1 with
                accept_error_ := some e
                extern_state_ :=
                  if st1.extern_state_ = extern_state.work then extern_state.stop
                  else st1.extern_state_ } : session_manager) with
            intern_state_ := intern_state.stop
            accept_state_ := accept_state.stopped } := by
        constructor
        · exact hbase.pending
        · exact hbase.accepts_le
        · intro hc; cases hc
        · intro _ hc; cases hc
        · intro _; rfl
        · exact hbase.active_le
        · intro hc; cases hc
        · intro hc
          have hc : (if st1.extern_state_ = extern_state.work then extern_state.stop
              else st1.extern_state_) = extern_state.stopped := hc
          split at hc
          · cases hc
          · exact absurd hc hext
        · exact hbase.stops_le
      exact Inv.of_same _ _ hcore (SameCore_recycle_enter_stop _ s)
  · exact hstop

theorem Inv_handle_session_start (st : session_manager) (s : Nat) (error : Option Nat)
    (h : Inv st) : Inv (handle_session_start st s error) := by
  have key : ∀ st1 : session_manager, SameCore st st1 →
      Inv (if st.intern_state_ = intern_state.work then
          if error = none then start_session_wait st1 s
          else schedule_active_session_stop st1
        else continue_stop (schedule_active_session_stop st1)) := by
    intro st1 hs
    have h1 := Inv.of_same st st1 h hs
    split
    · rename_i hi
      have hi1 : st1.intern_state_ = intern_state.work := hs.intern_state.trans hi
      split
      · exact Inv_start_session_wait _ s h1 hi1
      · exact Inv_schedule_active_session_stop _ h1
    · exact Inv_continue_stop _ (Inv_schedule_active_session_stop _ h1)
  exact key _ ⟨rfl, rfl, rfl, rfl, rfl, rfl, by simp, rfl⟩

theorem Inv_handle_session_wait (st : session_manager) (s : Nat) (h : Inv st) :
    Inv (handle_session_wait st s) := by
  have key : ∀ st1 : session_manager, SameCore st st1 →
      Inv (if st.intern_state_ = intern_state.work then schedule_active_session_stop st1
        else continue_stop (schedule_active_session_stop st1)) := by
    intro st1 hs
    have h1 := Inv.of_same st st1 h hs
    split
    · exact Inv_schedule_active_session_stop _ h1
    · exact Inv_continue_stop _ (Inv_schedule_active_session_stop _ h1)
  exact key _ ⟨rfl, rfl, rfl, rfl, rfl, rfl, by simp, rfl⟩

theorem Inv_handle_session_stop (st : session_manager) (s : Nat) (error : Option Nat)
    (h : Inv st) : Inv (handle_session_stop st s error) := by
  unfold handle_session_stop
  have h1 := Inv_remove_from_active st s h
  have h2 : Inv (if error = none then recycle (remove_from_active st s) s
      else remove_from_active st s) := by
    split
    · exact Inv.of_same _ _ h1 (SameCore_recycle _ s)
    · exact h1
  have h3 := Inv_schedule_active_session_stop _ h2
  simp only []
  split
  · exact Inv_continue_work _ h3
  · refine Inv_continue_stop _ ?_
    split
    · exact Inv.of_same _ _ h3 (SameCore_complete_extern_wait _ _)
    · exact h3

theorem Inv_start_extern_start (st : session_manager) (handler : Nat)
    (open_error : Option Nat) (h : Inv st) :
    Inv (start_extern_start open_error st handler) := by
  unfold start_extern_start do_start_extern_start
  split
  · rename_i he
    cases open_error with
    | some e => exact Inv.of_same st _ h ⟨rfl, rfl, rfl, rfl, rfl, rfl, rfl, rfl⟩
    | none =>
      have hns : st.intern_state_ ≠ intern_state.stopped := by
        intro hs
        have := (h.stopped hs).2.2
        rw [he] at this; cases this
      have h1 : Inv { st with extern_state_ := extern_state.work } := by
        constructor
        · exact h.pending
        · exact h.accepts_le
        · exact h.in_progress
        · exact h.not_in_progress
        · exact h.not_work
        · exact h.active_le
        · intro hs; exact absurd hs hns
        · intro hc; cases hc
        · exact h.stops_le
      exact Inv.of_same _ _ (Inv_continue_work _ h1) ⟨rfl, rfl, rfl, rfl, rfl, rfl, rfl, rfl⟩
  · exact Inv.of_same st _ h ⟨rfl, rfl, rfl, rfl, rfl, rfl, rfl, rfl⟩

theorem Inv_do_start_extern_stop (st : session_manager) (h : Inv st) :
    Inv (do_start_extern_stop st).2 := by
  unfold do_start_extern_stop
  split
  · exact h
  · rename_i hc
    have hext : st.extern_state_ ≠ extern_state.stopped := fun he => hc (Or.inl he)
    have hns : st.intern_state_ ≠ intern_state.stopped := by
      intro hs
      exact hext (h.stopped hs).2.2
    have h1 : Inv { st with extern_state_ := extern_state.stop } := by
      constructor
      · exact h.pending
      · exact h.accepts_le
      · exact h.in_progress
      · exact h.not_in_progress
      · exact h.not_work
      · exact h.active_le
      · intro hs; exact absurd hs hns
      · intro hc; cases hc
      · exact h.stops_le
    have h2 : Inv (if st.intern_state_ = intern_state.work then
        start_stop { st with extern_state_ := extern_state.stop }
        else { st with extern_state_ := extern_state.stop }) := by
      split
      · exact Inv_start_stop _ h1 hns
      · exact h1
    have key : ∀ x : session_manager, Inv x →
        Inv (if x.intern_state_ = intern_state.stopped then (some (terminal_error x), x)
          else (none, x)).2 := by
      intro x hx
      split <;> exact hx
    exact key _ h2

theorem Inv_start_extern_stop (st : session_manager) (handler : Nat) (h : Inv st) :
    Inv (start_extern_stop st handler) := by
  have h1 := Inv_do_start_extern_stop st h
  unfold start_extern_stop
  split
  · rename_i r st1 heq
    rw [heq] at h1
    exact Inv.of_same _ _ h1 ⟨rfl, rfl, rfl, rfl, rfl, rfl, rfl, rfl⟩
  · rename_i st1 heq
    rw [heq] at h1
    exact Inv.of_same _ _ h1 ⟨rfl, rfl, rfl, rfl, rfl, rfl, rfl, rfl⟩

theorem do_start_extern_wait_state (st : session_manager) : (do_start_extern_wait st).2 = st := by
  unfold do_start_extern_wait
  split
  · rfl
  · split
    · rfl
    · split <;> rfl

theorem Inv_start_extern_wait (st : session_manager) (handler : Nat) (h : Inv st) :
    Inv (start_extern_wait st handler) := by
  have h1 := do_start_extern_wait_state st
  unfold start_extern_wait
  split
  · rename_i r st1 heq
    rw [heq] at h1
    subst h1
    exact Inv.of_same _ _ h ⟨rfl, rfl, rfl, rfl, rfl, rfl, rfl, rfl⟩
  · rename_i st1 heq
    rw [heq] at h1
    subst h1
    exact Inv.of_same _ _ h ⟨rfl, rfl, rfl, rfl, rfl, rfl, rfl, rfl⟩

theorem Inv_reset (st : session_manager) (b : Bool) (h : Inv st)
    (he : st.extern_state_ = extern_state.stopped) : Inv (reset st b) := by
  have hfl : st.in_flight = [] := (h.stopped (h.extern_stopped he)).1
  have hA : outstanding_accepts (reset st b) = 0 := by
    show List.countP _ st.in_flight = 0
    rw [hfl]; rfl
  have hW : outstanding_stops (reset st b) = 0 := by
    show List.countP _ st.in_flight = 0
    rw [hfl]; rfl
  constructor
  · show 0 = st.in_flight.length
    rw [hfl]; rfl
  · rw [hA]; exact Nat.zero_le 1
  · intro hc; cases hc
  · intro _ _; exact hA
  · intro hc; exact absurd rfl hc
  · exact Nat.zero_le _
  · intro hc; cases hc
  · intro hc; cases hc
  · rw [hW]; exact Nat.zero_le _

/-- Every entry of the lane keeps the invariant. -/
theorem Inv_step (st st1 : session_manager) (e : event) (h : Inv st)
    (hs : step st e = some st1) : Inv st1 := by
  cases e with
  | async_start handler open_error =>
    simp only [step, Option.some.injEq] at hs
    subst hs
    exact Inv_start_extern_start st handler open_error h
  | async_stop handler =>
    simp only [step, Option.some.injEq] at hs
    subst hs
    exact Inv_start_extern_stop st handler h
  | async_wait handler =>
    simp only [step, Option.some.injEq] at hs
    subst hs
    exact Inv_start_extern_wait st handler h
  | accept_completed s r =>
    simp only [step] at hs
    cases hc : complete st (operation.accept s) with
    | none => rw [hc] at hs; cases hs
    | some st2 =>
      rw [hc] at hs
      simp only [Option.some.injEq] at hs
      subst hs
      exact Inv_handle_accept st st2 s r h hc
  | session_start_completed s error =>
    simp only [step] at hs
    cases hc : complete st (operation.session_start s) with
    | none => rw [hc] at hs; cases hs
    | some st2 =>
      rw [hc] at hs
      simp only [Option.some.injEq] at hs
      subst hs
      exact Inv_handle_session_start st2 s error
        (Inv_complete st st2 (operation.session_start s) h rfl hc)
  | session_wait_completed s =>
    simp only [step] at hs
    cases hc : complete st (operation.session_wait s) with
    | none => rw [hc] at hs; cases hs
    | some st2 =>
      rw [hc] at hs
      simp only [Option.some.injEq] at hs
      subst hs
      exact Inv_handle_session_wait st2 s
        (Inv_complete st st2 (operation.session_wait s) h rfl hc)
  | session_stop_completed s error =>
    simp only [step] at hs
    cases hc : complete st (operation.session_stop s) with
    | none => rw [hc] at hs; cases hs
    | some st2 =>
      rw [hc] at hs
      simp only [Option.some.injEq] at hs
      subst hs
      exact Inv_handle_session_stop st2 s error
        (Inv_complete st st2 (operation.session_stop s) h rfl hc)
  | reset b =>
    simp only [step] at hs
    split at hs
    · rename_i he
      simp only [Option.some.injEq] at hs
      subst hs
      exact Inv_reset st b h he
    · cases hs

theorem Reachable_Inv (a b c : Nat) (st : session_manager) (h : Reachable a b c st) :
    Inv st := by
  induction h with
  | init => exact Inv_create a b c
  | step st st1 e _ hs ih => exact Inv_step st st1 e ih hs

/-- A run of lane entries from a reachable state ends in a reachable state. -/
theorem Reachable_run (a b c : Nat) (st st1 : session_manager) (es : List event)
    (h : Reachable a b c st) (hr : run st es = some st1) : Reachable a b c st1 := by
  induction es generalizing st with
  | nil =>
    simp only [run, Option.some.injEq] at hr
    subst hr
    exact h
  | cons e rest ih =>
    simp only [run] at hr
    cases hs : step st e with
    | none => rw [hs] at hr; cases hr
    | some st2 =>
      rw [hs] at hr
      exact ih st2 (Reachable.step st st2 e h hs) hr

/-! ## Session manager: the configured bounds do not change -/

@[simp] theorem config_recycle (st : session_manager) (s : Nat) :
    config (recycle st s) = config st := by
  unfold recycle; split <;> rfl

@[simp] theorem config_continue_work (st : session_manager) :
    config (continue_work st) = config st := by
  unfold continue_work
  split
  · split <;> rfl
  · rfl

@[simp] theorem config_complete_extern_stop (st : session_manager) (e : error_code) :
    config (complete_extern_stop st e) = config st := by
  unfold complete_extern_stop; split <;> rfl

@[simp] theorem config_complete_extern_wait (st : session_manager) (e : error_code) :
    config (complete_extern_wait st e) = config st := by
  unfold complete_extern_wait; split <;> rfl

@[simp] theorem config_continue_stop (st : session_manager) :
    config (continue_stop st) = config st := by
  unfold continue_stop
  split
  · simp only [config_complete_extern_wait, config_complete_extern_stop]; rfl
  · rfl

@[simp] theorem config_schedule_active_session_stop (st : session_manager) :
    config (schedule_active_session_stop st) = config st := rfl

@[simp] theorem config_start_stop (st : session_manager) :
    config (start_stop st) = config st := by
  unfold start_stop
  simp only [config_continue_stop, config_schedule_active_session_stop]; rfl

@[simp] theorem config_start_session_start (st : session_manager) (s : Nat) :
    config (start_session_start st s) = config st := rfl

@[simp] theorem config_add_to_active (st : session_manager) (s : Nat) :
    config (add_to_active st s) = config st := rfl

@[simp] theorem config_remove_from_active (st : session_manager) (s : Nat) :
    config (remove_from_active st s) = config st := rfl

@[simp] theorem config_start_session_wait (st : session_manager) (s : Nat) :
    config (start_session_wait st s) = config st := by
  unfold start_session_wait; split <;> rfl

@[simp] theorem config_handle_accept_at_stop (st : session_manager) (s : Nat) :
    config (handle_accept_at_stop st s) = config st := by
  unfold handle_accept_at_stop
  simp only [config_continue_stop, config_recycle]; rfl

@[simp] theorem config_handle_accept (st : session_manager) (s : Nat) (r : accept_result) :
    config (handle_accept st s r) = config st := by
  unfold handle_accept handle_accept_at_work
  split
  · cases r <;>
      simp only [config_continue_work, config_start_session_start, config_add_to_active,
        config_handle_accept_at_stop, config_recycle, config_start_stop] <;> rfl
  · exact config_handle_accept_at_stop st s

@[simp] theorem config_handle_session_start (st : session_manager) (s : Nat)
    (error : Option Nat) : config (handle_session_start st s error) = config st := by
  unfold handle_session_start
  simp only []
  split
  · split <;> simp only [config_start_session_wait, config_schedule_active_session_stop] <;>
      rfl
  · simp only [config_continue_stop, config_schedule_active_session_stop]; rfl

@[simp] theorem config_handle_session_wait (st : session_manager) (s : Nat) :
    config (handle_session_wait st s) = config st := by
  unfold handle_session_wait
  simp only []
  split
  · simp only [config_schedule_active_session_stop]; rfl
  · simp only [config_continue_stop, config_schedule_active_session_stop]; rfl

@[simp] theorem config_handle_session_stop (st : session_manager) (s : Nat)
    (error : Option Nat) : config (handle_session_stop st s error) = config st := by
  have h2 : config (if error = none then recycle (remove_from_active st s) s
      else remove_from_active st s) = config st := by
    split
    · simp only [config_recycle, config_remove_from_active]
    · rfl
  unfold handle_session_stop
  simp only []
  split
  · simp only [config_continue_work, config_schedule_active_session_stop, h2]
  · simp only [config_continue_stop]
    split <;>
      simp only [config_complete_extern_wait, config_schedule_active_session_stop, h2]

@[simp] theorem config_start_extern_start (st : session_manager) (handler : Nat)
    (open_error : Option Nat) : config (start_extern_start open_error st handler) = config st := by
  unfold start_extern_start do_start_extern_start
  split
  · cases open_error with
    | some e => rfl
    | none =>
      show config (continue_work _) = _
      simp only [config_continue_work]; rfl
  · rfl

theorem config_do_start_extern_stop (st : session_manager) :
    config (do_start_extern_stop st).2 = config st := by
  unfold do_start_extern_stop
  split
  · rfl
  · have h2 : config (if st.intern_state_ = intern_state.work then
        start_stop { st with extern_state_ := extern_state.stop }
        else { st with extern_state_ := extern_state.stop }) = config st := by
      split
      · simp only [config_start_stop]; rfl
      · rfl
    have key : ∀ x : session_manager,
        config (if x.intern_state_ = intern_state.stopped then (some (terminal_error x), x)
          else (none, x)).2 = config x := by
      intro x
      split <;> rfl
    exact (key _).trans h2

@[simp] theorem config_start_extern_stop (st : session_manager) (handler : Nat) :
    config (start_extern_stop st handler) = config st := by
  have h1 := config_do_start_extern_stop st
  unfold start_extern_stop
  split
  · rename_i r st1 heq
    rw [heq] at h1
    exact h1
  · rename_i st1 heq
    rw [heq] at h1
    exact h1

@[simp] theorem config_start_extern_wait (st : session_manager) (handler : Nat) :
    config (start_extern_wait st handler) = config st := by
  have h1 := do_start_extern_wait_state st
  unfold start_extern_wait
  split
  · rename_i r st1 heq
    rw [heq] at h1
    subst h1
    rfl
  · rename_i st1 heq
    rw [heq] at h1
    subst h1
    rfl

theorem config_complete (st st1 : session_manager) (op : operation)
    (hc : complete st op = some st1) : config st1 = config st := by
  unfold complete at hc
  split at hc
  · simp only [Option.some.injEq] at hc
    subst hc
    rfl
  · cases hc

theorem config_step (st st1 : session_manager) (e : event) (hs : step st e = some st1) :
    config st1 = config st := by
  cases e with
  | async_start handler open_error =>
    simp only [step, Option.some.injEq] at hs
    subst hs
    exact config_start_extern_start st handler open_error
  | async_stop handler =>
    simp only [step, Option.some.injEq] at hs
    subst hs
    exact config_start_extern_stop st handler
  | async_wait handler =>
    simp only [step, Option.some.injEq] at hs
    subst hs
    exact config_start_extern_wait st handler
  | accept_completed s r =>
    simp only [step] at hs
    cases hc : complete st (operation.accept s) with
    | none => rw [hc] at hs; cases hs
    | some st2 =>
      rw [hc] at hs
      simp only [Option.some.injEq] at hs
      subst hs
      rw [config_handle_accept, config_complete st st2 _ hc]
  | session_start_completed s error =>
    simp only [step] at hs
    cases hc : complete st (operation.session_start s) with
    | none => rw [hc] at hs; cases hs
    | some st2 =>
      rw [hc] at hs
      simp only [Option.some.injEq] at hs
      subst hs
      rw [config_handle_session_start, config_complete st st2 _ hc]
  | session_wait_completed s =>
    simp only [step] at hs
    cases hc : complete st (operation.session_wait s) with
    | none => rw [hc] at hs; cases hs
    | some st2 =>
      rw [hc] at hs
      simp only [Option.some.injEq] at hs
      subst hs
      rw [config_handle_session_wait, config_complete st st2 _ hc]
  | session_stop_completed s error =>
    simp only [step] at hs
    cases hc : complete st (operation.session_stop s) with
    | none => rw [hc] at hs; cases hs
    | some st2 =>
      rw [hc] at hs
      simp only [Option.some.injEq] at hs
      subst hs
      rw [config_handle_session_stop, config_complete st st2 _ hc]
  | reset b =>
    simp only [step] at hs
    split at hs
    · simp only [Option.some.injEq] at hs
      subst hs
      rfl
    · cases hs

theorem Reachable_config (a b c : Nat) (st : session_manager) (h : Reachable a b c st) :
    config st = (a, b, c) := by
  induction h with
  | init => rfl
  | step st st1 e _ hs ih => rw [config_step st st1 e hs, ih]

end session_manager

/-! ## Session manager: requests and bounds -/

namespace session_manager

theorem continue_work_posted (st : session_manager) :
    (continue_work st).posted = st.posted ∧
      (continue_work st).extern_state_ = st.extern_state_ := by
  unfold continue_work
  split
  · split <;> exact ⟨rfl, rfl⟩
  · exact ⟨rfl, rfl⟩

/-- An accept is issued by the accept loop only from AcceptState `ready`, and issuing it sets
AcceptState to `in_progress`. -/
theorem continue_work_accept (st : session_manager)
    (h : outstanding_accepts (continue_work st) ≠ outstanding_accepts st) :
    st.accept_state_ = accept_state.ready ∧
      (continue_work st).accept_state_ = accept_state.in_progress ∧
      outstanding_accepts (continue_work st) = outstanding_accepts st + 1 := by
  unfold continue_work at h ⊢
  split
  · rename_i hg
    refine ⟨hg.2.1, ?_⟩
    split <;> exact ⟨rfl, by
      simp [start_accept_session, outstanding_accepts, List.countP_cons, operation.is_accept]⟩
  · rename_i hg
    rw [if_neg hg] at h
    exact absurd rfl h

end session_manager

/-- C12: `start_extern_start`, the lane entry of `async_start`: with ExternState `ready` and
the acceptor opened the handler is posted with `ok` and ExternState becomes `work`; with
ExternState not `ready` the handler is posted with `invalid_state` and nothing else changes;
with ExternState `ready` and a failed open the handler is posted with the error of the
acceptor. -/
theorem session_manager_async_start (st : session_manager) (handler : Nat)
    (open_error : Option Nat) :
    (st.extern_state_ = session_manager.extern_state.ready → open_error = none →
      (session_manager.start_extern_start open_error st handler).posted
        = st.posted ++ [(handler, session_manager.error_code.ok)] ∧
      (session_manager.start_extern_start open_error st handler).extern_state_
        = session_manager.extern_state.work) ∧
    (st.extern_state_ ≠ session_manager.extern_state.ready →
      session_manager.start_extern_start open_error st handler
        = { st with posted := st.posted ++ [(handler, session_manager.error_code.invalid_state)] }) ∧
    (st.extern_state_ = session_manager.extern_state.ready → ∀ e, open_error = some e →
      session_manager.start_extern_start open_error st handler
        = { st with posted :=
              st.posted ++ [(handler, session_manager.error_code.acceptor_open_failed e)] }) := by
  refine ⟨?_, ?_, ?_⟩
  · intro he ho
    subst ho
    unfold session_manager.start_extern_start session_manager.do_start_extern_start
    rw [if_pos he]
    have h1 := session_manager.continue_work_posted
      { st with extern_state_ := session_manager.extern_state.work }
    exact ⟨by show (session_manager.continue_work _).posted ++ _ = _; rw [h1.1],
      by show (session_manager.continue_work _).extern_state_ = _; rw [h1.2]⟩
  · intro he
    unfold session_manager.start_extern_start session_manager.do_start_extern_start
    rw [if_neg he]
  · intro he e ho
    subst ho
    unfold session_manager.start_extern_start session_manager.do_start_extern_start
    rw [if_pos he]

/-- Witness of C12: `async_start` on a fresh manager. -/
theorem session_manager_async_start_witness :
    (session_manager.start_extern_start none (session_manager.create 4 2 3) 7).posted
      = [(7, session_manager.error_code.ok)] ∧
    (session_manager.start_extern_start none (session_manager.create 4 2 3) 7).extern_state_
      = session_manager.extern_state.work :=
  (session_manager_async_start (session_manager.create 4 2 3) 7 none).1 rfl rfl

/-- C13: with an `async_wait` handler stored, `start_extern_wait` posts the new handler with
`invalid_state`; the stored handler stays in `extern_wait_handler_` and is not posted, and
nothing else changes. -/
theorem session_manager_async_wait_single (st : session_manager) (prior handler : Nat)
    (h : st.extern_wait_handler_ = some prior) :
    session_manager.start_extern_wait st handler
      = { st with posted := st.posted ++ [(handler, session_manager.error_code.invalid_state)] } ∧
    (session_manager.start_extern_wait st handler).extern_wait_handler_ = some prior ∧
    (session_manager.start_extern_wait st handler).posted
      = st.posted ++ [(handler, session_manager.error_code.invalid_state)] := by
  have h1 : session_manager.start_extern_wait st handler
      = { st with posted :=
            st.posted ++ [(handler, session_manager.error_code.invalid_state)] } := by
    unfold session_manager.start_extern_wait session_manager.do_start_extern_wait
    rw [if_pos (by rw [h]; simp)]
  rw [h1]
  exact ⟨rfl, h, rfl⟩

/-- Witness of C13: a second `async_wait` on a started manager that holds the handler 5. -/
theorem session_manager_async_wait_single_witness :
    (session_manager.start_extern_wait
      (session_manager.start_extern_wait
        (session_manager.start_extern_start none (session_manager.create 4 2 3) 0) 5)
      6).extern_wait_handler_ = some 5 :=
  (session_manager_async_wait_single
    (session_manager.start_extern_wait
      (session_manager.start_extern_start none (session_manager.create 4 2 3) 0) 5)
    5 6 rfl).2.1

/-- C14: in every reachable state of the manager the active list holds at most
`max_session_count_` handles, the configured cap. -/
theorem session_manager_active_cap (max_session_count recycled_session_count
    max_stopping_sessions : Nat) (st : session_manager)
    (h : session_manager.Reachable max_session_count recycled_session_count
      max_stopping_sessions st) :
    st.active_sessions_.length ≤ st.max_session_count_ ∧
    st.max_session_count_ = max_session_count := by
  have hc := session_manager.Reachable_config _ _ _ st h
  exact ⟨(session_manager.Reachable_Inv _ _ _ st h).active_le, congrArg Prod.fst hc⟩

/-- Witness of C14: the state after two sessions were accepted under the cap 2. -/
theorem session_manager_active_cap_witness :
    ∃ st, session_manager.drainAfterTwoWaits = some st ∧
      st.active_sessions_.length ≤ st.max_session_count_ :=
  ⟨_, rfl, (session_manager_active_cap 2 0 1 _
    (session_manager.Reachable_run 2 0 1 _ _ session_manager.twoWaitsThenStop
      session_manager.Reachable.init rfl)).1⟩

/-- C15 fails as stated: after `async_start` and `async_stop` on a fresh manager the accept
issued by the start is still outstanding, yet AcceptState is `stopped`, not `in_progress`:
the stop drive sets AcceptState before the completion of the accept is handled. -/
theorem session_manager_single_accept_counterexample :
    ∃ st, session_manager.stopRequestedWhileAccepting = some st ∧
      session_manager.Reachable 1 0 1 st ∧
      session_manager.outstanding_accepts st = 1 ∧
      st.accept_state_ = session_manager.accept_state.stopped ∧
      st.accept_state_ ≠ session_manager.accept_state.in_progress :=
  ⟨_, rfl, session_manager.Reachable_run 1 0 1 _ _ session_manager.startThenStop
      session_manager.Reachable.init rfl,
    by decide, by decide, by decide⟩

/-- C15, amended: in every reachable state at most one accept is outstanding; while
AcceptState is `in_progress` exactly one is, while it is `ready` none is (AcceptState is not
`ready` again before the completion is handled); and the accept loop starts an accept only
from AcceptState `ready`, which sets AcceptState to `in_progress`. -/
theorem session_manager_single_accept (max_session_count recycled_session_count
    max_stopping_sessions : Nat) (st : session_manager)
    (h : session_manager.Reachable max_session_count recycled_session_count
      max_stopping_sessions st) :
    session_manager.outstanding_accepts st ≤ 1 ∧
    (st.accept_state_ = session_manager.accept_state.in_progress →
      session_manager.outstanding_accepts st = 1) ∧
    (st.accept_state_ = session_manager.accept_state.ready →
      session_manager.outstanding_accepts st = 0) ∧
    (∀ x : session_manager,
      session_manager.outstanding_accepts (session_manager.continue_work x)
        ≠ session_manager.outstanding_accepts x →
      x.accept_state_ = session_manager.accept_state.ready ∧
      (session_manager.continue_work x).accept_state_
        = session_manager.accept_state.in_progress ∧
      session_manager.outstanding_accepts (session_manager.continue_work x)
        = session_manager.outstanding_accepts x + 1) := by
  have hi := session_manager.Reachable_Inv _ _ _ st h
  refine ⟨hi.accepts_le, fun hc => (hi.in_progress hc).2.1, ?_,
    session_manager.continue_work_accept⟩
  intro hr
  apply hi.not_in_progress (by rw [hr]; decide)
  by_contra hw
  have := hi.not_work hw
  rw [hr] at this
  cases this

/-- Witness of C15 (amended): one accept is outstanding after `async_start` and
`async_stop`. -/
theorem session_manager_single_accept_witness :
    ∃ st, session_manager.stopRequestedWhileAccepting = some st ∧
      session_manager.outstanding_accepts st ≤ 1 :=
  ⟨_, rfl, (session_manager_single_accept 1 0 1 _
    (session_manager.Reachable_run 1 0 1 _ _ session_manager.startThenStop
      session_manager.Reachable.init rfl)).1⟩

/-- The stopping chain at work on a manager with `max_stopping_sessions_ = 1`: of two
sessions whose waits fired one is told to stop and the other waits; when the first stop
completes the second is issued, and when that completes the drain is over and the `async_stop`
handler is posted with `ok`. -/
theorem session_manager_drain_sample :
    (∃ st, session_manager.run (session_manager.create 2 0 1)
        (session_manager.twoWaitsThenStop ++
          [session_manager.event.session_stop_completed 0 none]) = some st ∧
      st.in_flight = [session_manager.operation.session_stop 1]) ∧
    (∃ st, session_manager.run (session_manager.create 2 0 1)
        session_manager.twoWaitsThenStopDrained = some st ∧
      st.intern_state_ = session_manager.intern_state.stopped ∧
      st.extern_state_ = session_manager.extern_state.stopped ∧
      st.active_sessions_ = [] ∧ st.in_flight = [] ∧
      st.posted = [(0, session_manager.error_code.ok), (1, session_manager.error_code.ok)]) :=
  ⟨⟨_, rfl, by decide⟩, ⟨_, rfl, by decide, by decide, by decide, by decide, by decide⟩⟩

/-- In a segment left to null only the last value has a null `next_`. -/
theorem Seg_next_none_last (m : Hooks) (p : Option Nat) (s : List Nat) (h : Seg m p s none)
    (x : Nat) (hx : x ∈ s) (hn : (m x).next_ = none) : s.getLast? = some x := by
  induction s generalizing p with
  | nil => cases hx
  | cons a t ih =>
    cases t with
    | nil =>
      rw [List.mem_singleton] at hx
      subst hx
      rfl
    | cons b u =>
      rw [List.getLast?_cons_cons]
      rcases List.mem_cons.mp hx with hxa | hx
      · subst hxa
        have h1 : (m x).next_ = some b := h.2.1
        rw [hn] at h1
        cases h1
      · exact ih (some a) h.2.2 hx

/-- A member of a well-formed list has an unlinked hook exactly when it is the only value. -/
theorem WF_unlinked_iff_sole (m : Hooks) (l : intrusive_list) (s : List Nat) (v : Nat)
    (hwf : WF m l s) (hv : v ∈ s) : unlinked (m v) ↔ s = [v] := by
  constructor
  · rintro ⟨hp, hn⟩
    have h1 := Seg_prev_none_head m none s hwf.2.2 v hv hp
    have h2 := Seg_next_none_last m none s hwf.2.2 v hv hn
    have hnd := WF_nodup m l s hwf
    cases s with
    | nil => cases hv
    | cons a t =>
      simp only [List.head?_cons, Option.some.injEq] at h1
      subst h1
      cases t with
      | nil => rfl
      | cons b u =>
        rw [List.getLast?_cons_cons] at h2
        exact absurd (List.mem_of_getLast?_eq_some h2) (List.nodup_cons.mp hnd).1
  · intro hs
    subst hs
    exact ⟨hwf.2.2.1, hwf.2.2.2.1⟩

/-- C22: a member of a well-formed doubly linked list has an unlinked hook (`prev_` and
`next_` null) if and only if it is the only value of the list; so for the sole value of a
list the assertion "The value to push has to be unlinked" of `push_front` and of `push_back`
holds, and so do the assertions those functions check on exit. -/
theorem intrusive_list_unlinked_iff_sole (m : Hooks) (l : intrusive_list) (s : List Nat)
    (v : Nat) (hwf : WF m l s) (hv : v ∈ s) :
    (unlinked (m v) ↔ s = [v]) ∧
    (s = [v] → intrusive_list.push_front_asserts m l v ∧
      intrusive_list.push_back_asserts m l v) := by
  refine ⟨WF_unlinked_iff_sole m l s v hwf hv, ?_⟩
  intro hs
  subst hs
  obtain ⟨hf, hb, hp, hn, _⟩ := hwf
  have hf1 : l.front_ = some v := hf
  have hb1 : l.back_ = some v := hb
  have hn1 : (m v).next_ = none := hn
  constructor
  · unfold intrusive_list.push_front_asserts intrusive_list.push_front
    simp [hf1, hb1, hp, hn1]
  · unfold intrusive_list.push_back_asserts intrusive_list.push_back
    simp [hf1, hb1, hp, hn1]

/-- Witness of C22: the value 1 of the list whose only value is 1. -/
theorem intrusive_list_unlinked_iff_sole_witness :
    WF freshHooks soleList [1] ∧ 1 ∈ [1] ∧ unlinked (freshHooks 1) ∧
    intrusive_list.push_front_asserts freshHooks soleList 1 ∧
    intrusive_list.push_back_asserts freshHooks soleList 1 :=
  ⟨by decide, by decide,
    (intrusive_list_unlinked_iff_sole freshHooks soleList [1] 1 (by decide) (by decide)).1.mpr
      rfl,
    (intrusive_list_unlinked_iff_sole freshHooks soleList [1] 1 (by decide) (by decide)).2
      rfl⟩

/-! ## Doubly linked list: pop and repeated erase -/

/-- Resetting both links of an unlinked hook leaves the store as it is. -/
theorem setPrev_setNext_unlinked (m : Hooks) (v : Nat) (hu : unlinked (m v)) :
    setPrev (setNext m v none) v none = m := by
  obtain ⟨hp, hn⟩ := hu
  funext x
  by_cases hxv : x = v
  · subst hxv
    apply base_hook.ext
    · simp [hp]
    · simp [hn]
  · apply base_hook.ext <;> simp [hxv]

/-- Erasing a value with an unlinked hook that is neither the front nor the back writes
nothing. -/
theorem erase_of_unlinked (m : Hooks) (l : intrusive_list) (v : Nat) (hu : unlinked (m v))
    (hf : l.front_ ≠ some v) (hb : l.back_ ≠ some v) :
    intrusive_list.erase m l v = (m, l) := by
  have h1 := setPrev_setNext_unlinked m v hu
  obtain ⟨hp, hn⟩ := hu
  unfold intrusive_list.erase
  simp only [hf, hb, hp, hn, if_false]
  rw [h1]

/-- A value outside a well-formed list is neither its front nor its back. -/
theorem WF_not_mem_front_back (m : Hooks) (l : intrusive_list) (s : List Nat) (v : Nat)
    (hwf : WF m l s) (hv : v ∉ s) : l.front_ ≠ some v ∧ l.back_ ≠ some v := by
  obtain ⟨hf, hb, _⟩ := hwf
  constructor
  · intro h
    exact hv (List.mem_of_mem_head? (hf.symm.trans h))
  · intro h
    exact hv (List.mem_of_getLast?_eq_some (hb.symm.trans h))

/-- C25: for a well-formed non-empty doubly linked list, `pop_front()` gives the same list
header and the same hook store as `erase(*front())`, and `pop_back()` the same as
`erase(*back())`. -/
theorem intrusive_list_pop_is_erase (m : Hooks) (l : intrusive_list) (s : List Nat)
    (hwf : WF m l s) (hs : s ≠ []) :
    ∃ f b, l.front_ = some f ∧ l.back_ = some b ∧
      intrusive_list.pop_front m l = intrusive_list.erase m l f ∧
      intrusive_list.pop_back m l = intrusive_list.erase m l b := by
  have hfront : ∃ f, l.front_ = some f ∧
      intrusive_list.pop_front m l = intrusive_list.erase m l f := by
    cases s with
    | nil => exact absurd rfl hs
    | cons a t => exact ⟨a, hwf.1, pop_front_eq_erase m l a t hwf⟩
  have hback : ∃ b, l.back_ = some b ∧
      intrusive_list.pop_back m l = intrusive_list.erase m l b := by
    rcases List.eq_nil_or_concat s with h | ⟨init, b, h⟩
    · exact absurd h hs
    · rw [List.concat_eq_append] at h
      subst h
      refine ⟨b, ?_, pop_back_eq_erase m l init b hwf⟩
      rw [hwf.2.1]
      exact List.getLast?_concat _
  obtain ⟨f, hf1, hf2⟩ := hfront
  obtain ⟨b, hb1, hb2⟩ := hback
  exact ⟨f, b, hf1, hb1, hf2, hb2⟩

/-- Witness of C25: the list 1, 2, 3, whose front is 1 and whose back is 3. -/
theorem intrusive_list_pop_is_erase_witness :
    WF demoHooks demoList [1, 2, 3] ∧ [1, 2, 3] ≠ [] ∧
    ∃ f b, demoList.front_ = some f ∧ demoList.back_ = some b ∧
      intrusive_list.pop_front demoHooks demoList = intrusive_list.erase demoHooks demoList f ∧
      intrusive_list.pop_back demoHooks demoList = intrusive_list.erase demoHooks demoList b :=
  ⟨by decide, by decide,
    intrusive_list_pop_is_erase demoHooks demoList [1, 2, 3] (by decide) (by decide)⟩

/-- C26: for a well-formed doubly linked list, `erase(v)` of a member `v` followed by a
second `erase(v)` gives the same list header and hook store as the first `erase(v)` alone;
and `erase(v)` of a value with an unlinked hook that is not a member changes neither the
header nor any hook. -/
theorem intrusive_list_erase_idempotent (m : Hooks) (l : intrusive_list) (s : List Nat)
    (v : Nat) (hwf : WF m l s) :
    (v ∈ s →
      intrusive_list.erase (intrusive_list.erase m l v).1 (intrusive_list.erase m l v).2 v
        = intrusive_list.erase m l v) ∧
    (v ∉ s → unlinked (m v) → intrusive_list.erase m l v = (m, l)) := by
  constructor
  · intro hv
    have h1 := erase_WF m l s v hwf hv
    have h2 : v ∉ s.erase v := List.Nodup.not_mem_erase (WF_nodup m l s hwf)
    obtain ⟨h3, h4⟩ := WF_not_mem_front_back _ _ _ v h1 h2
    exact erase_of_unlinked _ _ v (erase_unlinked m l v) h3 h4
  · intro hv hu
    obtain ⟨h3, h4⟩ := WF_not_mem_front_back m l s v hwf hv
    exact erase_of_unlinked m l v hu h3 h4

/-- Witness of C26: erasing the member 2 of the list 1, 2, 3 twice, and erasing the unlinked
value 7, which is not in the list. -/
theorem intrusive_list_erase_idempotent_witness :
    WF demoHooks demoList [1, 2, 3] ∧ 2 ∈ [1, 2, 3] ∧ 7 ∉ [1, 2, 3] ∧ unlinked (demoHooks 7) ∧
    intrusive_list.erase (intrusive_list.erase demoHooks demoList 2).1
        (intrusive_list.erase demoHooks demoList 2).2 2
      = intrusive_list.erase demoHooks demoList 2 ∧
    intrusive_list.erase demoHooks demoList 7 = (demoHooks, demoList) :=
  ⟨by decide, by decide, by decide, by decide,
    (intrusive_list_erase_idempotent demoHooks demoList [1, 2, 3] 2 (by decide)).1 (by decide),
    (intrusive_list_erase_idempotent demoHooks demoList [1, 2, 3] 7 (by decide)).2 (by decide)
      (by decide)⟩

/-! ## Raw lists: clear -/

/-- In a forward segment left to null, without repeated values, exactly the last value has a
null `next_`. -/
theorem fwd_Seg_next_none_iff_last (m : intrusive_forward_list.Hooks) (s : List Nat)
    (h : intrusive_forward_list.Seg m s none) (hnd : s.Nodup) (x : Nat) (hx : x ∈ s) :
    (m x).next_ = none ↔ s.getLast? = some x := by
  induction s with
  | nil => cases hx
  | cons a t ih =>
    cases t with
    | nil =>
      rw [List.mem_singleton] at hx
      subst hx
      have h1 : (m x).next_ = none := h.1
      exact ⟨fun _ => rfl, fun _ => h1⟩
    | cons b u =>
      rw [List.getLast?_cons_cons]
      rcases List.mem_cons.mp hx with hxa | hx
      · subst hxa
        have h1 : (m x).next_ = some b := h.1
        constructor
        · intro hn
          rw [hn] at h1
          cases h1
        · intro hl
          exact absurd (List.mem_of_getLast?_eq_some hl) (List.nodup_cons.mp hnd).1
      · exact ih h.2 (List.nodup_cons.mp hnd).2 hx

/-- C24 fails as stated for the forward list: the list 1, 2, 3 is well-formed and has three
values, `clear()` writes no hook, and the former last value 3 has a null `next_`, so it
satisfies "The value to push has to be unlinked" of `push_front` and of `push_back`. -/
theorem raw_list_clear_forward_last_counterexample :
    intrusive_forward_list.WF intrusive_forward_list.demoHooks
      intrusive_forward_list.demoList [1, 2, 3] ∧
    3 ∈ [1, 2, 3] ∧
    ((intrusive_forward_list.clear intrusive_forward_list.demoHooks
      intrusive_forward_list.demoList).1 3).next_ = none ∧
    intrusive_forward_list.push_front_assert_unlinked
      (intrusive_forward_list.clear intrusive_forward_list.demoHooks
        intrusive_forward_list.demoList).1 3 ∧
    intrusive_forward_list.push_back_assert_unlinked
      (intrusive_forward_list.clear intrusive_forward_list.demoHooks
        intrusive_forward_list.demoList).1 3 := by
  decide

/-- C24, amended: `clear()` of an `intrusive_list` or of an `intrusive_forward_list` sets
`front_` and `back_` to null (`empty()` is true) and writes no hook.  So every former value
of a cleared well-formed doubly linked list of two or more values keeps a non-null `prev_`
or `next_` and fails "The value to push has to be unlinked"; of a cleared well-formed
forward list every former value but the last keeps its non-null `next_` and fails that
assertion, and the former last value, whose `next_` is null, satisfies it. -/
theorem raw_list_clear_header_only (m : Hooks) (l : intrusive_list)
    (fm : intrusive_forward_list.Hooks) (fl : intrusive_forward_list) :
    ((intrusive_list.clear m l).1 = m ∧
      (intrusive_list.clear m l).2 = { front_ := none, back_ := none } ∧
      intrusive_list.empty (intrusive_list.clear m l).2 = true) ∧
    ((intrusive_forward_list.clear fm fl).1 = fm ∧
      (intrusive_forward_list.clear fm fl).2 = { front_ := none, back_ := none } ∧
      intrusive_forward_list.empty (intrusive_forward_list.clear fm fl).2 = true) ∧
    (∀ s v, WF m l s → 2 ≤ s.length → v ∈ s →
      (((intrusive_list.clear m l).1 v).prev_ ≠ none ∨
        ((intrusive_list.clear m l).1 v).next_ ≠ none) ∧
      ¬ unlinked ((intrusive_list.clear m l).1 v)) ∧
    (∀ s v, intrusive_forward_list.WF fm fl s → v ∈ s →
      (intrusive_forward_list.push_front_assert_unlinked
          (intrusive_forward_list.clear fm fl).1 v ↔ s.getLast? = some v) ∧
      (intrusive_forward_list.push_back_assert_unlinked
          (intrusive_forward_list.clear fm fl).1 v ↔ s.getLast? = some v)) := by
  refine ⟨⟨rfl, rfl, rfl⟩, ⟨rfl, rfl, rfl⟩, ?_, ?_⟩
  · intro s v hwf hlen hv
    have hnot : ¬ unlinked (m v) := by
      intro hu
      have hs := (WF_unlinked_iff_sole m l s v hwf hv).mp hu
      rw [hs] at hlen
      exact absurd hlen (Nat.not_succ_le_self 1)
    refine ⟨?_, hnot⟩
    show (m v).prev_ ≠ none ∨ (m v).next_ ≠ none
    by_cases hp : (m v).prev_ = none
    · by_cases hn : (m v).next_ = none
      · exact absurd ⟨hp, hn⟩ hnot
      · exact Or.inr hn
    · exact Or.inl hp
  · intro s v hwf hv
    have h1 := fwd_Seg_next_none_iff_last fm s hwf.2.2 (intrusive_forward_list.fwd_WF_nodup fm fl s hwf) v hv
    exact ⟨h1, h1⟩

/-- Witness of C24 (amended): the value 2 of the cleared list 1, 2, 3 is still linked, and of
the cleared forward list 1, 2, 3 the value 2 fails the assertion of `push_back`. -/
theorem raw_list_clear_header_only_witness :
    WF demoHooks demoList [1, 2, 3] ∧ 2 ≤ [1, 2, 3].length ∧ 2 ∈ [1, 2, 3] ∧
    ¬ unlinked ((intrusive_list.clear demoHooks demoList).1 2) ∧
    intrusive_forward_list.WF intrusive_forward_list.demoHooks
      intrusive_forward_list.demoList [1, 2, 3] ∧
    ¬ intrusive_forward_list.push_back_assert_unlinked
      (intrusive_forward_list.clear intrusive_forward_list.demoHooks
        intrusive_forward_list.demoList).1 2 :=
  ⟨by decide, by decide, by decide,
    ((raw_list_clear_header_only demoHooks demoList intrusive_forward_list.demoHooks
      intrusive_forward_list.demoList).2.2.1 [1, 2, 3] 2 (by decide) (by decide)
        (by decide)).2,
    by decide,
    fun h => absurd
      ((((raw_list_clear_header_only demoHooks demoList intrusive_forward_list.demoHooks
        intrusive_forward_list.demoList).2.2.2 [1, 2, 3] 2 (by decide) (by decide)).2).mp h)
      (by decide)⟩

/-! ## Hooks: copies -/

/-- C27: copy-constructing a hook of `intrusive_list`, of `intrusive_forward_list` or of
`sp_intrusive_list` from any hook gives an unlinked hook (`prev_` and `next_` null or
empty), and copy-assigning to a hook leaves the `prev_` and `next_` of the target as they
were, whatever the links of the source are. -/
theorem base_hook_copy_carries_no_links (target other : base_hook)
    (ftarget fother : intrusive_forward_list.base_hook) :
    (unlinked (intrusive_list.base_hook.copy_construct other) ∧
      (intrusive_list.base_hook.copy_assign target other).prev_ = target.prev_ ∧
      (intrusive_list.base_hook.copy_assign target other).next_ = target.next_) ∧
    ((intrusive_forward_list.base_hook.copy_construct fother).next_ = none ∧
      (intrusive_forward_list.base_hook.copy_assign ftarget fother).next_ = ftarget.next_) ∧
    (unlinked (sp_intrusive_list.base_hook.copy_construct other) ∧
      (sp_intrusive_list.base_hook.copy_assign target other).prev_ = target.prev_ ∧
      (sp_intrusive_list.base_hook.copy_assign target other).next_ = target.next_) :=
  ⟨⟨⟨rfl, rfl⟩, rfl, rfl⟩, ⟨rfl, rfl⟩, ⟨⟨rfl, rfl⟩, rfl, rfl⟩⟩

/-! ## `sp_intrusive_list`: erase of a value that is not a member -/

/-- Resetting both links of an unlinked hook, `prev_` first, leaves the store as it is. -/
theorem setNext_setPrev_unlinked (m : Hooks) (v : Nat) (hu : unlinked (m v)) :
    setNext (setPrev m v none) v none = m := by
  obtain ⟨hp, hn⟩ := hu
  funext x
  by_cases hxv : x = v
  · subst hxv
    apply base_hook.ext
    · simp [hp]
    · simp [hn]
  · apply base_hook.ext <;> simp [hxv]

/-- The front of a list is a member of it. -/
theorem SpMember_front (m : Hooks) (l : sp_intrusive_list) (v : Nat)
    (h : l.front_ = some v) : SpMember m l v :=
  ⟨1, by rw [h]; exact List.mem_cons_self _ _⟩

/-- Erasing a value with an unlinked hook that is not the front writes no hook and leaves
`front_`; the counter is decremented all the same. -/
theorem sp_erase_of_unlinked (w : Nat) (m : Hooks) (l : sp_intrusive_list) (v : Nat)
    (hu : unlinked (m v)) (hf : l.front_ ≠ some v) :
    sp_intrusive_list.erase w m l v
      = (m, { size_ := (l.size_ + (2 ^ w - 1)) % 2 ^ w, front_ := l.front_ }) := by
  have h1 := setNext_setPrev_unlinked m v hu
  obtain ⟨hp, hn⟩ := hu
  unfold sp_intrusive_list.erase
  simp only [hf, hp, hn, if_false]
  rw [h1]

/-- C23: for a list whose counter is a `std::size_t` of `w` bits and a value with an
unlinked hook that is not a member, `erase(value)` leaves `front()` and every hook as they
were and decrements `size_` by one modulo `2 ^ w`; on the empty list `size()` becomes
`2 ^ w - 1` and `empty()` false, while `front()` is null. -/
theorem sp_intrusive_list_erase_nonmember (w : Nat) (m : Hooks) (l : sp_intrusive_list)
    (v : Nat) (hw : 0 < w) (hsize : l.size_ < 2 ^ w) (hu : unlinked (m v))
    (hnm : ¬ SpMember m l v) :
    sp_intrusive_list.front (sp_intrusive_list.erase w m l v).2 = sp_intrusive_list.front l ∧
    (sp_intrusive_list.erase w m l v).1 = m ∧
    sp_intrusive_list.size (sp_intrusive_list.erase w m l v).2
      = (if sp_intrusive_list.size l = 0 then 2 ^ w - 1 else sp_intrusive_list.size l - 1) ∧
    (sp_intrusive_list.size (sp_intrusive_list.erase w m l v).2 + 1) % 2 ^ w
      = sp_intrusive_list.size l ∧
    (l = spEmpty →
      sp_intrusive_list.size (sp_intrusive_list.erase w m l v).2 = 2 ^ w - 1 ∧
      sp_intrusive_list.empty (sp_intrusive_list.erase w m l v).2 = false ∧
      sp_intrusive_list.front (sp_intrusive_list.erase w m l v).2 = none) := by
  have hf : l.front_ ≠ some v := fun h => hnm (SpMember_front m l v h)
  have hpos : 0 < 2 ^ w := Nat.two_pow_pos w
  have h2 : 2 ≤ 2 ^ w := by
    calc 2 = 2 ^ 1 := rfl
      _ ≤ 2 ^ w := Nat.pow_le_pow_right (by decide) hw
  have hsz : (l.size_ + (2 ^ w - 1)) % 2 ^ w = if l.size_ = 0 then 2 ^ w - 1 else l.size_ - 1 := by
    by_cases h0 : l.size_ = 0
    · rw [if_pos h0, h0, Nat.zero_add, Nat.mod_eq_of_lt (by omega)]
    · rw [if_neg h0, size_dec w l.size_ (by omega) hsize]
  rw [sp_erase_of_unlinked w m l v hu hf]
  refine ⟨rfl, rfl, hsz, ?_, ?_⟩
  · show ((l.size_ + (2 ^ w - 1)) % 2 ^ w + 1) % 2 ^ w = l.size_
    rw [Nat.mod_add_mod]
    have h3 : l.size_ + (2 ^ w - 1) + 1 = l.size_ + 2 ^ w := by omega
    rw [h3, Nat.add_mod_right, Nat.mod_eq_of_lt hsize]
  · intro hl
    subst hl
    have h4 : (0 + (2 ^ w - 1)) % 2 ^ w = 2 ^ w - 1 := by
      rw [Nat.zero_add, Nat.mod_eq_of_lt (by omega)]
    refine ⟨h4, ?_, rfl⟩
    show decide (0 = (0 + (2 ^ w - 1)) % 2 ^ w) = false
    refine decide_eq_false ?_
    rw [h4]
    omega

/-- Witness of C23: erasing the unlinked value 1 from the empty list, with a 64-bit
`std::size_t`: `size()` is `2 ^ 64 - 1`. -/
theorem sp_intrusive_list_erase_nonmember_witness :
    0 < 64 ∧ spEmpty.size_ < 2 ^ 64 ∧ unlinked (freshHooks 1) ∧
    sp_intrusive_list.size (sp_intrusive_list.erase 64 freshHooks spEmpty 1).2 = 2 ^ 64 - 1 ∧
    sp_intrusive_list.empty (sp_intrusive_list.erase 64 freshHooks spEmpty 1).2 = false ∧
    sp_intrusive_list.front (sp_intrusive_list.erase 64 freshHooks spEmpty 1).2 = none :=
  ⟨by decide, by decide, by decide,
    (sp_intrusive_list_erase_nonmember 64 freshHooks spEmpty 1 (by decide) (by decide)
      (by decide)
      (fun h => by
        obtain ⟨fuel, hv⟩ := h
        cases fuel <;> exact absurd hv (List.not_mem_nil 1))).2.2.2.2 rfl⟩

/-! ## Session manager: delivery of the completion handlers -/

/-- C21: `start_extern_start` posts the handler to `io_service_` exactly once, with the error
`do_start_extern_start` returned, and stores it nowhere.  `start_extern_stop` and
`start_extern_wait` post the handler with the returned error exactly when
`do_start_extern_stop` or `do_start_extern_wait` returns a value, and otherwise store it in
`extern_stop_handler_` or `extern_wait_handler_` and post nothing.  None of the three calls
the handler inside the lane, and none both posts and stores it.  The state is the one the
`do_start_extern_` function left, whatever that function did. -/
theorem session_manager_completion_delivery (st : session_manager) (handler : Nat)
    (open_error : Option Nat) :
    (session_manager.start_extern_start_uses
        (session_manager.do_start_extern_start open_error st).1
        = [session_manager.handler_use.post
            (session_manager.do_start_extern_start open_error st).1] ∧
      session_manager.start_extern_start open_error st handler
        = (session_manager.start_extern_start_uses
            (session_manager.do_start_extern_start open_error st).1).foldl
          (session_manager.handler_use.apply handler)
          (session_manager.do_start_extern_start open_error st).2 ∧
      (session_manager.start_extern_start open_error st handler).posted
        = (session_manager.do_start_extern_start open_error st).2.posted
          ++ [(handler, (session_manager.do_start_extern_start open_error st).1)] ∧
      (session_manager.start_extern_start open_error st handler).extern_stop_handler_
        = (session_manager.do_start_extern_start open_error st).2.extern_stop_handler_ ∧
      (session_manager.start_extern_start open_error st handler).extern_wait_handler_
        = (session_manager.do_start_extern_start open_error st).2.extern_wait_handler_) ∧
    (session_manager.start_extern_stop st handler
        = (session_manager.start_extern_stop_uses
            (session_manager.do_start_extern_stop st).1).foldl
          (session_manager.handler_use.apply handler)
          (session_manager.do_start_extern_stop st).2 ∧
      (∀ result, (session_manager.do_start_extern_stop st).1 = some result →
        session_manager.start_extern_stop_uses (session_manager.do_start_extern_stop st).1
          = [session_manager.handler_use.post result] ∧
        (session_manager.start_extern_stop st handler).posted
          = (session_manager.do_start_extern_stop st).2.posted ++ [(handler, result)] ∧
        (session_manager.start_extern_stop st handler).extern_stop_handler_
          = (session_manager.do_start_extern_stop st).2.extern_stop_handler_ ∧
        (session_manager.start_extern_stop st handler).extern_wait_handler_
          = (session_manager.do_start_extern_stop st).2.extern_wait_handler_) ∧
      ((session_manager.do_start_extern_stop st).1 = none →
        session_manager.start_extern_stop_uses (session_manager.do_start_extern_stop st).1
          = [session_manager.handler_use.store_stop] ∧
        (session_manager.start_extern_stop st handler).posted
          = (session_manager.do_start_extern_stop st).2.posted ∧
        (session_manager.start_extern_stop st handler).extern_stop_handler_ = some handler ∧
        (session_manager.start_extern_stop st handler).extern_wait_handler_
          = (session_manager.do_start_extern_stop st).2.extern_wait_handler_)) ∧
    (session_manager.start_extern_wait st handler
        = (session_manager.start_extern_wait_uses
            (session_manager.do_start_extern_wait st).1).foldl
          (session_manager.handler_use.apply handler)
          (session_manager.do_start_extern_wait st).2 ∧
      (∀ result, (session_manager.do_start_extern_wait st).1 = some result →
        session_manager.start_extern_wait_uses (session_manager.do_start_extern_wait st).1
          = [session_manager.handler_use.post result] ∧
        (session_manager.start_extern_wait st handler).posted
          = (session_manager.do_start_extern_wait st).2.posted ++ [(handler, result)] ∧
        (session_manager.start_extern_wait st handler).extern_wait_handler_
          = (session_manager.do_start_extern_wait st).2.extern_wait_handler_ ∧
        (session_manager.start_extern_wait st handler).extern_stop_handler_
          = (session_manager.do_start_extern_wait st).2.extern_stop_handler_) ∧
      ((session_manager.do_start_extern_wait st).1 = none →
        session_manager.start_extern_wait_uses (session_manager.do_start_extern_wait st).1
          = [session_manager.handler_use.store_wait] ∧
        (session_manager.start_extern_wait st handler).posted
          = (session_manager.do_start_extern_wait st).2.posted ∧
        (session_manager.start_extern_wait st handler).extern_wait_handler_ = some handler ∧
        (session_manager.start_extern_wait st handler).extern_stop_handler_
          = (session_manager.do_start_extern_wait st).2.extern_stop_handler_)) ∧
    (∀ (error : session_manager.error_code) (result : Option session_manager.error_code),
      ∀ uses ∈ [session_manager.start_extern_start_uses error,
          session_manager.start_extern_stop_uses result,
          session_manager.start_extern_wait_uses result],
        uses.countP session_manager.handler_use.is_invoke = 0 ∧
        uses.countP session_manager.handler_use.is_post
          + uses.countP session_manager.handler_use.is_store = 1) := by
  refine ⟨⟨rfl, rfl, rfl, rfl, rfl⟩, ?_, ?_, ?_⟩
  · unfold session_manager.start_extern_stop
    cases h : session_manager.do_start_extern_stop st with
    | mk r st1 =>
      cases r with
      | none =>
        refine ⟨rfl, ?_, fun _ => ⟨rfl, rfl, rfl, rfl⟩⟩
        intro result hr
        cases hr
      | some e =>
        refine ⟨rfl, ?_, ?_⟩
        · intro result hr
          cases hr
          exact ⟨rfl, rfl, rfl, rfl⟩
        · intro hr
          cases hr
  · unfold session_manager.start_extern_wait
    cases h : session_manager.do_start_extern_wait st with
    | mk r st1 =>
      cases r with
      | none =>
        refine ⟨rfl, ?_, fun _ => ⟨rfl, rfl, rfl, rfl⟩⟩
        intro result hr
        cases hr
      | some e =>
        refine ⟨rfl, ?_, ?_⟩
        · intro result hr
          cases hr
          exact ⟨rfl, rfl, rfl, rfl⟩
        · intro hr
          cases hr
  · intro error result uses hu
    simp only [List.mem_cons, List.mem_singleton, List.not_mem_nil, or_false] at hu
    rcases hu with rfl | rfl | rfl
    · exact ⟨rfl, rfl⟩
    · cases result <;> exact ⟨rfl, rfl⟩
    · cases result <;> exact ⟨rfl, rfl⟩

/-- Witness of C21: on a started manager with an accept outstanding `async_stop` has no
result yet and the handler 7 is stored and not posted; on a fresh manager `async_stop`
completes at once with `ok` and the handler 7 is posted and not stored; and `async_wait` on
a started manager stores the handler 7. -/
theorem session_manager_completion_delivery_witness :
    (session_manager.do_start_extern_stop session_manager.started).1 = none ∧
    (session_manager.start_extern_stop session_manager.started 7).extern_stop_handler_
      = some 7 ∧
    (session_manager.start_extern_stop session_manager.started 7).posted
      = [(0, session_manager.error_code.ok)] ∧
    (session_manager.do_start_extern_stop (session_manager.create 1 0 1)).1
      = some session_manager.error_code.ok ∧
    (session_manager.start_extern_stop (session_manager.create 1 0 1) 7).posted
      = [(7, session_manager.error_code.ok)] ∧
    (session_manager.start_extern_stop (session_manager.create 1 0 1) 7).extern_stop_handler_
      = none ∧
    (session_manager.do_start_extern_wait session_manager.started).1 = none ∧
    (session_manager.start_extern_wait session_manager.started 7).extern_wait_handler_
      = some 7 :=
  ⟨rfl,
    ((session_manager_completion_delivery session_manager.started 7 none).2.1.2.2 rfl).2.2.1,
    ((session_manager_completion_delivery session_manager.started 7 none).2.1.2.2
      rfl).2.1.trans rfl,
    rfl,
    ((session_manager_completion_delivery (session_manager.create 1 0 1) 7 none).2.1.2.1
      session_manager.error_code.ok rfl).2.1.trans rfl,
    ((session_manager_completion_delivery (session_manager.create 1 0 1) 7 none).2.1.2.1
      session_manager.error_code.ok rfl).2.2.1.trans rfl,
    rfl,
    ((session_manager_completion_delivery session_manager.started 7 none).2.2.1.2.2
      rfl).2.2.1⟩


end ma
